import Mathlib

/-!
Shallow embedding of the rsurf succinct range filter (LOUDS-DENSE FST):
bit operations, growable bitmap with rank/select, key truncation, the
dense level-order builder, the trie cursor, and the query layer.
All definitions are translated from the Rust sources; `u64` values are
modelled as `Nat` taken modulo `2 ^ 64` where overflow can occur, byte
values as `Nat` below 256, and fallible operations return `Except`.
-/

namespace Rsurf

/-- The `&'static str` error channel used by the bitmap layer. -/
abbrev BmErr := String

/-- Model of `u64::count_ones`: number of set bits among the 64 bit
positions of a word (words are kept below `2 ^ 64`). -/
def countOnes64 (w : Nat) : Nat :=
  (List.range 64).countP (fun j => w.testBit j)

/-- Model of `Vec::resize(n, 0)`: truncate or pad with zeros to length `n`. -/
def listResize (l : List Nat) (n : Nat) : List Nat :=
  l.take n ++ List.replicate (n - l.length) 0

/-! ## bitops.rs -/

/-- `leading_ones_mask(n)`: top-`n` bits of a u64 set (n clamped to 64). -/
def leading_ones_mask (n : Nat) : Nat :=
  let n := min n 64
  if n = 0 then 0 else (0xFFFFFFFFFFFFFFFF <<< (64 - n)) % (2 ^ 64)

/-- `trailing_ones_mask(n)`: bottom-`n` bits of a u64 set (n clamped to 64). -/
def trailing_ones_mask (n : Nat) : Nat :=
  let n := min n 64
  if n = 0 then 0 else 0xFFFFFFFFFFFFFFFF >>> (64 - n)

/-- `ones_mask(leading, trailing)`: union of the two masks above. -/
def ones_mask (leading trailing : Nat) : Nat :=
  leading_ones_mask leading ||| trailing_ones_mask trailing

/-- `single_one_mask(idx)`: the single bit at top-down position `idx`
(idx clamped to 63). -/
def single_one_mask (idx : Nat) : Nat :=
  0x8000000000000000 >>> (min idx 63)

/-! ## bitmap.rs -/

/-- The growable bit vector. `data` is the list of u64 words; bit `i`
lives at top-down position `i % 64` of word `i / 64`. -/
structure Bitmap where
  capacity : Nat
  length : Nat
  data : List Nat
  deriving DecidableEq

namespace Bitmap

/-- `Bitmap::new(size, capacity)`. -/
def new (size capacity : Nat) : Bitmap :=
  let dataSize := (size + 63) / 64
  { capacity := capacity, length := dataSize * 64, data := List.replicate dataSize 0 }

/-- `Bitmap::resize(bit)` (private helper): grow `data` so that `length`
covers `bit` bits, capping at `capacity`. -/
def resize (bm : Bitmap) (bit : Nat) : Bitmap :=
  if bit < bm.length then bm
  else
    let bit := min bit bm.capacity
    let newLength := (bit + 63) / 64
    { bm with data := listResize bm.data newLength, length := newLength * 64 }

/-- `Bitmap::set(bit)`. -/
def set (bm : Bitmap) (bit : Nat) : Except BmErr Bitmap :=
  if bit ≥ bm.capacity then .error "Invalid index. Must be in range [0, capacity - 1]"
  else
    let bm := if bit ≥ bm.length then bm.resize (bit + 1) else bm
    let idx := bit / 64
    let offset := bit % 64
    let mask := single_one_mask offset
    .ok { bm with data := bm.data.set idx (bm.data.getD idx 0 ||| mask) }

/-- `Bitmap::unset(bit)`. -/
def unset (bm : Bitmap) (bit : Nat) : Except BmErr Bitmap :=
  if bit ≥ bm.capacity then .error "Invalid index. Must be in range [0, capacity - 1]"
  else
    let bm := if bit ≥ bm.length then bm.resize (bit + 1) else bm
    let idx := bit / 64
    let offset := bit % 64
    let mask := ones_mask offset (64 - offset - 1)
    .ok { bm with data := bm.data.set idx (bm.data.getD idx 0 &&& mask) }

/-- `Bitmap::get(bit)`: returns the bit value (0 or 1) together with the
possibly auto-grown bitmap (`get` takes `&mut self` in the source). -/
def get (bm : Bitmap) (bit : Nat) : Except BmErr (Nat × Bitmap) :=
  if bit ≥ bm.capacity then .error "Invalid index. Must be in range [0, capacity - 1]"
  else
    let bm := if bit ≥ bm.length then bm.resize (bit + 1) else bm
    let idx := bit / 64
    let offset := bit % 64
    let mask := single_one_mask offset
    .ok ((bm.data.getD idx 0 &&& mask) >>> (64 - offset - 1), bm)

/-- Word-skipping phase of `Bitmap::select`: starting at word boundary
`idx = 64 * k`, skip whole words while the cumulative count of value-`v`
bits stays below `nth`.  Returns the final `(count, idx)`. -/
def selectSkip (bm : Bitmap) (checkOnes : Bool) (nth : Nat) :
    Nat → Nat → Nat → Nat × Nat
  | count, idx, 0 => (count, idx)
  | count, idx, fuel + 1 =>
    if idx < bm.length then
      let additionalCount :=
        if checkOnes then countOnes64 (bm.data.getD (idx / 64) 0)
        else 64 - countOnes64 (bm.data.getD (idx / 64) 0)
      if count + additionalCount ≥ nth then (count, idx)
      else selectSkip bm checkOnes nth (count + additionalCount) (idx + 64) fuel
    else (count, idx)

theorem resize_capacity (bm : Bitmap) (bit : Nat) :
    (bm.resize bit).capacity = bm.capacity := by
  unfold resize
  split <;> rfl

theorem get_capacity {bm bm' : Bitmap} {bit v : Nat}
    (h : bm.get bit = .ok (v, bm')) : bm'.capacity = bm.capacity := by
  unfold get at h
  split at h
  · exact absurd h (by simp)
  · split at h
    · simp only [Except.ok.injEq, Prod.mk.injEq] at h
      rw [← h.2]
      simp [resize_capacity]
    · simp only [Except.ok.injEq, Prod.mk.injEq] at h
      rw [← h.2]

theorem get_lt_capacity {bm bm' : Bitmap} {bit v : Nat}
    (h : bm.get bit = .ok (v, bm')) : bit < bm.capacity := by
  unfold get at h
  split at h
  · exact absurd h (by simp)
  · omega

/-- Bit-scanning phase of `Bitmap::select`: advance `idx` until `count`
reaches `nth`, reading single bits through `get` (which can auto-grow or
fail).  Terminates because `get` fails once `idx` reaches `capacity`. -/
def selectScan (bm : Bitmap) (checkOnes : Bool) (nth count idx : Nat) :
    Except BmErr (Nat × Bitmap) :=
  if count < nth then
    match h : bm.get idx with
    | .error e => .error e
    | .ok (bitVal, bm') =>
      have hlt : idx < bm'.capacity := get_capacity h ▸ get_lt_capacity h
      if (bitVal = 1 ∧ checkOnes) ∨ (bitVal = 0 ∧ ¬checkOnes) then
        selectScan bm' checkOnes nth (count + 1) (idx + 1)
      else
        selectScan bm' checkOnes nth count (idx + 1)
  else .ok (idx - 1, bm)
  termination_by bm.capacity + 64 - idx
  decreasing_by
  · have hcap : bm'.capacity = bm.capacity := get_capacity h
    omega
  · have hcap : bm'.capacity = bm.capacity := get_capacity h
    omega

/-- `Bitmap::select(val, nth)`: position of the `nth` bit of value `val`
(the source returns `idx - 1` after the scan). -/
def select (bm : Bitmap) (val nth : Nat) : Except BmErr (Nat × Bitmap) :=
  if val ≠ 0 ∧ val ≠ 1 then .error "Val must be one of 0, 1"
  else if nth = 0 ∨ nth > bm.length then .error "Nth must be in [1, length]"
  else
    let checkOnes := val = 1
    let (count, idx) := bm.selectSkip checkOnes nth 0 0 (bm.data.length + 1)
    if idx ≥ bm.length then .error "Bitmap only contained nth bits of value val"
    else bm.selectScan checkOnes nth count idx

/-- One block of the `Bitmap::rank` loop: count of value-`v` bits the
block starting at bit `i` contributes to `rank(v, idx)`. -/
def rankBlock (bm : Bitmap) (checkOnes : Bool) (idx i : Nat) : Nat :=
  let fullBlock := i + 63 < idx
  let onesCount :=
    if fullBlock then countOnes64 (bm.data.getD (i / 64) 0)
    else countOnes64 (bm.data.getD (i / 64) 0 &&& leading_ones_mask (idx - i + 1))
  if checkOnes then onesCount
  else if fullBlock then 64 - onesCount
  else idx - i + 1 - onesCount

/-- `Bitmap::rank(val, idx)`: count of value-`val` bits in positions
`[0, idx]` inclusive. -/
def rank (bm : Bitmap) (val idx : Nat) : Except BmErr Nat :=
  if idx ≥ bm.length then .error "Index must be in range [0, length - 1]"
  else if val ≠ 0 ∧ val ≠ 1 then .error "Val must be one of 0, 1"
  else
    let checkOnes := val = 1
    .ok (((List.range (idx / 64 + 1)).map (fun k => rankBlock bm checkOnes idx (64 * k))).sum)

end Bitmap

/-- Logical view of bit `i` of a bitmap (top-down position within each
64-bit word); positions beyond the stored words read as `false`. -/
def Bitmap.viewBit (bm : Bitmap) (i : Nat) : Bool :=
  Nat.testBit (bm.data.getD (i / 64) 0) (63 - i % 64)

-- Sanity checks against the source's unit tests.
example :
    (do
      let bm := Bitmap.new 64 64
      let bm ← bm.set 0
      let bm ← bm.set 7
      let bm ← bm.set 16
      let bm ← bm.set 63
      pure bm.data : Except BmErr (List Nat)) = .ok [0x8100800000000001] := by
  rfl

example : leading_ones_mask 3 = 0xE000000000000000 := by decide
example : trailing_ones_mask 62 = 0x3FFFFFFFFFFFFFFF := by decide
example : single_one_mask 1 = 0x4000000000000000 := by decide

example :
    ((Bitmap.new 64 64).set 5 >>= fun bm => bm.rank 1 63) = .ok 1 := by
  rfl


/-! ## Result channel with panics

Rust code can return `Ok`, return `Err`, or panic (out-of-bounds index /
`unwrap` on `None`); loops written with `loop` can additionally fail to
terminate, which the shallow embedding cuts off with fuel. -/

inductive LoopRes (ε α : Type) where
  | ok (a : α)
  | err (e : ε)
  | panicked
  | fuelOut
  deriving DecidableEq

instance : Monad (LoopRes ε) where
  pure := .ok
  bind r f :=
    match r with
    | .ok a => f a
    | .err e => .err e
    | .panicked => .panicked
    | .fuelOut => .fuelOut

/-- Lift a fallible bitmap call (`?` operator). -/
def LoopRes.ofExcept : Except ε α → LoopRes ε α
  | .ok a => .ok a
  | .error e => .err e

/-- Lift an indexing / `unwrap` operation that panics on `None`. -/
def LoopRes.ofOption : Option α → LoopRes ε α
  | some a => .ok a
  | none => .panicked

/-! ## key.rs -/

/-- A key is a byte string (`Vec<u8>`); bytes are `Nat`s below 256. -/
abbrev Key := List Nat

/-- `KeyOps::less`: lexicographic byte-wise comparison, ties broken by
shorter-is-less.  This agrees with the `Ord` instance of `Vec<u8>` that
`Vec::sort` uses in `Surf::new`. -/
def Key.less : Key → Key → Bool
  | [], other => 0 < other.length
  | _ :: _, [] => false
  | x :: xs, y :: ys =>
    if x < y then true else if y < x then false else Key.less xs ys

/-- `a <= b` on `Vec<u8>` (lexicographic `Ord`), used by `keys.sort()`
and by the range queries' key comparisons. -/
def keyLe : Key → Key → Bool
  | [], _ => true
  | _ :: _, [] => false
  | x :: xs, y :: ys =>
    if x < y then true else if y < x then false else keyLe xs ys

/-- `first_difference_at(a, b)`: whether the two byte strings differ and
the first index at which they do (a strict prefix differs at the length
of the shorter). -/
def first_difference_at : Key → Key → Bool × Nat :=
  go 0
where
  go (i : Nat) : Key → Key → Bool × Nat
    | x :: xs, y :: ys => if x ≠ y then (true, i) else go (i + 1) xs ys
    | xs, ys => if xs.length = ys.length then (false, 0) else (true, i)

/-- Body of the `truncate` loop for index `i`. -/
def truncateAt (keys : List Key) (i : Nat) : Key :=
  let key := keys.getD i []
  let first_difference_before :=
    if i ≠ 0 then
      let (differ, fdb) := first_difference_at key (keys.getD (i - 1) [])
      if ¬differ then key.length else fdb
    else 0
  let first_difference_after :=
    if i ≠ keys.length - 1 then
      let (differ, fda) := first_difference_at key (keys.getD (i + 1) [])
      if ¬differ then key.length else fda
    else 0
  let n :=
    if first_difference_after > first_difference_before then first_difference_after
    else first_difference_before
  let n := if n < key.length then n + 1 else n
  key.take n

/-- `truncate(keys)`: replace each key by its minimal distinguishing
prefix relative to its sorted neighbours. -/
def truncate (keys : List Key) : List Key :=
  (List.range keys.length).map (truncateAt keys)

/-! ## dense.rs -/

/-- `NodeTask`: the keys whose path passes through a future node, plus
whether that node terminates a stored key. -/
structure NodeTask where
  keys : List Key
  is_prefix_key : Bool
  deriving DecidableEq

/-- The LOUDS-DENSE builder state. -/
structure Builder where
  labels : Bitmap
  has_child : Bitmap
  is_prefix_key : Bitmap
  tasks : List NodeTask
  current_task_id : Nat
  current_node_id : Nat
  deriving DecidableEq

/-- `max_key_length(keys)`. -/
def max_key_length (keys : List Key) : Nat :=
  (keys.map List.length).foldr max 0

namespace Builder

/-- `Builder::new(memory_limit)`. -/
def new (memory_limit : Nat) : Builder :=
  let memory_unit := memory_limit / (256 + 256 + 1)
  { labels := Bitmap.new 256 (256 * memory_unit)
    has_child := Bitmap.new 256 (256 * memory_unit)
    is_prefix_key := Bitmap.new 1 memory_unit
    tasks := []
    current_task_id := 0
    current_node_id := 0 }

def label_offset (b : Builder) : Nat := b.current_node_id * 256

def has_child_offset (b : Builder) : Nat := b.current_node_id * 256

def is_prefix_key_offset (b : Builder) : Nat := b.current_node_id

/-- `Builder::append_node_task`. -/
def append_node_task (b : Builder) : Builder :=
  let task : NodeTask := { keys := [], is_prefix_key := false }
  let tasks := b.tasks ++ [task]
  { b with tasks := tasks, current_task_id := tasks.length - 1 }

/-- Second half of the per-key loop body inside `Builder::build`: the
terminal / has-child bookkeeping for `key` at `depth` through edge
`edge`, after the label/new-task handling. -/
def buildKeyFinish (depth : Nat) (key : Key) (edge : Nat)
    (b : Builder) (node_has_edges : Bool) (most_recent_edge : Nat) :
    LoopRes BmErr (Builder × Bool × Nat) :=
  if depth = key.length - 1 then
    match b.tasks.get? b.current_task_id with
    | none => .panicked
    | some current_task =>
      let tasks := b.tasks.set b.current_task_id
        { current_task with is_prefix_key := true }
      .ok ({ b with tasks := tasks }, node_has_edges, most_recent_edge)
  else
    match b.has_child.set (b.has_child_offset + edge) with
    | .error e => .err e
    | .ok has_child =>
      match b.tasks.get? b.current_task_id with
      | none => .panicked
      | some current_task =>
        let tasks := b.tasks.set b.current_task_id
          { current_task with keys := current_task.keys ++ [key] }
        .ok ({ b with has_child := has_child, tasks := tasks },
             node_has_edges, most_recent_edge)

/-- One iteration of the per-key loop inside `Builder::build` (state:
builder, `node_has_edges`, `most_recent_edge`).  `key[depth]` panics when
`depth` is out of bounds. -/
def buildKeyStep (depth : Nat) (st : Builder × Bool × Nat) (key : Key) :
    LoopRes BmErr (Builder × Bool × Nat) :=
  let (b, node_has_edges, most_recent_edge) := st
  match key.get? depth with
  | none => .panicked
  | some edge =>
    if ¬node_has_edges ∨ most_recent_edge ≠ edge then
      match b.labels.set (b.label_offset + edge) with
      | .error e => .err e
      | .ok labels =>
        let task : NodeTask := { keys := [], is_prefix_key := false }
        let tasks := b.tasks ++ [task]
        buildKeyFinish depth key edge
          { b with
            labels := labels,
            tasks := tasks,
            current_task_id := tasks.length - 1 } true edge
    else buildKeyFinish depth key edge b node_has_edges most_recent_edge

/-- The pre-touch / prefix-flag / key-loop part of one task iteration,
for a non-empty task.  The three bitmap updates are independent, so the
sequential `&mut self` mutations of the source are threaded into one
record update before the key loop. -/
def buildTaskBody (depth : Nat) (b : Builder) (task : NodeTask) :
    LoopRes BmErr Builder :=
  match b.labels.get (b.label_offset + 255) with
  | .error e => .err e
  | .ok (_, labels) =>
    match b.has_child.get (b.has_child_offset + 255) with
    | .error e => .err e
    | .ok (_, has_child) =>
      match b.is_prefix_key.get b.is_prefix_key_offset with
      | .error e => .err e
      | .ok (_, ipk0) =>
        match (if task.is_prefix_key then ipk0.set b.is_prefix_key_offset
               else .ok ipk0 : Except BmErr Bitmap) with
        | .error e => .err e
        | .ok ipk =>
          match task.keys.foldlM (Builder.buildKeyStep depth)
              ({ b with
                 labels := labels,
                 has_child := has_child,
                 is_prefix_key := ipk }, false, 0x00) with
          | .err e => .err e
          | .panicked => .panicked
          | .fuelOut => .fuelOut
          | .ok (bf, _, _) => .ok { bf with current_node_id := bf.current_node_id + 1 }

/-- One iteration of the per-task loop inside `Builder::build` (task
index `i` of the current level). -/
def buildTaskStep (depth : Nat) (b : Builder) (i : Nat) : LoopRes BmErr Builder :=
  match b.tasks.get? i with
  | none => .panicked
  | some task =>
    if task.keys.isEmpty then .ok b
    else buildTaskBody depth b task

/-- One depth iteration of `Builder::build`: process the `n` tasks of
the current level, then drain them. -/
def buildLevel (b : Builder) (depth : Nat) : LoopRes BmErr Builder :=
  let n := b.tasks.length
  match (List.range n).foldlM (buildTaskStep depth) b with
  | .err e => .err e
  | .panicked => .panicked
  | .fuelOut => .fuelOut
  | .ok b => .ok { b with tasks := b.tasks.drop n }

/-- `Builder::build(keys)`. -/
def build (b : Builder) (keys : List Key) : LoopRes BmErr Builder :=
  let b := b.append_node_task
  match b.tasks.get? b.current_task_id with
  | none => .panicked
  | some current_task =>
    let b := { b with tasks := b.tasks.set b.current_task_id { current_task with keys := keys } }
    (List.range (max_key_length keys)).foldlM buildLevel b

end Builder

/-! ## iterator.rs -/

/-- `SurfError`. -/
inductive SurfError where
  | noSuchEdge
  | isLeaf
  | endOfTrie
  | customError (s : String)
  deriving DecidableEq

/-- The `Display` implementation for `SurfError` (used by the string
comparisons in `Iterator::next`). -/
def SurfError.displayString : SurfError → String
  | .noSuchEdge => "No such edge"
  | .isLeaf => "Is leaf"
  | .endOfTrie => "Reached end of trie"
  | .customError s => s

/-- The trie cursor.  `keyPrefix` is the source's `key_prefix` byte
stack; the `VecDeque`s are used as back-in/back-out stacks. -/
structure Iterator where
  labels : Bitmap
  has_child : Bitmap
  is_prefix_key : Bitmap
  node_index : Nat
  nodes : List Nat
  next_edge : Nat
  edges : List Nat
  keyPrefix : List Nat
  deriving DecidableEq

namespace Iterator

/-- `Iterator::go_to_child(edge)`: returns the `Result` together with
the mutated cursor (`next_edge` is overwritten first; on success the
stacks are pushed and `node_index` moves to `rank₁(HasChild, offset)`). -/
def go_to_child (it : Iterator) (edge : Nat) : Except SurfError Unit × Iterator :=
  let it := { it with next_edge := edge }
  let offset := 256 * it.node_index + edge
  match it.labels.get offset with
  | .error e => (.error (.customError e), it)
  | .ok (has_label, labels) =>
    let it := { it with labels := labels }
    if has_label ≠ 1 then (.error .noSuchEdge, it)
    else
      match it.has_child.get offset with
      | .error e => (.error (.customError e), it)
      | .ok (has_child_bit, hc) =>
        let it := { it with has_child := hc }
        if has_child_bit ≠ 1 then (.error .isLeaf, it)
        else
          match it.has_child.rank 1 offset with
          | .error e => (.error (.customError e), it)
          | .ok next_node =>
            (.ok (), { it with
                       keyPrefix := it.keyPrefix ++ [it.next_edge % 256],
                       nodes := it.nodes ++ [it.node_index],
                       edges := it.edges ++ [edge],
                       node_index := next_node,
                       next_edge := 0 })

/-- Result of the inner `for` loop of `Iterator::next`: either the
function returned, or the loop fell through after its iterations. -/
inductive NextInnerRes where
  | done (r : LoopRes SurfError (List Nat)) (it : Iterator)
  | fellThrough (it : Iterator)

/-- The inner `for _ in self.next_edge..256` loop of `Iterator::next`,
with `k` remaining iterations.  Note the source compares the error's
`Display` string against the messages of error types that no longer
exist ("Cannot move to non-existent edge" / "Cannot move to leaf node"),
so the `NoSuchEdge` and `IsLeaf` arms compare against strings that
`SurfError` never produces. -/
def nextInner (it : Iterator) : Nat → NextInnerRes
  | 0 => .fellThrough it
  | k + 1 =>
    match go_to_child it (it.next_edge % 256) with
    | (.ok _, it') =>
      match it'.is_prefix_key.get it'.node_index with
      | .error e => .done (.err (.customError e)) it'
      | .ok (ipk, bm) =>
        let it' := { it' with is_prefix_key := bm }
        if ipk = 1 then .done (.ok it'.keyPrefix) it'
        else nextInner it' k
    | (.error e, it') =>
      if e.displayString = "Cannot move to non-existent edge" then nextInner it' k
      else if e.displayString = "Cannot move to leaf node" then
        let key := it'.keyPrefix ++ [it'.next_edge % 256]
        .done (.ok key) { it' with next_edge := it'.next_edge + 1 }
      else .done (.err e) it'

/-- `Iterator::next()`: the outer `loop`, cut off by `fuel` (the source
can loop forever on adversarial bitmaps).  Backtracking pops the stacks
(`unwrap` panics if they are empty). -/
def next (it : Iterator) : Nat → LoopRes SurfError (List Nat) × Iterator
  | 0 => (.fuelOut, it)
  | fuel + 1 =>
    match nextInner it (256 - it.next_edge) with
    | .done r it' => (r, it')
    | .fellThrough it' =>
      if it'.node_index = 0 then (.err .endOfTrie, it')
      else
        match it'.nodes.getLast?, it'.edges.getLast? with
        | some n, some e =>
          next { it' with
                 node_index := n,
                 nodes := it'.nodes.dropLast,
                 next_edge := e + 1,
                 edges := it'.edges.dropLast,
                 keyPrefix := it'.keyPrefix.dropLast } fuel
        | _, _ => (.panicked, it')

end Iterator

/-! ## options.rs -/

structure Options where
  r : Nat
  hash_bits : Nat
  real_bits : Nat
  memory_limit : Nat
  deriving DecidableEq

/-- `Options::new()` (also the `Default`). -/
def Options.new : Options :=
  { r := 64, hash_bits := 4, real_bits := 4, memory_limit := 256000000 }

/-! ## surf.rs -/

/-- The built index: the three LOUDS-DENSE bitmaps. -/
structure Surf where
  dense_labels : Bitmap
  dense_has_child : Bitmap
  dense_is_prefix_key : Bitmap
  deriving DecidableEq

namespace Surf

/-- `Surf::new(raw_keys, options)`: sort, truncate, run the dense
builder.  (`keys.sort()` is the lexicographic `Vec<u8>` order.) -/
def new (raw_keys : List Key) (options : Options) : LoopRes SurfError Surf :=
  let keys := raw_keys.mergeSort keyLe
  let keys := truncate keys
  let dense_builder := Builder.new options.memory_limit
  match dense_builder.build keys with
  | .ok b =>
    .ok { dense_labels := b.labels, dense_has_child := b.has_child,
          dense_is_prefix_key := b.is_prefix_key }
  | .err e => .err (.customError e)
  | .panicked => .panicked
  | .fuelOut => .fuelOut

/-- Result of the byte-by-byte descent loop of `Surf::lookup`: either an
early `return` with `(exists, matched, it, err)`, or full traversal. -/
inductive DescentRes where
  | ret (ex : Bool) (matched : List Nat) (it : Iterator) (e : Option SurfError)
  | through (it : Iterator)
  deriving DecidableEq

/-- The `for i in 0..key.len()` loop of `Surf::lookup`: descend through
the bytes of `key`; `consumed` counts the bytes already consumed. -/
def lookupDescend (key : Key) : Iterator → Nat → List Nat → DescentRes
  | it, _, [] => .through it
  | it, consumed, key_byte :: rest =>
    match Iterator.go_to_child it key_byte with
    | (.ok _, it') => lookupDescend key it' (consumed + 1) rest
    | (.error e, it') =>
      if e = .noSuchEdge then .ret false [] it' none
      else if e = .isLeaf then .ret true (key.take (consumed + 1)) it' none
      else .ret false [] it' (some e)

/-- The cursor literal `Surf::lookup` starts from: fresh clones of the
three bitmaps, root node, `next_edge = 0`, empty stacks. -/
def initIterator (s : Surf) : Iterator :=
  { labels := s.dense_labels,
    has_child := s.dense_has_child,
    is_prefix_key := s.dense_is_prefix_key,
    node_index := 0, next_edge := 0, edges := [], nodes := [], keyPrefix := [] }

/-- `Surf::lookup(key)`: returns the `(exists, matched_prefix, iterator,
soft error)` tuple together with the (possibly auto-grown) `Surf`. -/
def lookup (s : Surf) (key : Key) :
    Except SurfError (Bool × List Nat × Iterator × Option SurfError) × Surf :=
  let it : Iterator := s.initIterator
  match lookupDescend key it 0 key with
  | .ret ex matched it' e => (.ok (ex, matched, it', e), s)
  | .through it' =>
    match s.dense_is_prefix_key.get it'.node_index with
    | .ok (is_prefix_bit, bm) =>
      let s := { s with dense_is_prefix_key := bm }
      if is_prefix_bit = 1 then (.ok (true, key, it', none), s)
      else (.ok (false, [], it', none), s)
    | .error e =>
      (.ok (false, [], it',
        some (.customError ("Error accessing bit in D-IsPrefixKey: " ++ e))), s)

/-- `Surf::lookup_or_greater(key)`: on a hit bump `next_edge`; on a miss
call `Iterator::next` (whose fuel is `fuel`). -/
def lookup_or_greater (s : Surf) (key : Key) (fuel : Nat) :
    LoopRes SurfError (List Nat × Iterator × Option SurfError) × Surf :=
  match s.lookup key with
  | (.error e, s) => (.err e, s)
  | (.ok (ex, matched_key, it, _err), s) =>
    if ex then
      (.ok (matched_key, { it with next_edge := it.next_edge + 1 }, none), s)
    else
      match it.next fuel with
      | (.ok larger_key, it) => (.ok (larger_key, it, none), s)
      | (.err e, it) => (.ok ([], it, some e), s)
      | (.panicked, _) => (.panicked, s)
      | (.fuelOut, _) => (.fuelOut, s)

/-- The `while cur_key <= high_key` loop of `Surf::count`. -/
def countLoop (high_key : Key) (nextFuel : Nat) :
    Key → Nat → Iterator → Nat → LoopRes SurfError Nat × Iterator
  | _, _, it, 0 => (.fuelOut, it)
  | cur_key, count, it, fuel + 1 =>
    if keyLe cur_key high_key then
      match it.next nextFuel with
      | (.ok next_key, it) => countLoop high_key nextFuel next_key (count + 1) it fuel
      | (.err _, it) => (.ok (count + 1), it)
      | (.panicked, it) => (.panicked, it)
      | (.fuelOut, it) => (.fuelOut, it)
    else (.ok count, it)

/-- `Surf::count(low, high)`: range count via `lookup_or_greater` and
repeated `next`. -/
def count (s : Surf) (low high : Key) (fuel : Nat) : LoopRes SurfError Nat × Surf :=
  match s.lookup_or_greater low fuel with
  | (.ok (matched_key, it, _err), s) =>
    ((countLoop high fuel matched_key 0 it fuel).1, s)
  | (.err e, s) => (.err e, s)
  | (.panicked, s) => (.panicked, s)
  | (.fuelOut, s) => (.fuelOut, s)

end Surf

/-! ## Claim C10: frame effect of a failed `go_to_child` -/

/-- C10: if `go_to_child(edge)` returns `NoSuchEdge` or `IsLeaf`, then
`node_index`, the `nodes` stack, the `edges` stack and the `key_prefix`
stack are left unchanged, while `next_edge` is overwritten with the
attempted edge even though the descent failed. -/
theorem go_to_child_failure_frame (it : Iterator) (edge : Nat)
    (h : (it.go_to_child edge).1 = .error .noSuchEdge ∨
         (it.go_to_child edge).1 = .error .isLeaf) :
    (it.go_to_child edge).2.node_index = it.node_index ∧
    (it.go_to_child edge).2.nodes = it.nodes ∧
    (it.go_to_child edge).2.edges = it.edges ∧
    (it.go_to_child edge).2.keyPrefix = it.keyPrefix ∧
    (it.go_to_child edge).2.next_edge = edge := by
  simp only [Iterator.go_to_child] at h ⊢
  rcases h with h | h <;>
  · split at h
    all_goals try split at h
    all_goals try split at h
    all_goals try split at h
    all_goals try split at h
    all_goals first
      | exact ⟨rfl, rfl, rfl, rfl, rfl⟩
      | (simp at h
         done)
      | (clear h
         split
         all_goals exact ⟨rfl, rfl, rfl, rfl, rfl⟩)

/-- Witness for C10 at a concrete cursor: descending edge 0 from the
root of an empty 256-bit bitmap triple fails with `NoSuchEdge` and shows
the claimed frame effect. -/
theorem go_to_child_failure_frame_witness :
    ((Surf.initIterator ⟨Bitmap.new 256 256, Bitmap.new 256 256, Bitmap.new 1 1⟩).go_to_child
        3).1 = .error .noSuchEdge ∧
    ((Surf.initIterator ⟨Bitmap.new 256 256, Bitmap.new 256 256, Bitmap.new 1 1⟩).go_to_child
        3).2.next_edge = 3 :=
  ⟨rfl,
   (go_to_child_failure_frame
      (Surf.initIterator ⟨Bitmap.new 256 256, Bitmap.new 256 256, Bitmap.new 1 1⟩) 3
      (Or.inl rfl)).2.2.2.2⟩

/-! ## selectScan stepping lemmas -/

theorem selectScan_done {bm : Bitmap} {c : Bool} {nth count idx : Nat}
    (h : ¬ count < nth) :
    bm.selectScan c nth count idx = .ok (idx - 1, bm) := by
  unfold Bitmap.selectScan
  simp [h]

theorem selectScan_step_err {bm : Bitmap} {c : Bool} {nth count idx : Nat} {e : BmErr}
    (hget : bm.get idx = .error e) (hcount : count < nth) :
    bm.selectScan c nth count idx = .error e := by
  conv_lhs => unfold Bitmap.selectScan
  rw [if_pos hcount]
  split
  · rename_i e' heq
    rw [hget] at heq
    cases heq
    rfl
  · rename_i v bm' heq
    rw [hget] at heq
    cases heq

theorem selectScan_step_ok {bm bm' : Bitmap} {c : Bool} {nth count idx v : Nat}
    (hget : bm.get idx = .ok (v, bm')) (hcount : count < nth) :
    bm.selectScan c nth count idx =
      bm'.selectScan c nth
        (if (v = 1 ∧ c = true) ∨ (v = 0 ∧ ¬ c = true) then count + 1 else count)
        (idx + 1) := by
  conv_lhs => unfold Bitmap.selectScan
  rw [if_pos hcount]
  split
  · rename_i e' heq
    rw [hget] at heq
    cases heq
  · rename_i v' bm'' heq
    rw [hget] at heq
    cases heq
    split <;> rfl

/-! ## Claim C2: enumeration (string-comparison bug in `next`) -/

unseal List.merge List.mergeSort

set_option maxRecDepth 4000 in
/-- C2 (code-bug evidence): over the index built from the single-key set
{[0x61]} (already sorted and truncated, |S| = 1), the very first
`next_key` from a fresh cursor must yield the encoded key `[0x61]`, but
the code returns the `NoSuchEdge` error: `Iterator::next` compares the
error's display string ("No such edge") against the stale message
"Cannot move to non-existent edge", so the skip-missing-edge arm never
fires. -/
theorem next_key_errors_on_first_missing_edge :
    ∃ s : Surf, Surf.new [[97]] Options.new = .ok s ∧
      ((Surf.initIterator s).next 1000).1 = .err .noSuchEdge :=
  ⟨_, rfl, rfl⟩

/-! ## Claim C6: lookup_or_greater misses / EndOfTrie propagation -/

set_option maxRecDepth 4000 in
/-- C6 (code-bug evidence): over the index built from {[0x61]}, the
query [0x62] exceeds every stored key, so `lookup_or_greater` must
propagate `EndOfTrie`; instead the broken `next` surfaces `NoSuchEdge`
(and no successor key).  The hit path (bumping `next_edge` and
returning the matched prefix) is also exercised: looking up [0x61]
returns the match with `next_edge` incremented to 0x61 + 1. -/
theorem lookup_or_greater_misses_endoftrie :
    ∃ s : Surf, Surf.new [[97]] Options.new = .ok s ∧
      (∃ it : Iterator,
        (s.lookup_or_greater [98] 1000).1 = .ok ([], it, some .noSuchEdge)) ∧
      (∃ it : Iterator,
        (s.lookup_or_greater [97] 1000).1 = .ok ([97], it, none) ∧
        it.next_edge = 97 + 1) :=
  ⟨_, rfl, ⟨_, rfl⟩, ⟨_, rfl, rfl⟩⟩

/-! ## Claim C7: range_count example -/

set_option maxRecDepth 4000 in
/-- C7 (code-bug evidence): over the index built from
{"ai","ao","f","fa","fe"}, `range_count("a","fb")` must return 4
("ai","ao","f","fa"); because of the error-string comparison bug in
`Iterator::next` the enumeration aborts immediately and `count` returns
1 (the initial `lookup_or_greater` miss yields the empty key, which is
counted, and the first `next` fails). -/
theorem range_count_example_returns_one :
    ∃ s : Surf,
      Surf.new [[0x61, 0x69], [0x61, 0x6F], [0x66], [0x66, 0x61], [0x66, 0x65]]
          Options.new = .ok s ∧
      (s.count [0x61] [0x66, 0x62] 1000).1 = .ok 1 :=
  ⟨_, rfl, rfl⟩

/-! ## Claim C9: build safety (panic on the empty key) -/

set_option maxRecDepth 4000 in
/-- C9 (counterexample): `Surf::new` over the list containing the empty
key alongside a longer key panics: the builder evaluates `key[depth]`
at depth 0 on the empty key, an out-of-bounds index. -/
theorem surf_new_panics_on_empty_key :
    Surf.new [[], [97]] Options.new = .panicked :=
  rfl

/-! ## Claim C5: truncation (minimal distinguishing prefix) -/

/-- Modelled from the claim's words: `p` is a prefix of the `i`-th key
that distinguishes it from both its immediate predecessor and its
immediate successor (a prefix of the neighbour cannot tell the two
keys apart). -/
def distinguishingAt (ks : List Key) (i : Nat) (p : Key) : Prop :=
  p <+: ks.getD i [] ∧
  (0 < i → ¬ p <+: ks.getD (i - 1) []) ∧
  (i + 1 < ks.length → ¬ p <+: ks.getD (i + 1) [])

/-- Modelled from the claim's words: `p` is the shortest prefix of the
`i`-th key distinguishing it from both neighbours. -/
def shortestDistinguishingAt (ks : List Key) (i : Nat) (p : Key) : Prop :=
  distinguishingAt ks i p ∧
  ∀ q : Key, distinguishingAt ks i q → p.length ≤ q.length

/-- C5 (counterexample): on the distinct sorted nonempty input
[[0x66], [0x66, 0x61]] (= ["f", "fa"]), `truncate` returns "f" for the
first key, but "f" is a prefix of the successor "fa", so it does not
distinguish the first key from its successor (indeed no prefix does);
the element therefore is not "the shortest prefix that distinguishes it
from both its immediate predecessor and successor" as claimed. -/
theorem truncate_not_shortest_distinguishing :
    (truncate [[102], [102, 97]]).getD 0 [] = [102] ∧
    ¬ shortestDistinguishingAt [[102], [102, 97]] 0
        ((truncate [[102], [102, 97]]).getD 0 []) := by
  refine ⟨rfl, fun hcontra => ?_⟩
  have h := hcontra.1.2.2 (by norm_num)
  exact h ⟨[97], rfl⟩

/-! ## Claim C8: select counterexample -/

set_option maxRecDepth 4000 in
/-- C8 (counterexample): `Bitmap::new(65, 1)` has `length = 128` and
128 zero bits, so for `v = 0`, `n = 2` the claim demands the smallest
index with `rank(0, i) = 2` (namely 1), and permits failure only with
`NotFound` when fewer than 2 zero bits exist.  Instead `select(0, 2)`
fails with the capacity error: the bit scan runs `get` past
`capacity`. -/
theorem select_capacity_error_counterexample :
    (Bitmap.new 65 1).select 0 2 =
      .error "Invalid index. Must be in range [0, capacity - 1]" ∧
    (Bitmap.new 65 1).length = 128 ∧
    2 ≤ (List.range (Bitmap.new 65 1).length).countP
          (fun i => (Bitmap.new 65 1).viewBit i = false) := by
  refine ⟨?_, rfl, by decide⟩
  have h : (Bitmap.new 65 1).select 0 2 = (Bitmap.new 65 1).selectScan false 2 0 0 := rfl
  rw [h, selectScan_step_ok
        (show (Bitmap.new 65 1).get 0 = Except.ok (0, Bitmap.new 65 1) from rfl)
        (by norm_num)]
  norm_num
  exact selectScan_step_err rfl (by norm_num)

/-! ## Claim C3: point-lookup characterization -/

/-- Outcome of descending a key byte-by-byte with `go_to_child`,
recorded independently of `Surf::lookup`: the step index and cursor at
the first `NoSuchEdge`/`IsLeaf`/other error, or the final cursor after
a full traversal. -/
inductive DescentOutcome where
  | noEdge (i : Nat) (it : Iterator)
  | leaf (i : Nat) (it : Iterator)
  | fault (e : SurfError) (it : Iterator)
  | complete (it : Iterator)
  deriving DecidableEq

/-- Byte-by-byte descent over the remaining bytes, with `i` bytes
already consumed. -/
def descentOutcome (it : Iterator) (i : Nat) : List Nat → DescentOutcome
  | [] => .complete it
  | b :: rest =>
    match Iterator.go_to_child it b with
    | (.ok _, it') => descentOutcome it' (i + 1) rest
    | (.error .noSuchEdge, it') => .noEdge i it'
    | (.error .isLeaf, it') => .leaf i it'
    | (.error e, it') => .fault e it'

theorem lookupDescend_eq_descentOutcome (key : Key) :
    ∀ (rest : List Nat) (it : Iterator) (consumed : Nat),
      Surf.lookupDescend key it consumed rest =
        match descentOutcome it consumed rest with
        | .noEdge _ it' => .ret false [] it' none
        | .leaf i it' => .ret true (key.take (i + 1)) it' none
        | .fault e it' => .ret false [] it' (some e)
        | .complete it' => .through it'
  | [], it, consumed => rfl
  | b :: rest, it, consumed => by
    unfold Surf.lookupDescend descentOutcome
    match hg : Iterator.go_to_child it b with
    | (.ok _, it') =>
      simpa using lookupDescend_eq_descentOutcome key rest it' (consumed + 1)
    | (.error .noSuchEdge, it') => simp
    | (.error .isLeaf, it') => simp
    | (.error .endOfTrie, it') => simp
    | (.error (.customError s), it') => simp

/-- C3: for every built index and nonempty query key, `point_lookup`
returns `exists = false` when the descent hits `NoSuchEdge` at any
step; `exists = true` with `matched_prefix = key[..i+1]` when the
descent hits `IsLeaf` at step `i`; and on a full traversal `exists`
equals the `IsPrefixKey` bit at the final `node_index` (with
`matched_prefix = key` when that bit is set). -/
theorem lookup_descent_characterization (s : Surf) (key : Key) (_hne : key ≠ []) :
    (∀ i it', descentOutcome (Surf.initIterator s) 0 key = .noEdge i it' →
        (s.lookup key).1 = .ok (false, [], it', none)) ∧
    (∀ i it', descentOutcome (Surf.initIterator s) 0 key = .leaf i it' →
        (s.lookup key).1 = .ok (true, key.take (i + 1), it', none)) ∧
    (∀ it' v bm', descentOutcome (Surf.initIterator s) 0 key = .complete it' →
        s.dense_is_prefix_key.get it'.node_index = .ok (v, bm') →
        (s.lookup key).1 =
          .ok (decide (v = 1), if v = 1 then key else [], it', none)) := by
  refine ⟨?_, ?_, ?_⟩
  · intro i it' hout
    simp only [Surf.lookup]
    rw [lookupDescend_eq_descentOutcome key key (Surf.initIterator s) 0, hout]
  · intro i it' hout
    simp only [Surf.lookup]
    rw [lookupDescend_eq_descentOutcome key key (Surf.initIterator s) 0, hout]
  · intro it' v bm' hout hget
    simp only [Surf.lookup]
    rw [lookupDescend_eq_descentOutcome key key (Surf.initIterator s) 0, hout]
    dsimp only
    rw [hget]
    by_cases hv : v = 1
    · subst hv
      simp
    · simp [hv]

/-- Witness for C3 at a concrete index and key: over empty 256-bit
bitmaps the descent of [0x03] hits `NoSuchEdge` at step 0 and lookup
returns `exists = false`. -/
theorem lookup_descent_characterization_witness :
    ([3] : Key) ≠ [] ∧
    (∀ i it',
      descentOutcome
        (Surf.initIterator ⟨Bitmap.new 256 256, Bitmap.new 256 256, Bitmap.new 1 1⟩) 0
        [3] = .noEdge i it' →
      (Surf.lookup ⟨Bitmap.new 256 256, Bitmap.new 256 256, Bitmap.new 1 1⟩ [3]).1 =
        .ok (false, [], it', none)) :=
  ⟨by decide,
   (lookup_descent_characterization
      ⟨Bitmap.new 256 256, Bitmap.new 256 256, Bitmap.new 1 1⟩ [3] (by decide)).1⟩

/-! ## First-difference analysis (key.rs) -/

/-- Specification companion of `first_difference_at`: `none` when the
two byte strings are equal, otherwise `some d` with `d` the first index
at which they differ (the length of the shorter when one is a strict
prefix of the other). -/
def fdiff : Key → Key → Option Nat
  | x :: xs, y :: ys => if x ≠ y then some 0 else (fdiff xs ys).map (· + 1)
  | [], [] => none
  | [], _ :: _ => some 0
  | _ :: _, [] => some 0

theorem first_difference_at_go_eq (a b : Key) :
    ∀ i, first_difference_at.go i a b =
      match fdiff a b with
      | none => (false, 0)
      | some d => (true, i + d) := by
  induction a generalizing b with
  | nil =>
    intro i
    cases b <;> simp [first_difference_at.go, fdiff]
  | cons x xs ih =>
    intro i
    cases b with
    | nil => simp [first_difference_at.go, fdiff]
    | cons y ys =>
      by_cases hxy : x = y
      · subst hxy
        rw [first_difference_at.go, fdiff]
        simp only [ne_eq, not_true_eq_false, if_neg, ite_false]
        rw [ih ys (i + 1)]
        cases h : fdiff xs ys <;> simp [h] <;> omega
      · rw [first_difference_at.go, fdiff]
        simp [hxy]

theorem first_difference_at_eq (a b : Key) :
    first_difference_at a b =
      match fdiff a b with
      | none => (false, 0)
      | some d => (true, d) := by
  unfold first_difference_at
  rw [first_difference_at_go_eq a b 0]
  cases fdiff a b <;> simp

theorem fdiff_none_iff (a b : Key) : fdiff a b = none ↔ a = b := by
  induction a generalizing b with
  | nil => cases b <;> simp [fdiff]
  | cons x xs ih =>
    cases b with
    | nil => simp [fdiff]
    | cons y ys =>
      by_cases hxy : x = y
      · subst hxy
        rw [fdiff]
        simp [Option.map_eq_none', ih]
      · simp [fdiff, hxy]

theorem fdiff_le (a b : Key) {d : Nat} (h : fdiff a b = some d) :
    d ≤ min a.length b.length := by
  induction a generalizing b d with
  | nil =>
    cases b with
    | nil => simp [fdiff] at h
    | cons y ys =>
      rw [fdiff] at h
      simp only [Option.some.injEq] at h
      omega
  | cons x xs ih =>
    cases b with
    | nil =>
      rw [fdiff] at h
      simp only [Option.some.injEq] at h
      simp only [List.length_cons, List.length_nil] at *
      omega
    | cons y ys =>
      rw [fdiff] at h
      split at h
      · simp only [Option.some.injEq] at h
        omega
      · rw [Option.map_eq_some'] at h
        obtain ⟨d', hd', hd2⟩ := h
        have := ih ys hd'
        simp only [List.length_cons]
        omega

theorem fdiff_take (a b : Key) {d : Nat} (h : fdiff a b = some d) :
    a.take d = b.take d := by
  induction a generalizing b d with
  | nil =>
    cases b with
    | nil => simp [fdiff] at h
    | cons y ys =>
      rw [fdiff] at h
      simp only [Option.some.injEq] at h
      simp [← h]
  | cons x xs ih =>
    cases b with
    | nil =>
      rw [fdiff] at h
      simp only [Option.some.injEq] at h
      simp [← h]
    | cons y ys =>
      rw [fdiff] at h
      split at h
      · simp only [Option.some.injEq] at h
        simp [← h]
      · rename_i hxy
        simp only [ne_eq, not_not] at hxy
        subst hxy
        rw [Option.map_eq_some'] at h
        obtain ⟨d', hd', hd2⟩ := h
        subst hd2
        simp [List.take_succ_cons, ih ys hd']

theorem fdiff_cases (a b : Key) {d : Nat} (h : fdiff a b = some d) :
    (∃ (h1 : d < a.length) (h2 : d < b.length), a[d] ≠ b[d]) ∨
    (d = min a.length b.length ∧ a.length ≠ b.length) := by
  induction a generalizing b d with
  | nil =>
    cases b with
    | nil => simp [fdiff] at h
    | cons y ys =>
      rw [fdiff] at h
      simp only [Option.some.injEq] at h
      right
      simp only [List.length_nil, List.length_cons] at *
      omega
  | cons x xs ih =>
    cases b with
    | nil =>
      rw [fdiff] at h
      simp only [Option.some.injEq] at h
      right
      simp only [List.length_nil, List.length_cons] at *
      omega
    | cons y ys =>
      rw [fdiff] at h
      split at h
      · rename_i hxy
        simp only [Option.some.injEq] at h
        subst h
        left
        exact ⟨by simp, by simp, by simpa using hxy⟩
      · rename_i hxy
        simp only [ne_eq, not_not] at hxy
        subst hxy
        rw [Option.map_eq_some'] at h
        obtain ⟨d', hd', hd2⟩ := h
        subst hd2
        rcases ih ys hd' with ⟨h1, h2, h3⟩ | ⟨h1, h2⟩
        · left
          refine ⟨by simpa using Nat.succ_lt_succ h1, by simpa using Nat.succ_lt_succ h2, ?_⟩
          simpa using h3
        · right
          simp only [List.length_cons]
          omega

/-- Any prefix of `a` no longer than the first difference with `b` is
also a prefix of `b`. -/
theorem prefix_of_le_fdiff {a b q : Key} {d : Nat} (h : fdiff a b = some d)
    (hq : q <+: a) (hlen : q.length ≤ d) : q <+: b := by
  have htake := fdiff_take a b h
  have hq' : q = a.take q.length := List.prefix_iff_eq_take.mp hq
  have hq2 : q = (a.take d).take q.length := by
    rw [List.take_take, min_eq_left hlen]
    exact hq'
  rw [htake, List.take_take, min_eq_left hlen] at hq2
  rw [hq2]
  exact List.take_prefix _ _

/-- The prefix of `a` that includes the first difference with `b` is not
a prefix of `b`. -/
theorem take_succ_fdiff_not_pref {a b : Key} {d : Nat} (h : fdiff a b = some d)
    (hd : d < a.length) : ¬ a.take (d + 1) <+: b := by
  intro hpre
  rcases fdiff_cases a b h with ⟨h1, h2, h3⟩ | ⟨h1, h2⟩
  · apply h3
    have hdt : d < (a.take (d + 1)).length := by
      rw [List.length_take]
      omega
    have hstep := hpre.getElem hdt
    rw [List.getElem_take] at hstep
    exact hstep
  · have hblen : b.length = d := by
      have hle := fdiff_le a b h
      omega
    have := hpre.length_le
    rw [List.length_take] at this
    omega

/-! ## Order lemmas for the lexicographic key order -/

theorem Key.less_irrefl (a : Key) : Key.less a a = false := by
  induction a with
  | nil => rfl
  | cons x xs ih => simp [Key.less, ih]

theorem Key.less_ne {a b : Key} (h : Key.less a b = true) : a ≠ b := by
  intro hab
  subst hab
  rw [Key.less_irrefl] at h
  cases h

theorem Key.less_trans {a b c : Key} (hab : Key.less a b = true)
    (hbc : Key.less b c = true) : Key.less a c = true := by
  induction a generalizing b c with
  | nil =>
    cases c with
    | nil =>
      cases b with
      | nil => exact hab
      | cons y ys => simp [Key.less] at hbc
    | cons z zs => simp [Key.less]
  | cons x xs ih =>
    cases b with
    | nil => simp [Key.less] at hab
    | cons y ys =>
      cases c with
      | nil => simp [Key.less] at hbc
      | cons z zs =>
        rw [Key.less] at hab hbc ⊢
        by_cases hxy : x < y
        · by_cases hyz : y < z
          · rw [if_pos (by omega)]
          · simp only [if_neg hyz] at hbc
            by_cases hzy : z < y
            · simp [hzy] at hbc
            · rw [if_pos (by omega)]
        · simp only [if_neg hxy] at hab
          by_cases hyx : y < x
          · simp [hyx] at hab
          · simp only [if_neg hyx] at hab
            have hxy' : x = y := by omega
            subst hxy'
            by_cases hyz : x < z
            · rw [if_pos hyz]
            · simp only [if_neg hyz] at hbc
              by_cases hzy : z < x
              · simp [hzy] at hbc
              · simp only [if_neg hzy] at hbc ⊢
                rw [if_neg hyz]
                exact ih hab hbc

theorem Key.less_of_isStrictPrefix {a b : Key} (hpre : a <+: b)
    (hlen : a.length < b.length) : Key.less a b = true := by
  induction a generalizing b with
  | nil =>
    cases b with
    | nil => simp at hlen
    | cons z zs => simp [Key.less]
  | cons x xs ih =>
    cases b with
    | nil => simp at hlen
    | cons z zs =>
      rw [List.cons_prefix_cons] at hpre
      obtain ⟨rfl, hpre⟩ := hpre
      rw [Key.less]
      simp only [lt_irrefl, if_neg, ite_false, if_false]
      exact ih hpre (by simpa using hlen)

/-- Non-strict lexicographic order as a proposition. -/
def keyLeP (a b : Key) : Prop := Key.less a b = true ∨ a = b

theorem keyLeP_cons {c d : Nat} {u v : Key} (h : keyLeP (c :: u) (d :: v)) :
    c < d ∨ (c = d ∧ keyLeP u v) := by
  rcases h with h | h
  · rw [Key.less] at h
    by_cases h1 : c < d
    · exact Or.inl h1
    · simp only [if_neg h1] at h
      by_cases h2 : d < c
      · simp [h2] at h
      · simp only [if_neg h2] at h
        exact Or.inr ⟨by omega, Or.inl h⟩
  · rw [List.cons.injEq] at h
    exact Or.inr ⟨h.1, Or.inr h.2⟩

/-- Lexicographic betweenness: a common prefix of `x` and `z` is a
prefix of every key between them. -/
theorem prefix_of_between {t x y z : Key} (hx : t <+: x) (hz : t <+: z)
    (hxy : keyLeP x y) (hyz : keyLeP y z) : t <+: y := by
  induction t generalizing x y z with
  | nil => exact List.nil_prefix
  | cons c t' ih =>
    cases x with
    | nil => simp at hx
    | cons a xr =>
      cases z with
      | nil => simp at hz
      | cons b zr =>
        rw [List.cons_prefix_cons] at hx hz
        obtain ⟨rfl, hx⟩ := hx
        obtain ⟨rfl, hz⟩ := hz
        cases y with
        | nil =>
          rcases hxy with hxy | hxy
          · simp [Key.less] at hxy
          · cases hxy
        | cons d yr =>
          rcases keyLeP_cons hxy with hcd | ⟨hcd, hxy'⟩ <;>
            rcases keyLeP_cons hyz with hdc | ⟨hdc, hyz'⟩
          · omega
          · omega
          · omega
          · subst hcd
            rw [List.cons_prefix_cons]
            exact ⟨rfl, ih hx hz hxy' hyz'⟩

theorem Key.less_asymm {a b : Key} (h : Key.less a b = true) :
    ¬ Key.less b a = true := by
  intro h2
  have := Key.less_trans h h2
  rw [Key.less_irrefl] at this
  cases this

/-- `a` is a proper (strict) prefix of `b`. -/
def strictPrefixOf (a b : Key) : Prop := a <+: b ∧ a.length < b.length

theorem Key.less_of_prefix_lt {a b : Key} (hpre : a <+: b)
    (hlen : a.length < b.length) : Key.less a b = true := by
  induction a generalizing b with
  | nil =>
    cases b with
    | nil => simp at hlen
    | cons z zs => simp [Key.less]
  | cons x xs ih =>
    cases b with
    | nil => simp at hlen
    | cons z zs =>
      rw [List.cons_prefix_cons] at hpre
      obtain ⟨rfl, hpre⟩ := hpre
      rw [Key.less]
      simp only [lt_irrefl, if_neg, ite_false, if_false]
      exact ih hpre (by simpa using hlen)

/-- From `take d a = take d b` and `d = a.length ≤ b.length`, `a` is a
prefix of `b`. -/
theorem prefix_of_fdiff_sentinel {a b : Key} {d : Nat} (h : fdiff a b = some d)
    (hda : d = a.length) (_hdb : a.length ≤ b.length) : a <+: b := by
  have htake := fdiff_take a b h
  rw [hda, List.take_length] at htake
  rw [List.prefix_iff_eq_take]
  exact htake

theorem fdiff_lt_length_left {a b : Key} {d : Nat} (h : fdiff a b = some d)
    (hlt : Key.less b a = true) : d < a.length := by
  rcases fdiff_cases a b h with ⟨h1, _, _⟩ | ⟨h1, h2⟩
  · exact h1
  · rcases Nat.lt_or_ge a.length b.length with hl | hl
    · exfalso
      have hpre : a <+: b := prefix_of_fdiff_sentinel h (by omega) (by omega)
      exact Key.less_asymm (Key.less_of_prefix_lt hpre hl) hlt
    · omega

theorem fdiff_right_cases {a b : Key} {d : Nat} (h : fdiff a b = some d)
    (hlt : Key.less a b = true) :
    d < a.length ∨ (strictPrefixOf a b ∧ d = a.length) := by
  rcases fdiff_cases a b h with ⟨h1, _, _⟩ | ⟨h1, h2⟩
  · exact Or.inl h1
  · rcases Nat.lt_or_ge a.length b.length with hl | hl
    · right
      exact ⟨⟨prefix_of_fdiff_sentinel h (by omega) (by omega), hl⟩, by omega⟩
    · exfalso
      have hpre : b <+: a := by
        have htake := fdiff_take a b h
        have hd : d = b.length := by omega
        rw [List.prefix_iff_eq_take, ← hd, htake, hd, List.take_length]
      have hblt : b.length < a.length := by omega
      exact Key.less_asymm hlt (Key.less_of_prefix_lt hpre hblt)

theorem truncate_getD (ks : List Key) (i : Nat) (hi : i < ks.length) :
    (truncate ks).getD i [] = truncateAt ks i := by
  unfold truncate
  rw [List.getD_eq_getElem _ _ (by simpa using hi)]
  simp

theorem truncateAt_eq (ks : List Key) (i db da : Nat)
    (hdb : (0 < i ∧ fdiff (ks.getD i []) (ks.getD (i - 1) []) = some db) ∨
           (i = 0 ∧ db = 0))
    (hda : (i + 1 < ks.length ∧ fdiff (ks.getD i []) (ks.getD (i + 1) []) = some da) ∨
           (i + 1 = ks.length ∧ da = 0)) :
    truncateAt ks i =
      (ks.getD i []).take
        (if max db da < (ks.getD i []).length then max db da + 1 else max db da) := by
  have hmax : ∀ a b : Nat, (if b > a then b else a) = max a b := by
    intro a b
    split <;> omega
  rcases hdb with ⟨hi0, hfdb⟩ | ⟨hi0, rfl⟩ <;>
    rcases hda with ⟨hilen, hfda⟩ | ⟨hilen, rfl⟩
  · have hb : first_difference_at (ks.getD i []) (ks.getD (i - 1) []) = (true, db) := by
      rw [first_difference_at_eq, hfdb]
    have ha : first_difference_at (ks.getD i []) (ks.getD (i + 1) []) = (true, da) := by
      rw [first_difference_at_eq, hfda]
    simp only [truncateAt]
    rw [if_pos (show i ≠ 0 by omega), if_pos (show i ≠ ks.length - 1 by omega), hb, ha]
    simp only [Bool.not_true, Bool.false_eq_true, if_false, ite_false, hmax]
    simp
  · have hb : first_difference_at (ks.getD i []) (ks.getD (i - 1) []) = (true, db) := by
      rw [first_difference_at_eq, hfdb]
    simp only [truncateAt]
    rw [if_pos (show i ≠ 0 by omega), if_neg (show ¬ i ≠ ks.length - 1 by omega), hb]
    simp only [Bool.not_true, Bool.false_eq_true, if_false, ite_false, hmax]
    simp
  · have ha : first_difference_at (ks.getD i []) (ks.getD (i + 1) []) = (true, da) := by
      rw [first_difference_at_eq, hfda]
    simp only [truncateAt]
    rw [if_neg (show ¬ i ≠ 0 by omega), if_pos (show i ≠ ks.length - 1 by omega), ha]
    simp only [Bool.not_true, Bool.false_eq_true, if_false, ite_false, hmax]
    simp
  · simp only [truncateAt]
    rw [if_neg (show ¬ i ≠ 0 by omega), if_neg (show ¬ i ≠ ks.length - 1 by omega)]
    simp

/-- Modelled from the claim's words, adjusted for the nonempty minimum:
`p` is the shortest nonempty prefix distinguishing the `i`-th key from
both neighbours. -/
def shortestNonemptyDistinguishingAt (ks : List Key) (i : Nat) (p : Key) : Prop :=
  p ≠ [] ∧ distinguishingAt ks i p ∧
  ∀ q : Key, q ≠ [] → distinguishingAt ks i q → p.length ≤ q.length

theorem shortest_take_max_succ (ks : List Key) (i db da : Nat) (_hi : i < ks.length)
    (hdb : (0 < i ∧ fdiff (ks.getD i []) (ks.getD (i - 1) []) = some db) ∨
           (i = 0 ∧ db = 0))
    (hda : (i + 1 < ks.length ∧ fdiff (ks.getD i []) (ks.getD (i + 1) []) = some da) ∨
           (i + 1 = ks.length ∧ da = 0))
    (hdb_lt : db < (ks.getD i []).length) (hda_lt : da < (ks.getD i []).length) :
    shortestNonemptyDistinguishingAt ks i ((ks.getD i []).take (max db da + 1)) := by
  refine ⟨?_, ⟨List.take_prefix _ _, ?_, ?_⟩, ?_⟩
  · have hlen : ((ks.getD i []).take (max db da + 1)).length =
        min (max db da + 1) (ks.getD i []).length := List.length_take _ _
    intro hnil
    rw [hnil] at hlen
    simp only [List.length_nil] at hlen
    omega
  · intro hipos hpre
    rcases hdb with ⟨_, hfdb⟩ | ⟨h0, _⟩
    · have h1 : (ks.getD i []).take (db + 1) <+: (ks.getD i []).take (max db da + 1) :=
        List.take_prefix_take_left _ (by omega)
      exact take_succ_fdiff_not_pref hfdb hdb_lt (h1.trans hpre)
    · omega
  · intro hilen hpre
    rcases hda with ⟨_, hfda⟩ | ⟨hlast, _⟩
    · have h1 : (ks.getD i []).take (da + 1) <+: (ks.getD i []).take (max db da + 1) :=
        List.take_prefix_take_left _ (by omega)
      exact take_succ_fdiff_not_pref hfda hda_lt (h1.trans hpre)
    · omega
  · intro q hq_ne hq_dist
    by_contra hqlen
    push_neg at hqlen
    have houtlen : ((ks.getD i []).take (max db da + 1)).length = max db da + 1 := by
      rw [List.length_take]
      omega
    rw [houtlen] at hqlen
    have hqpos : 0 < q.length := List.length_pos.mpr hq_ne
    have hcase : q.length ≤ db ∨ q.length ≤ da := by omega
    rcases hcase with hle | hle
    · rcases hdb with ⟨hipos, hfdb⟩ | ⟨h0, rfl⟩
      · exact hq_dist.2.1 hipos (prefix_of_le_fdiff hfdb hq_dist.1 hle)
      · omega
    · rcases hda with ⟨hilen, hfda⟩ | ⟨hlast, rfl⟩
      · exact hq_dist.2.2 hilen (prefix_of_le_fdiff hfda hq_dist.1 hle)
      · omega

/-- C5 (amended): for a distinct, sorted list of nonempty keys,
`truncate` returns a same-length list of prefixes of the inputs; when
the input key is a strict prefix of its immediate successor the output
is the full key (no prefix at all can distinguish the two); otherwise
the output is the shortest nonempty prefix that is a prefix of neither
the immediate predecessor nor the immediate successor.  In particular
`truncate(["far","fast","john"]) = ["far","fas","j"]`. -/
theorem truncate_minimal_distinguishing (ks : List Key)
    (hsort : List.Chain' (fun a b => Key.less a b = true) ks)
    (hne : ∀ k ∈ ks, k ≠ []) :
    ((truncate ks).length = ks.length ∧
     ∀ i, i < ks.length →
       ((truncate ks).getD i [] <+: ks.getD i []) ∧
       ((i + 1 < ks.length ∧ strictPrefixOf (ks.getD i []) (ks.getD (i + 1) [])) →
         (truncate ks).getD i [] = ks.getD i []) ∧
       (¬ (i + 1 < ks.length ∧ strictPrefixOf (ks.getD i []) (ks.getD (i + 1) [])) →
         shortestNonemptyDistinguishingAt ks i ((truncate ks).getD i []))) ∧
    truncate [[102, 97, 114], [102, 97, 115, 116], [106, 111, 104, 110]] =
      [[102, 97, 114], [102, 97, 115], [106]] := by
  refine ⟨⟨by simp [truncate], ?_⟩, by rfl⟩
  intro i hi
  have hadj : ∀ j, j + 1 < ks.length →
      Key.less (ks.getD j []) (ks.getD (j + 1) []) = true := by
    intro j hj
    have h := List.chain'_iff_get.mp hsort j (by omega)
    rw [List.getD_eq_getElem _ _ (by omega : j < ks.length),
        List.getD_eq_getElem _ _ (by omega : j + 1 < ks.length)]
    simpa [List.get_eq_getElem] using h
  have hkey_ne : ks.getD i [] ≠ [] := by
    apply hne
    rw [List.getD_eq_getElem _ _ hi]
    exact List.getElem_mem _
  have hkey_len : 0 < (ks.getD i []).length := List.length_pos.mpr hkey_ne
  -- predecessor side
  have hdbx : (0 < i ∧ ∃ db, fdiff (ks.getD i []) (ks.getD (i - 1) []) = some db ∧
        db < (ks.getD i []).length) ∨ i = 0 := by
    rcases Nat.eq_zero_or_pos i with h0 | h0
    · exact Or.inr h0
    · left
      refine ⟨h0, ?_⟩
      have hlt : Key.less (ks.getD (i - 1) []) (ks.getD i []) = true := by
        have := hadj (i - 1) (by omega)
        have heq : i - 1 + 1 = i := by omega
        rwa [heq] at this
      cases hfd : fdiff (ks.getD i []) (ks.getD (i - 1) []) with
      | none =>
        exact absurd ((fdiff_none_iff _ _).mp hfd).symm (Key.less_ne hlt)
      | some db =>
        exact ⟨db, rfl, fdiff_lt_length_left hfd hlt⟩
  -- successor side
  have hdax : (i + 1 < ks.length ∧ ∃ da, fdiff (ks.getD i []) (ks.getD (i + 1) []) = some da ∧
        (da < (ks.getD i []).length ∨
         (strictPrefixOf (ks.getD i []) (ks.getD (i + 1) []) ∧ da = (ks.getD i []).length))) ∨
      i + 1 = ks.length := by
    rcases Nat.lt_or_ge (i + 1) ks.length with hlen | hlen
    · left
      refine ⟨hlen, ?_⟩
      have hlt : Key.less (ks.getD i []) (ks.getD (i + 1) []) = true := hadj i hlen
      cases hfd : fdiff (ks.getD i []) (ks.getD (i + 1) []) with
      | none =>
        exact absurd ((fdiff_none_iff _ _).mp hfd) (Key.less_ne hlt)
      | some da =>
        rcases fdiff_right_cases hfd hlt with h | ⟨hsp, hlenx⟩
        · exact ⟨da, rfl, Or.inl h⟩
        · exact ⟨da, rfl, Or.inr ⟨hsp, hlenx⟩⟩
    · exact Or.inr (by omega)
  rcases hdax with ⟨hilen, da, hfda, hdacase⟩ | hlast
  · rcases hdacase with hda_lt | ⟨hsp, hda_eq⟩
    · -- main case with a real successor; not a strict prefix of it
      have hnot_sp : ¬ strictPrefixOf (ks.getD i []) (ks.getD (i + 1) []) := by
        intro hsp
        obtain ⟨hsp1, hsp2⟩ := hsp
        -- a strict prefix forces the sentinel value for da
        rcases fdiff_cases _ _ hfda with ⟨h1, h2, h3⟩ | ⟨h1, h2⟩
        · exact h3 (hsp1.getElem h1)
        · omega
      rcases hdbx with ⟨hipos, db, hfdb, hdb_lt⟩ | hi0
      · have hout : (truncate ks).getD i [] = (ks.getD i []).take (max db da + 1) := by
          rw [truncate_getD ks i hi,
              truncateAt_eq ks i db da (Or.inl ⟨hipos, hfdb⟩) (Or.inl ⟨hilen, hfda⟩),
              if_pos (by omega)]
        refine ⟨?_, ?_, ?_⟩
        · rw [hout]
          exact List.take_prefix _ _
        · intro hx
          exact absurd hx.2 hnot_sp
        · intro _
          rw [hout]
          exact shortest_take_max_succ ks i db da hi (Or.inl ⟨hipos, hfdb⟩)
            (Or.inl ⟨hilen, hfda⟩) hdb_lt hda_lt
      · have hout : (truncate ks).getD i [] = (ks.getD i []).take (max 0 da + 1) := by
          rw [truncate_getD ks i hi,
              truncateAt_eq ks i 0 da (Or.inr ⟨hi0, rfl⟩) (Or.inl ⟨hilen, hfda⟩),
              if_pos (by omega)]
        refine ⟨?_, ?_, ?_⟩
        · rw [hout]
          exact List.take_prefix _ _
        · intro hx
          exact absurd hx.2 hnot_sp
        · intro _
          rw [hout]
          exact shortest_take_max_succ ks i 0 da hi (Or.inr ⟨hi0, rfl⟩)
            (Or.inl ⟨hilen, hfda⟩) (by omega) hda_lt
    · -- exceptional case: key is a strict prefix of its successor
      rcases hdbx with ⟨hipos, db, hfdb, hdb_lt'⟩ | hi0
      · have hout : (truncate ks).getD i [] = ks.getD i [] := by
          rw [truncate_getD ks i hi,
              truncateAt_eq ks i db da (Or.inl ⟨hipos, hfdb⟩) (Or.inl ⟨hilen, hfda⟩),
              if_neg (by omega), hda_eq]
          have : max db (ks.getD i []).length = (ks.getD i []).length := by omega
          rw [this, List.take_length]
        exact ⟨hout ▸ List.prefix_refl _, fun _ => hout, fun hx => absurd ⟨hilen, hsp⟩ hx⟩
      · have hout : (truncate ks).getD i [] = ks.getD i [] := by
          rw [truncate_getD ks i hi,
              truncateAt_eq ks i 0 da (Or.inr ⟨hi0, rfl⟩) (Or.inl ⟨hilen, hfda⟩),
              if_neg (by omega), hda_eq]
          have : max 0 (ks.getD i []).length = (ks.getD i []).length := by omega
          rw [this, List.take_length]
        exact ⟨hout ▸ List.prefix_refl _, fun _ => hout, fun hx => absurd ⟨hilen, hsp⟩ hx⟩
  · -- no successor
    have hnot : ¬ (i + 1 < ks.length ∧
        strictPrefixOf (ks.getD i []) (ks.getD (i + 1) [])) := by
      intro hx
      omega
    rcases hdbx with ⟨hipos, db, hfdb, hdb_lt⟩ | hi0
    · have hout : (truncate ks).getD i [] = (ks.getD i []).take (max db 0 + 1) := by
        rw [truncate_getD ks i hi,
            truncateAt_eq ks i db 0 (Or.inl ⟨hipos, hfdb⟩) (Or.inr ⟨hlast, rfl⟩),
            if_pos (by omega)]
      refine ⟨?_, fun hx => absurd hx hnot, fun _ => ?_⟩
      · rw [hout]
        exact List.take_prefix _ _
      · rw [hout]
        exact shortest_take_max_succ ks i db 0 hi (Or.inl ⟨hipos, hfdb⟩)
          (Or.inr ⟨hlast, rfl⟩) hdb_lt (by omega)
    · have hout : (truncate ks).getD i [] = (ks.getD i []).take (max 0 0 + 1) := by
        rw [truncate_getD ks i hi,
            truncateAt_eq ks i 0 0 (Or.inr ⟨hi0, rfl⟩) (Or.inr ⟨hlast, rfl⟩),
            if_pos (by omega)]
      refine ⟨?_, fun hx => absurd hx hnot, fun _ => ?_⟩
      · rw [hout]
        exact List.take_prefix _ _
      · rw [hout]
        exact shortest_take_max_succ ks i 0 0 hi (Or.inr ⟨hi0, rfl⟩)
          (Or.inr ⟨hlast, rfl⟩) (by omega) (by omega)

/-- Witness for C5 at the spec's example input ["far","fast","john"]
(distinct, sorted, nonempty). -/
theorem truncate_minimal_distinguishing_witness :
    List.Chain' (fun a b => Key.less a b = true)
      [[102, 97, 114], [102, 97, 115, 116], [106, 111, 104, 110]] ∧
    truncate [[102, 97, 114], [102, 97, 115, 116], [106, 111, 104, 110]] =
      [[102, 97, 114], [102, 97, 115], [106]] := by
  have hchain : List.Chain' (fun a b => Key.less a b = true)
      [[102, 97, 114], [102, 97, 115, 116], [106, 111, 104, 110]] := by
    rw [List.chain'_cons, List.chain'_cons]
    exact ⟨by decide, by decide, List.chain'_singleton _⟩
  exact ⟨hchain,
    (truncate_minimal_distinguishing
      [[102, 97, 114], [102, 97, 115, 116], [106, 111, 104, 110]]
      hchain (by decide)).2⟩

/-! ## No-panic analysis of the builder (C9) -/

theorem LoopRes.ok_bind {ε α β : Type} (a : α) (f : α → LoopRes ε β) :
    (LoopRes.ok a >>= f) = f a := rfl

theorem LoopRes.err_bind {ε α β : Type} (e : ε) (f : α → LoopRes ε β) :
    ((LoopRes.err e : LoopRes ε α) >>= f) = .err e := rfl

/-- Error-or-invariant induction principle for `foldlM` over the
`LoopRes` monad. -/
theorem foldlM_loopres {E α β : Type} (P : β → Prop) (Q : α → Prop)
    (f : β → α → LoopRes E β) (l : List α) (hl : ∀ a ∈ l, Q a)
    (hf : ∀ b a, P b → Q a →
      (∃ e, f b a = .err e) ∨ (∃ b', f b a = .ok b' ∧ P b'))
    (b0 : β) (hb0 : P b0) :
    (∃ e, l.foldlM f b0 = .err e) ∨ (∃ b', l.foldlM f b0 = .ok b' ∧ P b') := by
  induction l generalizing b0 with
  | nil =>
    right
    exact ⟨b0, rfl, hb0⟩
  | cons a l ih =>
    rw [List.foldlM_cons]
    rcases hf b0 a hb0 (hl a (by simp)) with ⟨e, he⟩ | ⟨b1, hb1, hPb1⟩
    · left
      refine ⟨e, ?_⟩
      rw [he, LoopRes.err_bind]
    · rw [hb1, LoopRes.ok_bind]
      exact ih (fun x hx => hl x (by simp [hx])) b1 hPb1

/-- All keys of a task are longer than `d` bytes. -/
def TaskKeysLen (d : Nat) (t : NodeTask) : Prop := ∀ k ∈ t.keys, d < k.length

/-- Invariant of the per-key fold inside `Builder::build` at depth `d`,
for a level snapshot of `n` tasks. -/
def KeyFoldInv (d n : Nat) (st : Builder × Bool × Nat) : Prop :=
  n ≤ st.1.tasks.length ∧
  (∀ j t, j < n → st.1.tasks[j]? = some t → TaskKeysLen d t) ∧
  (∀ j t, n ≤ j → st.1.tasks[j]? = some t → TaskKeysLen (d + 1) t) ∧
  (st.2.1 = true → n ≤ st.1.current_task_id ∧ st.1.current_task_id < st.1.tasks.length)

theorem buildKeyFinish_cases (d n : Nat) (key : Key) (edge : Nat) (b : Builder)
    (mre : Nat) (hk : d < key.length)
    (hlen : n ≤ b.tasks.length)
    (hfst : ∀ j t, j < n → b.tasks[j]? = some t → TaskKeysLen d t)
    (hsnd : ∀ j t, n ≤ j → b.tasks[j]? = some t → TaskKeysLen (d + 1) t)
    (hcur1 : n ≤ b.current_task_id) (hcur2 : b.current_task_id < b.tasks.length) :
    (∃ e, Builder.buildKeyFinish d key edge b true mre = .err e) ∨
    (∃ st', Builder.buildKeyFinish d key edge b true mre = .ok st' ∧
      KeyFoldInv d n st' ∧ st'.2.1 = true) := by
  have hget : b.tasks.get? b.current_task_id = some (b.tasks.get ⟨b.current_task_id, hcur2⟩) := by
    rw [List.get?_eq_getElem?]
    exact List.getElem?_eq_getElem hcur2
  have hsetinv : ∀ (t' : NodeTask), TaskKeysLen (d + 1) t' →
      ∀ j t, n ≤ j → (b.tasks.set b.current_task_id t')[j]? = some t →
        TaskKeysLen (d + 1) t := by
    intro t' ht' j t hj hjt
    by_cases hji : j = b.current_task_id
    · subst hji
      rw [List.getElem?_set_self (by omega)] at hjt
      cases hjt
      exact ht'
    · rw [List.getElem?_set_ne (by omega)] at hjt
      exact hsnd j t hj hjt
  have hsetfst : ∀ (t' : NodeTask), ∀ j t, j < n →
      (b.tasks.set b.current_task_id t')[j]? = some t → TaskKeysLen d t := by
    intro t' j t hj hjt
    rw [List.getElem?_set_ne (by omega)] at hjt
    exact hfst j t hj hjt
  have hcurmem : TaskKeysLen (d + 1) (b.tasks.get ⟨b.current_task_id, hcur2⟩) := by
    apply hsnd b.current_task_id _ hcur1
    exact List.getElem?_eq_getElem hcur2
  unfold Builder.buildKeyFinish
  split
  · -- terminal: set is_prefix_key on the current task
    rw [hget]
    right
    refine ⟨_, rfl, ⟨by simpa using hlen, ?_, ?_, ?_⟩, rfl⟩
    · exact hsetfst _
    · exact hsetinv _ (fun k hkk => hcurmem k hkk)
    · intro _
      simpa using ⟨hcur1, hcur2⟩
  · -- non-terminal: set HasChild and push the key to the current task
    rename_i hdep
    cases hhc : b.has_child.set (b.has_child_offset + edge) with
    | error e =>
      left
      exact ⟨e, rfl⟩
    | ok hcbm =>
      rw [hget]
      right
      refine ⟨_, rfl, ⟨by simpa using hlen, ?_, ?_, ?_⟩, rfl⟩
      · exact hsetfst _
      · refine hsetinv _ ?_
        intro k hkk
        rw [List.mem_append] at hkk
        rcases hkk with hkk | hkk
        · exact hcurmem k hkk
        · rw [List.mem_singleton] at hkk
          subst hkk
          omega
      · intro _
        simpa using ⟨hcur1, hcur2⟩

theorem buildKeyStep_cases (d n : Nat) (st : Builder × Bool × Nat) (key : Key)
    (hk : d < key.length) (hinv : KeyFoldInv d n st) :
    (∃ e, Builder.buildKeyStep d st key = .err e) ∨
    (∃ st', Builder.buildKeyStep d st key = .ok st' ∧ KeyFoldInv d n st') := by
  obtain ⟨b, nhe, mre⟩ := st
  obtain ⟨hlen, hfst, hsnd, hcur⟩ := hinv
  have hlenb : n ≤ b.tasks.length := hlen
  have hsome : key.get? d = some (key.get ⟨d, hk⟩) := by
    rw [List.get?_eq_getElem?]
    exact List.getElem?_eq_getElem hk
  unfold Builder.buildKeyStep
  rw [hsome]
  dsimp only
  split
  · -- new edge: set the label bit and push a fresh task
    cases hlb : b.labels.set (b.label_offset + key.get ⟨d, hk⟩) with
    | error e =>
      left
      exact ⟨e, rfl⟩
    | ok lbm =>
      have happlen : n ≤
          (b.tasks ++ [({ keys := [], is_prefix_key := false } : NodeTask)]).length := by
        rw [List.length_append]
        simpa using Nat.le_succ_of_le hlen
      have happfst : ∀ j t, j < n →
          (b.tasks ++ [({ keys := [], is_prefix_key := false } : NodeTask)])[j]? = some t →
          TaskKeysLen d t := by
        intro j t hj hjt
        rw [List.getElem?_append_left (by omega)] at hjt
        exact hfst j t hj hjt
      have happsnd : ∀ j t, n ≤ j →
          (b.tasks ++ [({ keys := [], is_prefix_key := false } : NodeTask)])[j]? = some t →
          TaskKeysLen (d + 1) t := by
        intro j t hj hjt
        by_cases hjb : j < b.tasks.length
        · rw [List.getElem?_append_left hjb] at hjt
          exact hsnd j t hj hjt
        · rw [List.getElem?_append_right (by omega)] at hjt
          rcases List.getElem?_eq_some_iff.mp hjt with ⟨hb2, hv⟩
          rw [← hv]
          intro k hkk
          simp at hkk
      have := buildKeyFinish_cases d n key (key.get ⟨d, hk⟩)
        { b with labels := lbm,
                 tasks := b.tasks ++ [({ keys := [], is_prefix_key := false } : NodeTask)],
                 current_task_id :=
                   (b.tasks ++
                     [({ keys := [], is_prefix_key := false } : NodeTask)]).length - 1 }
        (key.get ⟨d, hk⟩) hk happlen happfst happsnd
        (by simp only [List.length_append, List.length_singleton]; omega)
        (by simp only [List.length_append, List.length_singleton]; omega)
      rcases this with ⟨e, he⟩ | ⟨st', hst', hinv', _⟩
      · left
        exact ⟨e, he⟩
      · right
        exact ⟨st', hst', hinv'⟩
  · -- known edge: the cursor is already valid
    rename_i hcond
    have hnhe : nhe = true ∧ mre = key.get ⟨d, hk⟩ := by
      by_cases h1 : nhe = true
      · refine ⟨h1, ?_⟩
        by_contra h2
        exact hcond (Or.inr h2)
      · exact absurd (Or.inl (by simpa using h1)) hcond
    obtain ⟨rfl, rfl⟩ := hnhe
    obtain ⟨hcur1, hcur2⟩ := hcur rfl
    have := buildKeyFinish_cases d n key (key.get ⟨d, hk⟩) b (key.get ⟨d, hk⟩) hk hlen hfst hsnd
      hcur1 hcur2
    rcases this with ⟨e, he⟩ | ⟨st', hst', hinv', _⟩
    · left
      exact ⟨e, he⟩
    · right
      exact ⟨st', hst', hinv'⟩

/-- All tasks of a builder hold keys longer than `d` bytes. -/
def AllTasksLen (d : Nat) (b : Builder) : Prop :=
  ∀ (j : Nat) (t : NodeTask), b.tasks[j]? = some t → TaskKeysLen d t

/-- Invariant of the per-task fold of a level at depth `d` with
snapshot `n`. -/
def LevelInv (d n : Nat) (b : Builder) : Prop :=
  n ≤ b.tasks.length ∧
  (∀ (j : Nat) (t : NodeTask), j < n → b.tasks[j]? = some t → TaskKeysLen d t) ∧
  (∀ (j : Nat) (t : NodeTask), n ≤ j → b.tasks[j]? = some t → TaskKeysLen (d + 1) t)

theorem buildTaskBody_cases (d n : Nat) (b : Builder) (task : NodeTask)
    (hinv : LevelInv d n b) (htask : TaskKeysLen d task) :
    (∃ e, Builder.buildTaskBody d b task = .err e) ∨
    (∃ b', Builder.buildTaskBody d b task = .ok b' ∧ LevelInv d n b') := by
  obtain ⟨hlen, hfst, hsnd⟩ := hinv
  have hfold : ∀ (bm1 bm2 bm3 : Bitmap),
      (∃ e, task.keys.foldlM (Builder.buildKeyStep d)
          ({ b with
             labels := bm1,
             has_child := bm2,
             is_prefix_key := bm3 }, false, 0x00) = .err e) ∨
      (∃ st', task.keys.foldlM (Builder.buildKeyStep d)
          ({ b with
             labels := bm1,
             has_child := bm2,
             is_prefix_key := bm3 }, false, 0x00) = .ok st' ∧ KeyFoldInv d n st') := by
    intro bm1 bm2 bm3
    have hstart : KeyFoldInv d n
        ({ b with
           labels := bm1,
           has_child := bm2,
           is_prefix_key := bm3 }, false, 0x00) :=
      ⟨hlen, fun j t hj hjt => hfst j t hj hjt,
       fun j t hj hjt => hsnd j t hj hjt, by simp⟩
    exact foldlM_loopres (KeyFoldInv d n) (fun k => d < k.length)
      (Builder.buildKeyStep d) task.keys (fun k hk => htask k hk)
      (fun st k hst hkk => buildKeyStep_cases d n st k hkk hst)
      _ hstart
  unfold Builder.buildTaskBody
  cases b.labels.get (b.label_offset + 255) with
  | error e => exact Or.inl ⟨e, rfl⟩
  | ok p1 =>
    obtain ⟨v1, lbm⟩ := p1
    cases b.has_child.get (b.has_child_offset + 255) with
    | error e => exact Or.inl ⟨e, rfl⟩
    | ok p2 =>
      obtain ⟨v2, hcm⟩ := p2
      cases b.is_prefix_key.get b.is_prefix_key_offset with
      | error e => exact Or.inl ⟨e, rfl⟩
      | ok p3 =>
        obtain ⟨v3, ipm0⟩ := p3
        dsimp only
        cases hifset : (if task.is_prefix_key then ipm0.set b.is_prefix_key_offset
            else .ok ipm0 : Except BmErr Bitmap) with
        | error e =>
          exact Or.inl ⟨e, rfl⟩
        | ok ipm =>
          dsimp only
          rcases hfold lbm hcm ipm with ⟨e, he⟩ | ⟨⟨bf, x1, x2⟩, h', hinv'⟩
          · rw [he]
            exact Or.inl ⟨e, rfl⟩
          · rw [h']
            right
            refine ⟨_, rfl, ?_, ?_, ?_⟩
            · exact hinv'.1
            · exact fun j t hj hjt => hinv'.2.1 j t hj hjt
            · exact fun j t hj hjt => hinv'.2.2.1 j t hj hjt

theorem buildTaskStep_cases (d n : Nat) (b : Builder) (i : Nat)
    (hinv : LevelInv d n b) (hi : i < n) :
    (∃ e, Builder.buildTaskStep d b i = .err e) ∨
    (∃ b', Builder.buildTaskStep d b i = .ok b' ∧ LevelInv d n b') := by
  have hib : i < b.tasks.length := by
    have := hinv.1
    omega
  have hget : b.tasks.get? i = some (b.tasks.get ⟨i, hib⟩) := by
    rw [List.get?_eq_getElem?]
    exact List.getElem?_eq_getElem hib
  unfold Builder.buildTaskStep
  rw [hget]
  dsimp only
  split
  · exact Or.inr ⟨b, rfl, hinv⟩
  · exact buildTaskBody_cases d n b _ hinv
      (hinv.2.1 i _ hi (List.getElem?_eq_getElem hib))

theorem buildLevel_cases (d : Nat) (b : Builder) (hinv : AllTasksLen d b) :
    (∃ e, b.buildLevel d = .err e) ∨
    (∃ b', b.buildLevel d = .ok b' ∧ AllTasksLen (d + 1) b') := by
  simp only [Builder.buildLevel]
  have hstart : LevelInv d b.tasks.length b := by
    refine ⟨le_refl _, ?_, ?_⟩
    · intro j t _ hjt
      exact hinv j t hjt
    · intro j t hj hjt
      rcases List.getElem?_eq_some_iff.mp hjt with ⟨hb2, _⟩
      omega
  have := foldlM_loopres (LevelInv d b.tasks.length) (fun i => i < b.tasks.length)
    (Builder.buildTaskStep d) (List.range b.tasks.length)
    (fun i hi => List.mem_range.mp hi)
    (fun bb i hbb hii => buildTaskStep_cases d b.tasks.length bb i hbb hii)
    b hstart
  rcases this with ⟨e, he⟩ | ⟨b', hb', hinv'⟩
  · rw [he]
    exact Or.inl ⟨e, rfl⟩
  · rw [hb']
    right
    refine ⟨_, rfl, ?_⟩
    intro j t hjt
    rw [List.getElem?_drop] at hjt
    exact hinv'.2.2 _ t (by omega) hjt

theorem buildLevels_cases : ∀ (m d : Nat) (b : Builder), AllTasksLen d b →
    (∃ e, (List.range' d m).foldlM Builder.buildLevel b = .err e) ∨
    (∃ b', (List.range' d m).foldlM Builder.buildLevel b = .ok b') := by
  intro m
  induction m with
  | zero =>
    intro d b _
    exact Or.inr ⟨b, rfl⟩
  | succ m ih =>
    intro d b hinv
    rw [List.range'_succ, List.foldlM_cons]
    rcases buildLevel_cases d b hinv with ⟨e, he⟩ | ⟨b', hb', hinv'⟩
    · rw [he, LoopRes.err_bind]
      exact Or.inl ⟨e, rfl⟩
    · rw [hb', LoopRes.ok_bind]
      exact ih (d + 1) b' hinv'

theorem build_cases (L : Nat) (keys : List Key) (hne : ∀ k ∈ keys, k ≠ []) :
    (∃ e, (Builder.new L).build keys = .err e) ∨
    (∃ b', (Builder.new L).build keys = .ok b') := by
  have hstep : (Builder.new L).build keys =
      (List.range (max_key_length keys)).foldlM Builder.buildLevel
        { Builder.new L with tasks := [{ keys := keys, is_prefix_key := false }] } := rfl
  rw [hstep, List.range_eq_range']
  apply buildLevels_cases
  intro j t hjt
  cases j with
  | zero =>
    simp only [List.getElem?_cons_zero] at hjt
    cases hjt
    intro k hk
    exact List.length_pos.mpr (hne k hk)
  | succ j => simp at hjt

theorem take_bump_ne_nil (key : Key) (m : Nat) (h : key ≠ []) :
    key.take (if m < key.length then m + 1 else m) ≠ [] := by
  have hlen : 0 < key.length := List.length_pos.mpr h
  intro hnil
  have hl := congrArg List.length hnil
  rw [List.length_take] at hl
  simp only [List.length_nil] at hl
  split at hl <;> omega

theorem truncateAt_ne_nil (ks : List Key) (i : Nat) (h : ks.getD i [] ≠ []) :
    truncateAt ks i ≠ [] := by
  simp only [truncateAt]
  exact take_bump_ne_nil _ _ h

theorem truncate_ne_nil (ks : List Key) (hne : ∀ k ∈ ks, k ≠ []) :
    ∀ k ∈ truncate ks, k ≠ [] := by
  intro k hk
  unfold truncate at hk
  rw [List.mem_map] at hk
  obtain ⟨i, hi, rfl⟩ := hk
  rw [List.mem_range] at hi
  apply truncateAt_ne_nil
  apply hne
  rw [List.getD_eq_getElem _ _ hi]
  exact List.getElem_mem _

/-- C9 (amended): `Surf::new` over every finite list of nonempty byte
string keys — unsorted input and duplicates included — terminates with
either an index or an `Error` and never panics.  (With an empty key
alongside a longer key it panics instead; see the counterexample.) -/
theorem surf_new_no_panic (raw_keys : List Key) (options : Options)
    (hne : ∀ k ∈ raw_keys, k ≠ []) :
    (∃ s, Surf.new raw_keys options = .ok s) ∨
    (∃ e, Surf.new raw_keys options = .err e) := by
  have hne1 : ∀ k ∈ raw_keys.mergeSort keyLe, k ≠ [] := by
    intro k hk
    exact hne k ((raw_keys.mergeSort_perm keyLe).mem_iff.mp hk)
  have hne2 : ∀ k ∈ truncate (raw_keys.mergeSort keyLe), k ≠ [] :=
    truncate_ne_nil _ hne1
  simp only [Surf.new]
  rcases build_cases options.memory_limit (truncate (raw_keys.mergeSort keyLe)) hne2 with
    ⟨e, he⟩ | ⟨b', hb'⟩
  · rw [he]
    exact Or.inr ⟨.customError e, rfl⟩
  · rw [hb']
    exact Or.inl ⟨_, rfl⟩

/-- Witness for C9 (amended) at a concrete unsorted list with
duplicates. -/
theorem surf_new_no_panic_witness :
    (∀ k ∈ [[97], [98], [97]], k ≠ ([] : Key)) ∧
    ((∃ s, Surf.new [[97], [98], [97]] Options.new = .ok s) ∨
     (∃ e, Surf.new [[97], [98], [97]] Options.new = .err e)) :=
  ⟨by decide, surf_new_no_panic [[97], [98], [97]] Options.new (by decide)⟩

/-! ## Bitmap view semantics -/

/-- Well-formed bitmap: `length` covers exactly the stored words and
every word is a u64 value. -/
def Bitmap.Wf (bm : Bitmap) : Prop :=
  bm.length = 64 * bm.data.length ∧ ∀ w ∈ bm.data, w < 2 ^ 64

theorem single_one_mask_eq {offset : Nat} (h : offset < 64) :
    single_one_mask offset = 2 ^ (63 - offset) := by
  unfold single_one_mask
  rw [min_eq_left (by omega)]
  rw [Nat.shiftRight_eq_div_pow]
  have h63 : (0x8000000000000000 : Nat) = 2 ^ 63 := by norm_num
  rw [h63, Nat.pow_div (by omega) (by omega)]

theorem testBit_single_one_mask {offset j : Nat} (h : offset < 64) :
    (single_one_mask offset).testBit j = decide (j = 63 - offset) := by
  rw [single_one_mask_eq h, Nat.testBit_two_pow]
  by_cases hj : 63 - offset = j
  · simp [hj]
  · have h2 : ¬ (j = 63 - offset) := fun hx => hj hx.symm
    simp [hj, h2]

theorem testBit_leading_ones_mask {m j : Nat} (hm : m ≤ 64) :
    (leading_ones_mask m).testBit j = decide (64 - m ≤ j ∧ j < 64) := by
  unfold leading_ones_mask
  rw [min_eq_left hm]
  by_cases h0 : m = 0
  · subst h0
    simp
  · rw [if_neg h0]
    rw [Nat.testBit_mod_two_pow, Nat.testBit_shiftLeft]
    have hff : (0xFFFFFFFFFFFFFFFF : Nat) = 2 ^ 64 - 1 := by norm_num
    rw [hff, Nat.testBit_two_pow_sub_one]
    by_cases hj64 : j < 64
    · by_cases hle : 64 - m ≤ j
      · have h1 : j - (64 - m) < 64 := by omega
        have h2 : 64 - m ≤ j ∧ j < 64 := ⟨hle, hj64⟩
        simp [hj64, hle, h1, h2]
      · have h2 : ¬ (64 - m ≤ j ∧ j < 64) := by omega
        simp [hle, h2]
    · have h2 : ¬ (64 - m ≤ j ∧ j < 64) := by omega
      simp [hj64, h2]

theorem getD_listResize_of_le (l : List Nat) (n k : Nat) (h : l.length ≤ n) :
    (listResize l n).getD k 0 = l.getD k 0 := by
  unfold listResize
  rw [List.take_of_length_le h]
  rw [List.getD_eq_getElem?_getD, List.getD_eq_getElem?_getD]
  by_cases hk : k < l.length
  · rw [List.getElem?_append_left hk]
  · rw [List.getElem?_append_right (by omega),
      List.getElem?_eq_none (by omega : l.length ≤ k)]
    by_cases hk2 : k - l.length < n - l.length
    · rw [List.getElem?_eq_getElem (by simpa using hk2)]
      simp
    · rw [List.getElem?_eq_none (by simpa using hk2)]

theorem mem_listResize {l : List Nat} {n : Nat} {w : Nat}
    (h : w ∈ listResize l n) : w ∈ l ∨ w = 0 := by
  unfold listResize at h
  rw [List.mem_append] at h
  rcases h with h | h
  · exact Or.inl (List.mem_of_mem_take h)
  · exact Or.inr (List.eq_of_mem_replicate h)

theorem viewBit_new (s c i : Nat) : (Bitmap.new s c).viewBit i = false := by
  unfold Bitmap.new Bitmap.viewBit
  dsimp only
  by_cases h : i / 64 < (s + 63) / 64
  · rw [List.getD_eq_getElem _ _ (by simpa using h)]
    simp
  · rw [List.getD_eq_default _ _ (by simpa using h)]
    simp

theorem new_wf (s c : Nat) : (Bitmap.new s c).Wf := by
  constructor
  · show (s + 63) / 64 * 64 = 64 * (List.replicate ((s + 63) / 64) (0 : Nat)).length
    rw [List.length_replicate]
    ring
  · intro w hw
    rw [Bitmap.new] at hw
    simp only at hw
    rw [List.eq_of_mem_replicate hw]
    norm_num

/-- `resize` in the growing regime (as invoked by `set`/`get`/`unset`):
capacity and the bit view are unchanged, `length` covers `bit`, and
well-formedness is preserved. -/
theorem resize_spec {bm : Bitmap} (bit : Nat) (hwf : bm.Wf)
    (hcap : bit ≤ bm.capacity) :
    (bm.resize bit).Wf ∧ (bm.resize bit).capacity = bm.capacity ∧
    bm.length ≤ (bm.resize bit).length ∧ bit ≤ (bm.resize bit).length ∧
    ∀ j, (bm.resize bit).viewBit j = bm.viewBit j := by
  obtain ⟨hlen, hword⟩ := hwf
  unfold Bitmap.resize
  split
  · exact ⟨⟨hlen, hword⟩, rfl, le_refl _, by omega, fun j => rfl⟩
  · rename_i hge
    rw [min_eq_left hcap]
    have hgrow : bm.data.length ≤ (bit + 63) / 64 := by omega
    refine ⟨⟨?_, ?_⟩, rfl, ?_, ?_, ?_⟩
    · show (bit + 63) / 64 * 64 = 64 * (listResize bm.data ((bit + 63) / 64)).length
      simp only [listResize, List.length_append, List.length_take,
        List.length_replicate]
      omega
    · intro w hw
      rcases mem_listResize hw with hw | hw
      · exact hword w hw
      · rw [hw]
        norm_num
    · show bm.length ≤ (bit + 63) / 64 * 64
      omega
    · show bit ≤ (bit + 63) / 64 * 64
      omega
    · intro j
      unfold Bitmap.viewBit
      simp only
      rw [getD_listResize_of_le _ _ _ hgrow]

theorem single_one_mask_lt (offset : Nat) : single_one_mask offset < 2 ^ 64 := by
  unfold single_one_mask
  rw [Nat.shiftRight_eq_div_pow]
  have h : (0x8000000000000000 : Nat) / 2 ^ min offset 63 ≤ 0x8000000000000000 :=
    Nat.div_le_self _ _
  norm_num at h ⊢
  omega

/-- `set bit` on a well-formed bitmap with `bit < capacity`: succeeds,
sets exactly bit `bit` in the view, and preserves well-formedness. -/
theorem set_spec {bm : Bitmap} (bit : Nat) (hwf : bm.Wf)
    (hcap : bit < bm.capacity) :
    ∃ bm', bm.set bit = .ok bm' ∧ bm'.Wf ∧ bm'.capacity = bm.capacity ∧
      bm.length ≤ bm'.length ∧ bit < bm'.length ∧
      ∀ j, bm'.viewBit j = (bm.viewBit j || decide (j = bit)) := by
  unfold Bitmap.set
  rw [if_neg (by omega)]
  set bm1 := if bit ≥ bm.length then bm.resize (bit + 1) else bm with hbm1
  have hspec1 : bm1.Wf ∧ bm1.capacity = bm.capacity ∧ bm.length ≤ bm1.length ∧
      bit < bm1.length ∧ ∀ j, bm1.viewBit j = bm.viewBit j := by
    rw [hbm1]
    split
    · have h := resize_spec (bit + 1) hwf (by omega)
      exact ⟨h.1, h.2.1, h.2.2.1, by omega, h.2.2.2.2⟩
    · exact ⟨hwf, rfl, le_refl _, by omega, fun j => rfl⟩
  obtain ⟨⟨hlen1, hword1⟩, hcap1, hle1, hbit1, hview1⟩ := hspec1
  have hidx : bit / 64 < bm1.data.length := by omega
  refine ⟨_, rfl, ⟨?_, ?_⟩, by simpa using hcap1, by simpa using hle1,
    by simpa using hbit1, ?_⟩
  · show bm1.length = 64 * (bm1.data.set (bit / 64) _).length
    rw [List.length_set]
    exact hlen1
  · intro w hw
    simp only at hw
    rcases List.mem_or_eq_of_mem_set hw with hw | hw
    · exact hword1 w hw
    · rw [hw]
      refine Nat.or_lt_two_pow ?_ (single_one_mask_lt _)
      rw [List.getD_eq_getElem _ _ hidx]
      exact hword1 _ (List.getElem_mem _)
  · intro j
    show Bitmap.viewBit _ j = _
    rw [← hview1 j]
    unfold Bitmap.viewBit
    simp only
    have hmj := Nat.mod_lt j (show 0 < 64 by omega)
    have hmb := Nat.mod_lt bit (show 0 < 64 by omega)
    by_cases hj : j / 64 = bit / 64
    · rw [hj, List.getD_eq_getElem _ _ (by rw [List.length_set]; exact hidx),
        List.getElem_set_self, Nat.testBit_or, List.getD_eq_getElem _ _ hidx,
        testBit_single_one_mask hmb]
      congr 1
      by_cases he : j = bit
      · simp [he]
      · have hne : ¬ (63 - j % 64 = 63 - bit % 64) := by
          intro hx
          apply he
          have hjq := Nat.div_add_mod j 64
          have hbq := Nat.div_add_mod bit 64
          omega
        simp [he, hne]
    · rw [List.getD_eq_getElem?_getD, List.getD_eq_getElem?_getD,
        List.getElem?_set_ne (fun hx => hj hx.symm)]
      have hne : ¬ (j = bit) := fun hx => hj (by rw [hx])
      simp [hne]

/-- `get bit` on a well-formed bitmap with `bit < capacity`: succeeds,
returns the viewed bit, and leaves the view unchanged. -/
theorem get_spec {bm : Bitmap} (bit : Nat) (hwf : bm.Wf)
    (hcap : bit < bm.capacity) :
    ∃ bm', bm.get bit = .ok ((if bm.viewBit bit then 1 else 0), bm') ∧
      bm'.Wf ∧ bm'.capacity = bm.capacity ∧
      bm.length ≤ bm'.length ∧ bit < bm'.length ∧
      ∀ j, bm'.viewBit j = bm.viewBit j := by
  unfold Bitmap.get
  rw [if_neg (by omega)]
  set bm1 := if bit ≥ bm.length then bm.resize (bit + 1) else bm with hbm1
  have hspec1 : bm1.Wf ∧ bm1.capacity = bm.capacity ∧ bm.length ≤ bm1.length ∧
      bit < bm1.length ∧ ∀ j, bm1.viewBit j = bm.viewBit j := by
    rw [hbm1]
    split
    · have h := resize_spec (bit + 1) hwf (by omega)
      exact ⟨h.1, h.2.1, h.2.2.1, by omega, h.2.2.2.2⟩
    · exact ⟨hwf, rfl, le_refl _, by omega, fun j => rfl⟩
  obtain ⟨hwf1, hcap1, hle1, hbit1, hview1⟩ := hspec1
  have hmb := Nat.mod_lt bit (show 0 < 64 by omega)
  refine ⟨bm1, ?_, hwf1, hcap1, hle1, hbit1, hview1⟩
  have hval : (bm1.data.getD (bit / 64) 0 &&& single_one_mask (bit % 64)) >>>
      (64 - bit % 64 - 1) = if bm.viewBit bit then 1 else 0 := by
    rw [← hview1 bit]
    unfold Bitmap.viewBit
    rw [single_one_mask_eq hmb]
    have h1 : bm1.data.getD (bit / 64) 0 &&& 2 ^ (63 - bit % 64) =
        (Nat.testBit (bm1.data.getD (bit / 64) 0) (63 - bit % 64)).toNat *
          2 ^ (63 - bit % 64) := Nat.and_two_pow _ _
    rw [h1]
    have h2 : 64 - bit % 64 - 1 = 63 - bit % 64 := by omega
    rw [h2, Nat.shiftRight_eq_div_pow,
      Nat.mul_div_cancel _ (Nat.pos_pow_of_pos _ (by omega))]
    cases Nat.testBit (bm1.data.getD (bit / 64) 0) (63 - bit % 64) <;> simp
  show Except.ok ((bm1.data.getD (bit / 64) 0 &&& single_one_mask (bit % 64)) >>>
      (64 - bit % 64 - 1), bm1) = _
  rw [hval]

/-! ## rank correctness -/

/-- The value-`c` reading of a bit: the bit itself for `c = true`
(rank/select of ones) and its complement for `c = false`. -/
def bitVal (c : Bool) (bm : Bitmap) (j : Nat) : Bool :=
  if c then bm.viewBit j else ! bm.viewBit j

/-- Number of value-`c` bits in positions `[0, idx]`. -/
def rankCount (c : Bool) (bm : Bitmap) (idx : Nat) : Nat :=
  (List.range (idx + 1)).countP (bitVal c bm)

theorem countP_congrB {l : List Nat} {p q : Nat → Bool}
    (h : ∀ a ∈ l, p a = q a) : l.countP p = l.countP q :=
  List.countP_congr (fun a ha => by rw [h a ha])

theorem countP_not_eq (l : List Nat) (p : Nat → Bool) :
    l.countP (fun a => ! p a) = l.length - l.countP p := by
  have hsum : l.length = l.countP p + l.countP (fun a => ¬ p a = true) :=
    List.length_eq_countP_add_countP p l
  have hc : l.countP (fun a => ! p a) = l.countP (fun a => ¬ p a = true) := by
    apply countP_congrB
    intro a _
    cases p a <;> simp
  omega

theorem countP_range_reflect (n : Nat) (P : Nat → Bool) :
    (List.range n).countP (fun r => P (n - 1 - r)) = (List.range n).countP P := by
  conv_rhs => rw [← List.countP_reverse, List.range_eq_range', List.reverse_range']
  rw [List.countP_map]
  apply countP_congrB
  intro r hr
  rw [List.mem_range] at hr
  show P (n - 1 - r) = P (0 + n - 1 - r)
  rw [Nat.zero_add]

theorem countOnes64_reflect (w : Nat) :
    countOnes64 w = (List.range 64).countP (fun r => w.testBit (63 - r)) := by
  have h := countP_range_reflect 64 (fun j => w.testBit j)
  unfold countOnes64
  rw [← h]

theorem countP_range'_shift (s n : Nat) (P : Nat → Bool) :
    (List.range' s n).countP P = (List.range n).countP (fun r => P (s + r)) := by
  rw [List.range'_eq_map_range, List.countP_map]
  rfl

theorem countP_range_restrict (m : Nat) (hm : m ≤ 64) (P : Nat → Bool) :
    (List.range 64).countP (fun r => P r && decide (r < m)) =
      (List.range m).countP P := by
  have hsplit : List.range 64 = List.range m ++ List.range' m (64 - m) := by
    rw [List.range_eq_range', List.range_eq_range']
    have h := List.range'_append_1 0 m (64 - m)
    rw [Nat.zero_add] at h
    rw [h]
    congr 1
    omega
  rw [hsplit, List.countP_append]
  have h1 : (List.range m).countP (fun r => P r && decide (r < m)) =
      (List.range m).countP P := by
    apply countP_congrB
    intro r hr
    rw [List.mem_range] at hr
    simp [hr]
  have h2 : (List.range' m (64 - m)).countP (fun r => P r && decide (r < m)) = 0 := by
    rw [List.countP_eq_zero]
    intro r hr
    rw [List.mem_range'_1] at hr
    have : ¬ r < m := by omega
    simp [this]
  rw [h1, h2, Nat.add_zero]

theorem countOnes64_masked (w m : Nat) (hm1 : 1 ≤ m) (hm64 : m ≤ 64) :
    countOnes64 (w &&& leading_ones_mask m) =
      (List.range m).countP (fun r => w.testBit (63 - r)) := by
  unfold countOnes64
  have hstep : ∀ j ∈ List.range 64,
      (w &&& leading_ones_mask m).testBit j = (w.testBit j && decide (64 - m ≤ j)) := by
    intro j hj
    rw [List.mem_range] at hj
    rw [Nat.testBit_and, testBit_leading_ones_mask hm64]
    by_cases hle : 64 - m ≤ j
    · simp [hle, hj]
    · simp [hle]
  rw [countP_congrB hstep]
  rw [← countP_range_reflect 64 (fun j => w.testBit j && decide (64 - m ≤ j))]
  rw [← countP_range_restrict m hm64 (fun r => w.testBit (63 - r))]
  apply countP_congrB
  intro r hr
  rw [List.mem_range] at hr
  have h63 : (64 : Nat) - 1 - r = 63 - r := by omega
  rw [h63]
  congr 1
  by_cases hrm : r < m
  · have hle : 64 - m ≤ 63 - r := by omega
    simp [hle, hrm]
  · have hle : ¬ (64 - m ≤ 63 - r) := by omega
    simp [hle, hrm]

theorem countP_view_block (bm : Bitmap) (k m : Nat) (hm : m ≤ 64) (Q : Bool → Bool) :
    (List.range' (64 * k) m).countP (fun j => Q (bm.viewBit j)) =
      (List.range m).countP (fun r => Q ((bm.data.getD k 0).testBit (63 - r))) := by
  rw [countP_range'_shift]
  apply countP_congrB
  intro r hr
  rw [List.mem_range] at hr
  unfold Bitmap.viewBit
  have hdiv : (64 * k + r) / 64 = k := by omega
  have hmod : (64 * k + r) % 64 = r := by omega
  rw [hdiv, hmod]

theorem rankBlock_full {bm : Bitmap} {c : Bool} {idx k : Nat}
    (hk : 64 * k + 63 < idx) :
    Bitmap.rankBlock bm c idx (64 * k) =
      (List.range' (64 * k) 64).countP (bitVal c bm) := by
  have hw64 : 64 * k / 64 = k := by omega
  simp only [Bitmap.rankBlock, hw64, if_pos hk]
  cases c with
  | true =>
    rw [if_pos rfl, countOnes64_reflect]
    exact (countP_view_block bm k 64 (by omega) (fun b => b)).symm
  | false =>
    rw [if_neg Bool.false_ne_true]
    have hnot := countP_not_eq (List.range 64)
      (fun r => ((bm.data.getD k 0).testBit (63 - r)))
    rw [List.length_range] at hnot
    rw [countOnes64_reflect]
    have hview := countP_view_block bm k 64 (by omega) (fun b => ! b)
    rw [← hnot] at *
    exact (countP_view_block bm k 64 (by omega) (fun b => ! b)).symm

theorem rankBlock_cut {bm : Bitmap} {c : Bool} {idx k : Nat}
    (h1 : 64 * k ≤ idx) (h2 : idx ≤ 64 * k + 63) :
    Bitmap.rankBlock bm c idx (64 * k) =
      (List.range' (64 * k) (idx - 64 * k + 1)).countP (bitVal c bm) := by
  have hw64 : 64 * k / 64 = k := by omega
  have hm1 : 1 ≤ idx - 64 * k + 1 := by omega
  have hm64 : idx - 64 * k + 1 ≤ 64 := by omega
  have hnotfull : ¬ (64 * k + 63 < idx) := by omega
  have hmask := countOnes64_masked (bm.data.getD k 0) (idx - 64 * k + 1) hm1 hm64
  simp only [Bitmap.rankBlock, hw64, if_neg hnotfull]
  cases c with
  | true =>
    rw [if_pos rfl, hmask]
    exact (countP_view_block bm k (idx - 64 * k + 1) hm64 (fun b => b)).symm
  | false =>
    rw [if_neg Bool.false_ne_true, hmask]
    have hnot := countP_not_eq (List.range (idx - 64 * k + 1))
      (fun r => ((bm.data.getD k 0).testBit (63 - r)))
    rw [List.length_range] at hnot
    rw [← hnot]
    exact (countP_view_block bm k (idx - 64 * k + 1) hm64 (fun b => ! b)).symm

theorem sum_full_blocks (bm : Bitmap) (c : Bool) (idx : Nat) (K : Nat)
    (hK : ∀ k < K, 64 * k + 63 < idx) :
    ((List.range K).map (fun k => Bitmap.rankBlock bm c idx (64 * k))).sum =
      (List.range (64 * K)).countP (bitVal c bm) := by
  induction K with
  | zero => simp
  | succ K ih =>
    rw [List.range_succ, List.map_append, List.sum_append]
    rw [ih (fun k hk => hK k (by omega))]
    simp only [List.map_cons, List.map_nil, List.sum_cons, List.sum_nil]
    rw [rankBlock_full (hK K (by omega))]
    have hsplit : List.range (64 * (K + 1)) =
        List.range (64 * K) ++ List.range' (64 * K) 64 := by
      rw [List.range_eq_range', List.range_eq_range']
      have h := List.range'_append_1 0 (64 * K) 64
      rw [Nat.zero_add] at h
      rw [h]
      congr 1
      omega
    rw [hsplit, List.countP_append]
    omega

theorem sum_blocks (bm : Bitmap) (c : Bool) (idx : Nat) :
    ((List.range (idx / 64 + 1)).map (fun k => Bitmap.rankBlock bm c idx (64 * k))).sum =
      rankCount c bm idx := by
  have hq : 64 * (idx / 64) ≤ idx := by omega
  rw [List.range_succ, List.map_append, List.sum_append]
  rw [sum_full_blocks bm c idx (idx / 64) (fun k hk => by omega)]
  simp only [List.map_cons, List.map_nil, List.sum_cons, List.sum_nil]
  rw [rankBlock_cut (show 64 * (idx / 64) ≤ idx by omega)
    (show idx ≤ 64 * (idx / 64) + 63 by omega)]
  unfold rankCount
  have hsplit : List.range (idx + 1) =
      List.range (64 * (idx / 64)) ++
        List.range' (64 * (idx / 64)) (idx - 64 * (idx / 64) + 1) := by
    rw [List.range_eq_range', List.range_eq_range']
    have h := List.range'_append_1 0 (64 * (idx / 64)) (idx - 64 * (idx / 64) + 1)
    rw [Nat.zero_add] at h
    rw [h]
    congr 1
    omega
  rw [hsplit, List.countP_append]
  omega

theorem rank_one_spec (bm : Bitmap) (idx : Nat) (hidx : idx < bm.length) :
    bm.rank 1 idx = .ok (rankCount true bm idx) := by
  simp only [Bitmap.rank]
  rw [if_neg (show ¬ idx ≥ bm.length by omega)]
  rw [if_neg (show ¬ ((1 : Nat) ≠ 0 ∧ (1 : Nat) ≠ 1) by simp)]
  exact congrArg Except.ok (sum_blocks bm true idx)

theorem rank_zero_spec (bm : Bitmap) (idx : Nat) (hidx : idx < bm.length) :
    bm.rank 0 idx = .ok (rankCount false bm idx) := by
  simp only [Bitmap.rank]
  rw [if_neg (show ¬ idx ≥ bm.length by omega)]
  rw [if_neg (show ¬ ((0 : Nat) ≠ 0 ∧ (0 : Nat) ≠ 1) by simp)]
  exact congrArg Except.ok (sum_blocks bm false idx)

/-! ## select correctness -/

theorem get_word_val (bm : Bitmap) (bit : Nat) :
    (bm.data.getD (bit / 64) 0 &&& single_one_mask (bit % 64)) >>>
      (64 - bit % 64 - 1) = if bm.viewBit bit then 1 else 0 := by
  have hmb := Nat.mod_lt bit (show 0 < 64 by omega)
  unfold Bitmap.viewBit
  rw [single_one_mask_eq hmb]
  have hpow := Nat.and_two_pow (bm.data.getD (bit / 64) 0) (63 - bit % 64)
  rw [hpow]
  have h2 : 64 - bit % 64 - 1 = 63 - bit % 64 := by omega
  rw [h2, Nat.shiftRight_eq_div_pow,
    Nat.mul_div_cancel _ (Nat.pos_pow_of_pos _ (by omega))]
  cases Nat.testBit (bm.data.getD (bit / 64) 0) (63 - bit % 64) <;> simp

theorem get_noresize {bm : Bitmap} (bit : Nat) (hlen : bit < bm.length)
    (hcap : bit < bm.capacity) :
    bm.get bit = .ok ((if bm.viewBit bit then 1 else 0), bm) := by
  simp only [Bitmap.get]
  rw [if_neg (show ¬ bit ≥ bm.capacity by omega)]
  rw [if_neg (show ¬ bit ≥ bm.length by omega)]
  rw [get_word_val]

theorem range_split {a b : Nat} (hab : a ≤ b) :
    List.range b = List.range a ++ List.range' a (b - a) := by
  rw [List.range_eq_range', List.range_eq_range']
  have h := List.range'_append_1 0 a (b - a)
  rw [Nat.zero_add] at h
  rw [h]
  congr 1
  omega

theorem countP_range_mono (P : Nat → Bool) {a b : Nat} (hab : a ≤ b) :
    (List.range a).countP P ≤ (List.range b).countP P := by
  rw [range_split hab, List.countP_append]
  omega

theorem countP_range_succ (P : Nat → Bool) (n : Nat) :
    (List.range (n + 1)).countP P =
      (List.range n).countP P + (if P n then 1 else 0) := by
  rw [List.range_succ, List.countP_append, List.countP_singleton]

theorem countP_range_mul_succ (P : Nat → Bool) (k : Nat) :
    (List.range (64 * (k + 1))).countP P =
      (List.range (64 * k)).countP P + (List.range' (64 * k) 64).countP P := by
  rw [range_split (show 64 * k ≤ 64 * (k + 1) by omega), List.countP_append]
  have h : 64 * (k + 1) - 64 * k = 64 := by omega
  rw [h]

theorem word_block_count (bm : Bitmap) (c : Bool) (k : Nat) :
    (if c then countOnes64 (bm.data.getD k 0)
      else 64 - countOnes64 (bm.data.getD k 0)) =
      (List.range' (64 * k) 64).countP (bitVal c bm) := by
  cases c with
  | true =>
    rw [if_pos rfl, countOnes64_reflect]
    exact (countP_view_block bm k 64 (by omega) (fun b => b)).symm
  | false =>
    rw [if_neg Bool.false_ne_true, countOnes64_reflect]
    have hnot := countP_not_eq (List.range 64)
      (fun r => ((bm.data.getD k 0).testBit (63 - r)))
    rw [List.length_range] at hnot
    rw [← hnot]
    exact (countP_view_block bm k 64 (by omega) (fun b => ! b)).symm

theorem bitVal_match_cond {bm : Bitmap} {c : Bool} {idx : Nat} :
    (((if bm.viewBit idx then 1 else 0) = (1 : Nat) ∧ c = true) ∨
      ((if bm.viewBit idx then 1 else 0) = (0 : Nat) ∧ ¬ c = true)) ↔
      bitVal c bm idx = true := by
  unfold bitVal
  cases c <;> cases h : bm.viewBit idx <;> simp [h]

theorem selectSkip_spec (bm : Bitmap) (c : Bool) (nth : Nat) (hwf : bm.Wf) :
    ∀ (fuel k count : Nat),
      count = (List.range (64 * k)).countP (bitVal c bm) →
      count < nth → 64 * k ≤ bm.length → bm.data.length - k < fuel →
      ∃ k', bm.selectSkip c nth count (64 * k) fuel =
          ((List.range (64 * k')).countP (bitVal c bm), 64 * k') ∧
        (List.range (64 * k')).countP (bitVal c bm) < nth ∧
        64 * k' ≤ bm.length ∧
        (64 * k' = bm.length ∨
          (64 * k' < bm.length ∧
            nth ≤ (List.range (64 * (k' + 1))).countP (bitVal c bm))) := by
  intro fuel
  induction fuel with
  | zero =>
    intro k count _ _ _ hfuel
    omega
  | succ fuel ih =>
    intro k count hcount hlt hle hfuel
    simp only [Bitmap.selectSkip]
    by_cases hidx : 64 * k < bm.length
    · rw [if_pos hidx]
      have hk64 : 64 * k / 64 = k := by omega
      rw [hk64]
      rw [word_block_count bm c k]
      by_cases hge : count + (List.range' (64 * k) 64).countP (bitVal c bm) ≥ nth
      · rw [if_pos hge]
        refine ⟨k, by rw [hcount], by omega, by omega, Or.inr ⟨hidx, ?_⟩⟩
        rw [countP_range_mul_succ (bitVal c bm) k]
        omega
      · rw [if_neg hge]
        have h64 : 64 * k + 64 = 64 * (k + 1) := by ring
        rw [h64]
        apply ih (k + 1) (count + (List.range' (64 * k) 64).countP (bitVal c bm))
        · rw [countP_range_mul_succ (bitVal c bm) k, hcount]
        · omega
        · obtain ⟨hl, _⟩ := hwf
          omega
        · obtain ⟨hl, _⟩ := hwf
          omega
    · rw [if_neg hidx]
      exact ⟨k, by rw [hcount], by omega, by omega, Or.inl (by omega)⟩

theorem selectScan_spec (c : Bool) (nth : Nat) :
    ∀ (d : Nat) (bm : Bitmap) (count idx : Nat), bm.Wf →
      bm.length ≤ bm.capacity → bm.length - idx ≤ d →
      count = (List.range idx).countP (bitVal c bm) →
      count < nth →
      nth ≤ (List.range bm.length).countP (bitVal c bm) →
      ∃ p, bm.selectScan c nth count idx = .ok (p, bm) ∧
        idx ≤ p ∧ p < bm.length ∧ bitVal c bm p = true ∧
        (List.range (p + 1)).countP (bitVal c bm) = nth := by
  intro d
  induction d with
  | zero =>
    intro bm count idx _ _ hd hcount hlt htot
    exfalso
    have hmono := countP_range_mono (bitVal c bm) (show bm.length ≤ idx by omega)
    omega
  | succ d ih =>
    intro bm count idx hwf hcap hd hcount hlt htot
    by_cases hidxlen : idx < bm.length
    · have hget := get_noresize idx hidxlen (by omega)
      rw [selectScan_step_ok hget hlt]
      have hsucc := countP_range_succ (bitVal c bm) idx
      by_cases hbit : bitVal c bm idx = true
      · rw [if_pos (bitVal_match_cond.mpr hbit)]
        by_cases hfin : count + 1 < nth
        · obtain ⟨p, hres, hp1, hp2, hp3, hp4⟩ := ih bm (count + 1) (idx + 1) hwf hcap
            (by omega) (by rw [hsucc, if_pos hbit, ← hcount]) hfin htot
          exact ⟨p, hres, by omega, hp2, hp3, hp4⟩
        · rw [selectScan_done hfin]
          refine ⟨idx, ?_, le_refl _, hidxlen, hbit, ?_⟩
          · rw [Nat.add_sub_cancel]
          · rw [hsucc, if_pos hbit]
            omega
      · rw [if_neg (fun h => hbit (bitVal_match_cond.mp h))]
        obtain ⟨p, hres, hp1, hp2, hp3, hp4⟩ := ih bm count (idx + 1) hwf hcap
          (by omega) (by rw [hsucc, if_neg hbit, Nat.add_zero]; exact hcount) hlt htot
        exact ⟨p, hres, by omega, hp2, hp3, hp4⟩
    · exfalso
      have hmono := countP_range_mono (bitVal c bm) (show bm.length ≤ idx by omega)
      omega

/-- C8 (amended): for a well-formed bitmap whose logical length does not
exceed its capacity, `v ∈ {0,1}` and `1 ≤ nth ≤ length`, `select(v, nth)`
returns the smallest index `i` with `rank(v, i) = nth` — the 0-based
position of the `nth` bit of value `v` — whenever at least `nth` such bits
exist, and fails with the NotFound error `"Bitmap only contained nth bits
of value val"` when fewer than `nth` bits of value `v` exist.  (The
original unconditional claim is refuted by
`select_capacity_error_counterexample`, where `length > capacity` makes
the scan hit the capacity-range error instead.) -/
theorem select_rank_spec (bm : Bitmap) (v nth : Nat) (hwf : bm.Wf)
    (hcap : bm.length ≤ bm.capacity) (hv : v = 0 ∨ v = 1)
    (h1 : 1 ≤ nth) (h2 : nth ≤ bm.length) :
    (nth ≤ (List.range bm.length).countP (bitVal (decide (v = 1)) bm) →
      ∃ i, bm.select v nth = .ok (i, bm) ∧ bm.rank v i = .ok nth ∧
        ∀ j < i, bm.rank v j ≠ .ok nth) ∧
    ((List.range bm.length).countP (bitVal (decide (v = 1)) bm) < nth →
      bm.select v nth = .error "Bitmap only contained nth bits of value val") := by
  have hvne : ¬ (v ≠ 0 ∧ v ≠ 1) := by
    rcases hv with h | h <;> simp [h]
  have hnth : ¬ (nth = 0 ∨ nth > bm.length) := by omega
  obtain ⟨k', hskip, hlt', hle', hexit⟩ :=
    selectSkip_spec bm (decide (v = 1)) nth hwf (bm.data.length + 1) 0 0
      (by simp) (by omega) (by omega) (by omega)
  have hskip' : bm.selectSkip (decide (v = 1)) nth 0 0 (bm.data.length + 1) =
      ((List.range (64 * k')).countP (bitVal (decide (v = 1)) bm), 64 * k') := hskip
  constructor
  · intro htot
    have hklen : 64 * k' < bm.length := by
      rcases hexit with h | h
      · exfalso
        rw [h] at hlt'
        omega
      · exact h.1
    obtain ⟨p, hscan, hp1, hp2, hp3, hp4⟩ := selectScan_spec (decide (v = 1)) nth
      (bm.length - 64 * k') bm
      ((List.range (64 * k')).countP (bitVal (decide (v = 1)) bm))
      (64 * k') hwf hcap (by omega) rfl hlt' htot
    refine ⟨p, ?_, ?_, ?_⟩
    · simp only [Bitmap.select]
      rw [if_neg hvne, if_neg hnth, hskip']
      dsimp only
      rw [if_neg (show ¬ 64 * k' ≥ bm.length by omega)]
      exact hscan
    · have hrank : bm.rank v p =
          .ok ((List.range (p + 1)).countP (bitVal (decide (v = 1)) bm)) := by
        rcases hv with hv0 | hv1
        · subst hv0
          exact rank_zero_spec bm p hp2
        · subst hv1
          exact rank_one_spec bm p hp2
      rw [hrank, hp4]
    · intro j hj heq
      have hjlen : j < bm.length := by omega
      have hmono := countP_range_mono (bitVal (decide (v = 1)) bm)
        (show j + 1 ≤ p by omega)
      have hs := countP_range_succ (bitVal (decide (v = 1)) bm) p
      rw [if_pos hp3] at hs
      have hrank : bm.rank v j =
          .ok ((List.range (j + 1)).countP (bitVal (decide (v = 1)) bm)) := by
        rcases hv with hv0 | hv1
        · subst hv0
          exact rank_zero_spec bm j hjlen
        · subst hv1
          exact rank_one_spec bm j hjlen
      rw [hrank] at heq
      simp only [Except.ok.injEq] at heq
      omega
  · intro htot
    rcases hexit with h | h
    · simp only [Bitmap.select]
      rw [if_neg hvne, if_neg hnth, hskip']
      dsimp only
      rw [if_pos (show 64 * k' ≥ bm.length by omega)]
    · exfalso
      obtain ⟨hl, _⟩ := hwf
      have hmono := countP_range_mono (bitVal (decide (v = 1)) bm)
        (show 64 * (k' + 1) ≤ bm.length by omega)
      omega

/-- Witness for `select_rank_spec`: on the all-zero 64-bit bitmap,
`select(0, 1)` returns index 0, where `rank(0, 0) = 1`. -/
theorem select_rank_spec_witness :
    ∃ i, (Bitmap.new 64 64).select 0 1 = .ok (i, Bitmap.new 64 64) ∧
      (Bitmap.new 64 64).rank 0 i = .ok 1 ∧
      ∀ j < i, (Bitmap.new 64 64).rank 0 j ≠ .ok 1 :=
  (select_rank_spec (Bitmap.new 64 64) 0 1 (new_wf 64 64) (by decide)
    (Or.inl rfl) (by decide) (by decide)).1 (by decide)

/-! ## Abstract LOUDS-DENSE trie model

The builder is characterised against a purely functional description of
the trie of a key list `ts`: which nodes exist level by level, which
label/has-child/is-prefix-key bits they carry, and in which (level,
lexicographic) order they are laid out. -/

/-- Some key of `ts` passes through (or ends at) path `q`. -/
def touches (ts : List Key) (q : Key) : Bool :=
  ts.any (fun k => q.isPrefixOf k)

/-- Some key of `ts` strictly extends path `q` (so `q` gets a trie node
of its own). -/
def hasExt (ts : List Key) (q : Key) : Bool :=
  ts.any (fun k => q.isPrefixOf k && decide (q.length < k.length))

/-- The `NodeTask` the builder constructs for path `q`. -/
def specTask (ts : List Key) (q : Key) : NodeTask :=
  { keys := ts.filter (fun k => q.isPrefixOf k && decide (q.length < k.length)),
    is_prefix_key := decide (q ∈ ts) }

/-- The labelled outgoing edges of the node at path `q`, in increasing
byte order. -/
def childEdges (ts : List Key) (q : Key) : List Nat :=
  (List.range 256).filter (fun e => touches ts (q ++ [e]))

/-- The paths for which the builder holds a task at depth `d`, in the
order the tasks were pushed. -/
def levelPaths (ts : List Key) : Nat → List Key
  | 0 => [[]]
  | d + 1 => ((levelPaths ts d).filter (fun q => hasExt ts q)).flatMap
      (fun q => (childEdges ts q).map (fun e => q ++ [e]))

/-- The paths that actually become nodes at depth `d` (nonempty tasks). -/
def nodesAtLevel (ts : List Key) (d : Nat) : List Key :=
  (levelPaths ts d).filter (fun q => hasExt ts q)

/-- All nodes of levels `0 .. d-1` in level order: node `i` of the built
trie is `(builtNodes ts d).getD i []`. -/
def builtNodes (ts : List Key) (d : Nat) : List Key :=
  (List.range d).flatMap (nodesAtLevel ts)

/-- Intended value of bit `j` of the D-Labels bitmap given node list `ns`. -/
def labelBitOf (ts ns : List Key) (j : Nat) : Bool :=
  decide (j / 256 < ns.length) && touches ts (ns.getD (j / 256) [] ++ [j % 256])

/-- Intended value of bit `j` of the D-HasChild bitmap. -/
def childBitOf (ts ns : List Key) (j : Nat) : Bool :=
  decide (j / 256 < ns.length) && hasExt ts (ns.getD (j / 256) [] ++ [j % 256])

/-- Intended value of bit `j` of the D-IsPrefixKey bitmap. -/
def prefixBitOf (ts ns : List Key) (j : Nat) : Bool :=
  decide (j < ns.length) && decide (ns.getD j [] ∈ ts)

/-- Among the keys `P` already processed by the per-key loop at depth
`d`, some key has edge byte `e`. -/
def edgeIn (d : Nat) (P : List Key) (e : Nat) : Bool :=
  P.any (fun k => decide (k.getD d 0 = e))

/-- Some processed key continues below edge `e`. -/
def childIn (d : Nat) (P : List Key) (e : Nat) : Bool :=
  P.any (fun k => decide (k.getD d 0 = e) && decide (d + 1 < k.length))

/-- Some processed key terminates exactly on edge `e`. -/
def termIn (d : Nat) (P : List Key) (e : Nat) : Bool :=
  P.any (fun k => decide (k.getD d 0 = e) && decide (k.length = d + 1))

/-- The distinct edges of the processed keys, in increasing order. -/
def edgeList (d : Nat) (P : List Key) : List Nat :=
  (List.range 256).filter (edgeIn d P)

/-- The child task contents accumulated for edge `e` after processing `P`. -/
def taskOf (d : Nat) (P : List Key) (e : Nat) : NodeTask :=
  { keys := P.filter (fun k => decide (k.getD d 0 = e) && decide (d + 1 < k.length)),
    is_prefix_key := termIn d P e }

/-- The child tasks the node at path `q` pushes, in push order. -/
def childTaskList (ts : List Key) (q : Key) : List NodeTask :=
  (childEdges ts q).map (fun e => specTask ts (q ++ [e]))

theorem bool_eq_of_iff {a b : Bool} (h : a = true ↔ b = true) : a = b := by
  cases a <;> cases b <;> simp_all

theorem LoopRes.panicked_bind {ε α β : Type} (f : α → LoopRes ε β) :
    ((LoopRes.panicked : LoopRes ε α) >>= f) = .panicked := rfl

theorem LoopRes.fuelOut_bind {ε α β : Type} (f : α → LoopRes ε β) :
    ((LoopRes.fuelOut : LoopRes ε α) >>= f) = .fuelOut := rfl

/-- Success-only induction for `foldlM` over `LoopRes`, tracking the
processed prefix of the folded list. -/
theorem foldlM_ok_ind {E α β : Type} (f : β → α → LoopRes E β)
    (I : List α → β → Prop) (L : List α)
    (step : ∀ pre a rest b y, L = pre ++ a :: rest → I pre b →
      f b a = .ok y → I (pre ++ [a]) y) :
    ∀ (l pre : List α) (b y : β), L = pre ++ l → I pre b →
      l.foldlM f b = .ok y → I (pre ++ l) y := by
  intro l
  induction l with
  | nil =>
    intro pre b y _ hI h
    rw [List.foldlM_nil] at h
    cases h
    simpa using hI
  | cons a l ih =>
    intro pre b y hL hI h
    rw [List.foldlM_cons] at h
    cases hfa : f b a with
    | ok c =>
      rw [hfa, LoopRes.ok_bind] at h
      have hI' := step pre a l b c hL hI hfa
      have hres := ih (pre ++ [a]) c y
        (by rw [List.append_assoc, List.singleton_append]; exact hL) hI' h
      rwa [List.append_assoc, List.singleton_append] at hres
    | err e =>
      rw [hfa, LoopRes.err_bind] at h
      cases h
    | panicked =>
      rw [hfa, LoopRes.panicked_bind] at h
      cases h
    | fuelOut =>
      rw [hfa, LoopRes.fuelOut_bind] at h
      cases h

theorem prefix_take_eq {q k : Key} (h : q <+: k) : k.take q.length = q :=
  (List.prefix_iff_eq_take.mp h).symm

theorem getD_eq_getElem_at {k : Key} {d : Nat} (hd : d < k.length) :
    k.getD d 0 = k[d] := by
  rw [List.getD_eq_getElem?_getD, List.getElem?_eq_getElem hd]
  rfl

theorem take_snoc_eq {q k : Key} (d : Nat) (hq : q.length = d)
    (hpre : q <+: k) (hd : d < k.length) :
    q ++ [k.getD d 0] = k.take (d + 1) := by
  rw [List.take_succ, List.getElem?_eq_getElem hd]
  have hqt : k.take d = q := by
    rw [← hq]
    exact prefix_take_eq hpre
  rw [hqt, getD_eq_getElem_at hd]
  rfl

theorem prefix_append_getD {q k : Key} (d : Nat) (hq : q.length = d)
    (hpre : q <+: k) (hd : d < k.length) :
    (q ++ [k.getD d 0]) <+: k := by
  rw [take_snoc_eq d hq hpre hd]
  exact List.take_prefix _ _

theorem prefix_snoc_getD {q k : Key} {e : Nat} (d : Nat) (hq : q.length = d)
    (hpre : (q ++ [e]) <+: k) :
    q <+: k ∧ d < k.length ∧ k.getD d 0 = e := by
  have hq1 : q <+: k := (List.prefix_append q [e]).trans hpre
  have hlen : d + 1 ≤ k.length := by
    have := hpre.length_le
    simp only [List.length_append, List.length_singleton] at this
    omega
  refine ⟨hq1, by omega, ?_⟩
  have htake : k.take (d + 1) = q ++ [e] := by
    have h0 := prefix_take_eq hpre
    simpa [hq] using h0
  have h2 : q ++ [k.getD d 0] = q ++ [e] := by
    rw [take_snoc_eq d hq hq1 (by omega), htake]
  have h3 := List.append_inj_right h2 rfl
  simpa using h3

theorem Key.less_getD_le (d : Nat) : ∀ (a b : Key), Key.less a b = true →
    a.take d = b.take d → d < a.length → d < b.length →
    a.getD d 0 ≤ b.getD d 0 := by
  induction d with
  | zero =>
    intro a b h _ ha hb
    cases a with
    | nil => simp at ha
    | cons x xs =>
      cases b with
      | nil => simp at hb
      | cons y ys =>
        simp only [List.getD_cons_zero]
        unfold Key.less at h
        by_cases hxy : x < y
        · omega
        · rw [if_neg hxy] at h
          by_cases hyx : y < x
          · rw [if_pos hyx] at h
            cases h
          · omega
  | succ d ih =>
    intro a b h ht ha hb
    cases a with
    | nil => simp at ha
    | cons x xs =>
      cases b with
      | nil => simp at hb
      | cons y ys =>
        simp only [List.take_succ_cons, List.cons.injEq] at ht
        obtain ⟨hxy, ht'⟩ := ht
        subst hxy
        unfold Key.less at h
        rw [if_neg (by omega), if_neg (by omega)] at h
        simp only [List.getD_cons_succ]
        exact ih xs ys h ht'
          (by simp only [List.length_cons] at ha; omega)
          (by simp only [List.length_cons] at hb; omega)

theorem filter_range_push {N e : Nat} (he : e < N) (Qold Qnew : Nat → Bool)
    (hnew : ∀ x, Qnew x = (Qold x || decide (x = e)))
    (hmax : ∀ x, Qold x = true → x < e) :
    (List.range N).filter Qnew = (List.range N).filter Qold ++ [e] := by
  have hQe : Qold e = false := by
    cases hq : Qold e
    · rfl
    · exact absurd (hmax e hq) (by omega)
  have hsplit : List.range N =
      List.range (e + 1) ++ List.range' (e + 1) (N - (e + 1)) :=
    range_split (by omega)
  rw [hsplit, List.range_succ, List.filter_append, List.filter_append,
    List.filter_append, List.filter_append]
  have h1 : (List.range e).filter Qnew = (List.range e).filter Qold := by
    apply List.filter_congr
    intro x hx
    rw [List.mem_range] at hx
    rw [hnew x]
    have hne : decide (x = e) = false := by
      simp only [decide_eq_false_iff_not]
      omega
    rw [hne, Bool.or_false]
  have h2 : [e].filter Qnew = [e] := by
    rw [List.filter_cons]
    rw [if_pos (by rw [hnew e]; simp)]
    rfl
  have h2' : [e].filter Qold = [] := by
    rw [List.filter_cons, if_neg (by simp [hQe])]
    rfl
  have h3 : (List.range' (e + 1) (N - (e + 1))).filter Qnew = [] := by
    rw [List.filter_eq_nil_iff]
    intro x hx
    rw [List.mem_range'_1] at hx
    have h4 : Qold x = false := by
      cases hq : Qold x
      · rfl
      · exact absurd (hmax x hq) (by omega)
    rw [hnew x, h4]
    simp only [Bool.false_or, decide_eq_true_eq]
    omega
  have h3' : (List.range' (e + 1) (N - (e + 1))).filter Qold = [] := by
    rw [List.filter_eq_nil_iff]
    intro x hx
    rw [List.mem_range'_1] at hx
    have h4 : Qold x = false := by
      cases hq : Qold x
      · rfl
      · exact absurd (hmax x hq) (by omega)
    simp [h4]
  rw [h1, h2, h2', h3, h3']
  simp

theorem set_last_append {α : Type} (X : List α) (y z : α) :
    (X ++ [y]).set X.length z = X ++ [z] := by
  rw [List.set_append_right _ _ (le_refl X.length)]
  simp

/-- `edgeIn` over the spec task of `q` is exactly `touches` one level
down. -/
theorem edgeIn_specTask (ts : List Key) (q : Key) (d : Nat) (hq : q.length = d)
    (e : Nat) :
    edgeIn d (specTask ts q).keys e = touches ts (q ++ [e]) := by
  apply bool_eq_of_iff
  unfold edgeIn touches specTask
  simp only [List.any_eq_true, List.mem_filter, Bool.and_eq_true,
    decide_eq_true_eq]
  constructor
  · rintro ⟨k, ⟨hk, hpre, hlen⟩, hed⟩
    refine ⟨k, hk, ?_⟩
    rw [List.isPrefixOf_iff_prefix] at hpre
    have := prefix_append_getD d hq hpre (by omega)
    rw [hed] at this
    exact List.isPrefixOf_iff_prefix.mpr this
  · rintro ⟨k, hk, hpre⟩
    rw [List.isPrefixOf_iff_prefix] at hpre
    obtain ⟨hq1, hd, hed⟩ := prefix_snoc_getD d hq hpre
    exact ⟨k, ⟨hk, List.isPrefixOf_iff_prefix.mpr hq1, by omega⟩, by rw [hed]⟩

/-- `childIn` over the spec task of `q` is exactly `hasExt` one level
down. -/
theorem childIn_specTask (ts : List Key) (q : Key) (d : Nat) (hq : q.length = d)
    (e : Nat) :
    childIn d (specTask ts q).keys e = hasExt ts (q ++ [e]) := by
  apply bool_eq_of_iff
  unfold childIn hasExt specTask
  simp only [List.any_eq_true, List.mem_filter, Bool.and_eq_true,
    decide_eq_true_eq, List.length_append, List.length_singleton]
  constructor
  · rintro ⟨k, ⟨hk, hpre, hlen⟩, hed, hlong⟩
    refine ⟨k, hk, ?_, by omega⟩
    rw [List.isPrefixOf_iff_prefix] at hpre
    have := prefix_append_getD d hq hpre (by omega)
    rw [hed] at this
    exact List.isPrefixOf_iff_prefix.mpr this
  · rintro ⟨k, hk, hpre, hlong⟩
    rw [List.isPrefixOf_iff_prefix] at hpre
    obtain ⟨hq1, hd, hed⟩ := prefix_snoc_getD d hq hpre
    exact ⟨k, ⟨hk, List.isPrefixOf_iff_prefix.mpr hq1, by omega⟩,
      by rw [hed], by omega⟩

/-- A key of exact length `d+1` via edge `e` is the path `q ++ [e]`
itself. -/
theorem termIn_specTask (ts : List Key) (q : Key) (d : Nat) (hq : q.length = d)
    (e : Nat) :
    termIn d (specTask ts q).keys e = decide ((q ++ [e]) ∈ ts) := by
  apply bool_eq_of_iff
  unfold termIn specTask
  simp only [List.any_eq_true, List.mem_filter, Bool.and_eq_true,
    decide_eq_true_eq]
  constructor
  · rintro ⟨k, ⟨hk, hpre, hlen⟩, hed, hexact⟩
    have hkeq : k = q ++ [e] := by
      have h1 := take_snoc_eq d hq (List.isPrefixOf_iff_prefix.mp hpre) (by omega)
      rw [hed] at h1
      have h2 : k.take (d + 1) = k := List.take_of_length_le (by omega)
      rw [h1, h2]
    rwa [← hkeq]
  · intro hmem
    refine ⟨q ++ [e], ⟨hmem, ?_, by simp⟩, ?_, by simp [hq]⟩
    · exact List.isPrefixOf_iff_prefix.mpr (List.prefix_append q [e])
    · have : (q ++ [e]).getD d 0 = e := by
        rw [getD_eq_getElem_at (by simp; omega)]
        rw [List.getElem_append_right (by omega)]
        simp [hq]
      rw [this]

/-- Child task keys for edge `e` are the spec task keys of `q ++ [e]`. -/
theorem taskOf_keys_specTask (ts : List Key) (q : Key) (d : Nat)
    (hq : q.length = d) (e : Nat) :
    (taskOf d (specTask ts q).keys e).keys = (specTask ts (q ++ [e])).keys := by
  unfold taskOf specTask
  simp only [List.filter_filter]
  apply List.filter_congr
  intro k _
  apply bool_eq_of_iff
  simp only [Bool.and_eq_true, decide_eq_true_eq, List.length_append,
    List.length_singleton]
  constructor
  · rintro ⟨⟨hed, hlong⟩, hpre, hlen⟩
    rw [List.isPrefixOf_iff_prefix] at hpre
    refine ⟨?_, by omega⟩
    have := prefix_append_getD d hq hpre (by omega)
    rw [hed] at this
    exact List.isPrefixOf_iff_prefix.mpr this
  · rintro ⟨hpre, hlong⟩
    rw [List.isPrefixOf_iff_prefix] at hpre
    obtain ⟨hq1, hd, hed⟩ := prefix_snoc_getD d hq hpre
    exact ⟨⟨by rw [hed], by omega⟩, List.isPrefixOf_iff_prefix.mpr hq1, by omega⟩

/-- Full child-task equality. -/
theorem taskOf_specTask (ts : List Key) (q : Key) (d : Nat)
    (hq : q.length = d) (e : Nat) :
    taskOf d (specTask ts q).keys e = specTask ts (q ++ [e]) := by
  have hk := taskOf_keys_specTask ts q d hq e
  have hp := termIn_specTask ts q d hq e
  unfold taskOf specTask at *
  simp only [NodeTask.mk.injEq]
  exact ⟨by simpa using hk, by simpa using hp⟩

/-- The edge list accumulated from the full spec task equals
`childEdges`. -/
theorem edgeList_specTask (ts : List Key) (q : Key) (d : Nat)
    (hq : q.length = d) :
    edgeList d (specTask ts q).keys = childEdges ts q := by
  unfold edgeList childEdges
  apply List.filter_congr
  intro e _
  exact edgeIn_specTask ts q d hq e

instance : IsTrans Key (fun a b => Key.less a b = true) :=
  ⟨fun _ _ _ hab hbc => Key.less_trans hab hbc⟩

theorem set_ok_spec {bm bm' : Bitmap} {bit : Nat} (hwf : bm.Wf)
    (h : bm.set bit = .ok bm') :
    bm'.Wf ∧ bm'.capacity = bm.capacity ∧ bm.length ≤ bm'.length ∧
    bit < bm'.length ∧
    ∀ j, bm'.viewBit j = (bm.viewBit j || decide (j = bit)) := by
  have hcap : bit < bm.capacity := by
    unfold Bitmap.set at h
    by_cases hc : bit ≥ bm.capacity
    · rw [if_pos hc] at h
      cases h
    · omega
  obtain ⟨bm2, h2, props⟩ := set_spec bit hwf hcap
  rw [h] at h2
  cases h2
  exact props

theorem get_ok_spec {bm bm' : Bitmap} {bit v : Nat} (hwf : bm.Wf)
    (h : bm.get bit = .ok (v, bm')) :
    v = (if bm.viewBit bit then 1 else 0) ∧ bm'.Wf ∧
    bm'.capacity = bm.capacity ∧ bm.length ≤ bm'.length ∧
    bit < bm'.length ∧ bit < bm.capacity ∧
    ∀ j, bm'.viewBit j = bm.viewBit j := by
  have hcap : bit < bm.capacity := Bitmap.get_lt_capacity h
  obtain ⟨bm2, h2, hwf2, hcap2, hlen2, hbit2, hview2⟩ := get_spec bit hwf hcap
  rw [h] at h2
  simp only [Except.ok.injEq, Prod.mk.injEq] at h2
  obtain ⟨hv, hbm⟩ := h2
  subst hbm
  exact ⟨hv, hwf2, hcap2, hlen2, hbit2, hcap, hview2⟩

theorem block_bit_split {n e j : Nat} (he : e < 256) :
    decide (j = 256 * n + e) = (decide (j / 256 = n) && decide (j % 256 = e)) := by
  apply bool_eq_of_iff
  simp only [decide_eq_true_eq, Bool.and_eq_true]
  omega

theorem or_and_merge (A B C D : Bool) :
    ((A || (B && C)) || (B && D)) = (A || (B && (C || D))) := by
  cases A <;> cases B <;> cases C <;> cases D <;> rfl

theorem edgeIn_append (d : Nat) (P : List Key) (k : Key) (x : Nat) :
    edgeIn d (P ++ [k]) x = (edgeIn d P x || decide (k.getD d 0 = x)) := by
  unfold edgeIn
  rw [List.any_append]
  simp

theorem childIn_append (d : Nat) (P : List Key) (k : Key) (x : Nat) :
    childIn d (P ++ [k]) x =
      (childIn d P x || (decide (k.getD d 0 = x) && decide (d + 1 < k.length))) := by
  unfold childIn
  rw [List.any_append]
  simp

theorem termIn_append (d : Nat) (P : List Key) (k : Key) (x : Nat) :
    termIn d (P ++ [k]) x =
      (termIn d P x || (decide (k.getD d 0 = x) && decide (k.length = d + 1))) := by
  unfold termIn
  rw [List.any_append]
  simp

theorem taskOf_append_ne (d : Nat) (P : List Key) (k : Key) (x : Nat)
    (hx : ¬ k.getD d 0 = x) : taskOf d (P ++ [k]) x = taskOf d P x := by
  unfold taskOf
  simp only [NodeTask.mk.injEq, List.filter_append, termIn_append]
  constructor
  · have hnil : [k].filter
        (fun k' => decide (k'.getD d 0 = x) && decide (d + 1 < k'.length)) = [] := by
      rw [List.filter_eq_nil_iff]
      intro a ha
      rw [List.mem_singleton] at ha
      subst ha
      simp only [Bool.and_eq_true, decide_eq_true_eq, not_and]
      intro h1
      exact absurd h1 hx
    rw [hnil, List.append_nil]
  · rw [decide_eq_false hx]
    simp

theorem taskOf_push_term (d : Nat) (P : List Key) (k : Key) (e : Nat)
    (he : k.getD d 0 = e) (hterm : k.length = d + 1)
    (hP : ∀ k' ∈ P, ¬ k'.getD d 0 = e) :
    taskOf d (P ++ [k]) e = { keys := [], is_prefix_key := true } := by
  unfold taskOf
  simp only [NodeTask.mk.injEq]
  constructor
  · rw [List.filter_eq_nil_iff]
    intro a ha
    rw [List.mem_append] at ha
    rcases ha with ha | ha
    · simp only [Bool.and_eq_true, decide_eq_true_eq, not_and]
      intro h1
      exact absurd h1 (hP a ha)
    · rw [List.mem_singleton] at ha
      subst ha
      simp only [Bool.and_eq_true, decide_eq_true_eq, not_and]
      intro _
      omega
  · rw [termIn_append, he, hterm]
    simp

theorem taskOf_push_cont (d : Nat) (P : List Key) (k : Key) (e : Nat)
    (he : k.getD d 0 = e) (hcont : d + 1 < k.length)
    (hP : ∀ k' ∈ P, ¬ k'.getD d 0 = e) :
    taskOf d (P ++ [k]) e = { keys := [k], is_prefix_key := false } := by
  unfold taskOf
  simp only [NodeTask.mk.injEq, List.filter_append]
  constructor
  · have hnil : P.filter
        (fun k' => decide (k'.getD d 0 = e) && decide (d + 1 < k'.length)) = [] := by
      rw [List.filter_eq_nil_iff]
      intro a ha
      simp only [Bool.and_eq_true, decide_eq_true_eq, not_and]
      intro h1
      exact absurd h1 (hP a ha)
    rw [hnil, List.nil_append, List.filter_cons, if_pos (by rw [he]; simp [hcont])]
    rfl
  · have ht : termIn d P e = false := by
      rw [← Bool.not_eq_true]
      unfold termIn
      rw [List.any_eq_true]
      rintro ⟨a, ha, hacond⟩
      simp only [Bool.and_eq_true, decide_eq_true_eq] at hacond
      exact hP a ha hacond.1
    rw [termIn_append, ht, he,
      decide_eq_false (show ¬ k.length = d + 1 by omega)]
    simp

theorem taskOf_keep_term (d : Nat) (P : List Key) (k : Key) (e : Nat)
    (he : k.getD d 0 = e) (hterm : k.length = d + 1) :
    taskOf d (P ++ [k]) e =
      { keys := (taskOf d P e).keys, is_prefix_key := true } := by
  unfold taskOf
  simp only [NodeTask.mk.injEq, List.filter_append, termIn_append]
  constructor
  · have hnil : [k].filter
        (fun k' => decide (k'.getD d 0 = e) && decide (d + 1 < k'.length)) = [] := by
      rw [List.filter_eq_nil_iff]
      intro a ha
      rw [List.mem_singleton] at ha
      subst ha
      simp only [Bool.and_eq_true, decide_eq_true_eq, not_and]
      intro _
      omega
    rw [hnil, List.append_nil]
  · rw [he, hterm]
    simp

theorem taskOf_keep_cont (d : Nat) (P : List Key) (k : Key) (e : Nat)
    (he : k.getD d 0 = e) (hcont : d + 1 < k.length) :
    taskOf d (P ++ [k]) e =
      { keys := (taskOf d P e).keys ++ [k],
        is_prefix_key := (taskOf d P e).is_prefix_key } := by
  unfold taskOf
  simp only [NodeTask.mk.injEq, List.filter_append, termIn_append]
  constructor
  · rw [List.filter_cons, if_pos (by rw [he]; simp [hcont])]
    rfl
  · rw [he, decide_eq_false (show ¬ k.length = d + 1 by omega)]
    simp

/-- Invariant of the per-key fold at the node of path `q` (level-order id
`ns.length`), after processing keys `P`, with task list `T` at loop
entry. -/
structure KeyInv (ts : List Key) (q : Key) (ns : List Key) (T : List NodeTask)
    (P : List Key) (st : Builder × Bool × Nat) : Prop where
  wfL : st.1.labels.Wf
  wfH : st.1.has_child.Wf
  wfP : st.1.is_prefix_key.Wf
  viewL : ∀ j, st.1.labels.viewBit j =
    (labelBitOf ts ns j ||
      (decide (j / 256 = ns.length) && edgeIn q.length P (j % 256)))
  viewH : ∀ j, st.1.has_child.viewBit j =
    (childBitOf ts ns j ||
      (decide (j / 256 = ns.length) && childIn q.length P (j % 256)))
  viewP : ∀ j, st.1.is_prefix_key.viewBit j =
    (prefixBitOf ts ns j || (decide (j = ns.length) && decide (q ∈ ts)))
  nid : st.1.current_node_id = ns.length
  tasksEq : st.1.tasks = T ++ (edgeList q.length P).map (taskOf q.length P)
  lenL : 256 * (ns.length + 1) ≤ st.1.labels.length
  lenH : 256 * (ns.length + 1) ≤ st.1.has_child.length
  lenP : ns.length + 1 ≤ st.1.is_prefix_key.length
  capL : 256 * (ns.length + 1) ≤ st.1.labels.capacity
  capH : 256 * (ns.length + 1) ≤ st.1.has_child.capacity
  capP : ns.length + 1 ≤ st.1.is_prefix_key.capacity
  hne0 : P = [] → st.2.1 = false
  hne1 : P ≠ [] → st.2.1 = true ∧
    st.1.current_task_id = st.1.tasks.length - 1 ∧
    edgeIn q.length P st.2.2 = true ∧
    (∀ k ∈ P, k.getD q.length 0 ≤ st.2.2)

theorem buildKeyFinish_term_ok {d : Nat} {key : Key} {edge : Nat} {b : Builder}
    {nhe : Bool} {mre : Nat} {y : Builder × Bool × Nat}
    (hterm : d = key.length - 1)
    (h : Builder.buildKeyFinish d key edge b nhe mre = .ok y) :
    ∃ ct, b.tasks.get? b.current_task_id = some ct ∧
      y = ({ b with
              tasks := b.tasks.set b.current_task_id
                { ct with is_prefix_key := true } }, nhe, mre) := by
  unfold Builder.buildKeyFinish at h
  rw [if_pos hterm] at h
  cases hg : b.tasks.get? b.current_task_id with
  | none =>
    rw [hg] at h
    cases h
  | some ct =>
    rw [hg] at h
    cases h
    exact ⟨ct, rfl, rfl⟩

theorem buildKeyFinish_cont_ok {d : Nat} {key : Key} {edge : Nat} {b : Builder}
    {nhe : Bool} {mre : Nat} {y : Builder × Bool × Nat}
    (hterm : ¬ d = key.length - 1)
    (h : Builder.buildKeyFinish d key edge b nhe mre = .ok y) :
    ∃ hcbm ct, b.has_child.set (b.has_child_offset + edge) = .ok hcbm ∧
      b.tasks.get? b.current_task_id = some ct ∧
      y = ({ b with
              has_child := hcbm
              tasks := b.tasks.set b.current_task_id
                { ct with keys := ct.keys ++ [key] } }, nhe, mre) := by
  unfold Builder.buildKeyFinish at h
  rw [if_neg hterm] at h
  cases hs : b.has_child.set (b.has_child_offset + edge) with
  | error e =>
    rw [hs] at h
    cases h
  | ok hcbm =>
    rw [hs] at h
    cases hg : b.tasks.get? b.current_task_id with
    | none =>
      rw [hg] at h
      cases h
    | some ct =>
      rw [hg] at h
      cases h
      exact ⟨hcbm, ct, rfl, rfl, rfl⟩

theorem decide_eq_comm (a b : Nat) : decide (a = b) = decide (b = a) := by
  apply bool_eq_of_iff
  simp [eq_comm]

theorem exists_edge_of_edgeIn {d : Nat} {P : List Key} {x : Nat}
    (h : edgeIn d P x = true) : ∃ a ∈ P, a.getD d 0 = x := by
  unfold edgeIn at h
  rw [List.any_eq_true] at h
  obtain ⟨a, ha, hc⟩ := h
  exact ⟨a, ha, by simpa using hc⟩

theorem edgeIn_append_any (d : Nat) (P : List Key) (k : Key) :
    ∀ x, edgeIn d (P ++ [k]) x = (edgeIn d P x || decide (x = k.getD d 0)) := by
  intro x
  rw [edgeIn_append, decide_eq_comm]

theorem edgeIn_append_mem (d : Nat) (P : List Key) (k : Key)
    (hin : edgeIn d P (k.getD d 0) = true) :
    ∀ x, edgeIn d (P ++ [k]) x = edgeIn d P x := by
  intro x
  rw [edgeIn_append]
  by_cases hx : k.getD d 0 = x
  · rw [hx] at hin
    simp [hin]
  · rw [decide_eq_false hx]
    simp

theorem childIn_append_short (d : Nat) (P : List Key) (k : Key)
    (hshort : ¬ d + 1 < k.length) :
    ∀ x, childIn d (P ++ [k]) x = childIn d P x := by
  intro x
  rw [childIn_append, decide_eq_false hshort]
  simp

theorem childIn_append_long (d : Nat) (P : List Key) (k : Key)
    (hlong : d + 1 < k.length) :
    ∀ x, childIn d (P ++ [k]) x = (childIn d P x || decide (x = k.getD d 0)) := by
  intro x
  rw [childIn_append, decide_eq_true hlong, Bool.and_true, decide_eq_comm]

theorem view_formula_push {e n : Nat} (hbyte : e < 256)
    (view view' base EIn EIn' : Nat → Bool)
    (hv : ∀ j, view j = (base j || (decide (j / 256 = n) && EIn (j % 256))))
    (hv' : ∀ j, view' j = (view j || decide (j = 256 * n + e)))
    (hE : ∀ x, EIn' x = (EIn x || decide (x = e))) :
    ∀ j, view' j = (base j || (decide (j / 256 = n) && EIn' (j % 256))) := by
  intro j
  rw [hv' j, hv j, hE (j % 256), block_bit_split hbyte]
  exact or_and_merge _ _ _ _

theorem view_formula_keep {n : Nat} (view base EIn EIn' : Nat → Bool)
    (hv : ∀ j, view j = (base j || (decide (j / 256 = n) && EIn (j % 256))))
    (hE : ∀ x, EIn' x = EIn x) :
    ∀ j, view j = (base j || (decide (j / 256 = n) && EIn' (j % 256))) := by
  intro j
  rw [hv j, hE]

theorem keyStep_push (ts : List Key) (q : Key) (ns : List Key) (T : List NodeTask)
    (pre : List Key) (k : Key) (b : Builder) (nhe : Bool) (mre : Nat)
    (lbm : Bitmap) (y : Builder × Bool × Nat)
    (hinv : KeyInv ts q ns T pre (b, nhe, mre))
    (hklen : q.length < k.length)
    (hkbyte : k.getD q.length 0 < 256)
    (hnotin : ∀ k' ∈ pre, ¬ k'.getD q.length 0 = k.getD q.length 0)
    (hedges_le : ∀ k' ∈ pre, k'.getD q.length 0 ≤ k.getD q.length 0)
    (hlb : b.labels.set (b.label_offset + k.getD q.length 0) = .ok lbm)
    (hfin : Builder.buildKeyFinish q.length k (k.getD q.length 0)
      { b with
        labels := lbm
        tasks := b.tasks ++ [{ keys := [], is_prefix_key := false }]
        current_task_id :=
          (b.tasks ++ [({ keys := [], is_prefix_key := false } : NodeTask)]).length - 1 }
      true (k.getD q.length 0) = .ok y) :
    KeyInv ts q ns T (pre ++ [k]) y := by
  obtain ⟨hLwf', hLcap', hLlen', hLbit', hLview'⟩ := set_ok_spec hinv.wfL hlb
  have hoff : b.label_offset + k.getD q.length 0 =
      256 * ns.length + k.getD q.length 0 := by
    show b.current_node_id * 256 + k.getD q.length 0 = _
    rw [hinv.nid]
    ring
  have hLview2 : ∀ j, lbm.viewBit j =
      (b.labels.viewBit j ||
        decide (j = 256 * ns.length + k.getD q.length 0)) := by
    intro j
    rw [hLview' j, hoff]
  have hviewL_new := view_formula_push hkbyte _ _ _ _ _ hinv.viewL hLview2
    (edgeIn_append_any q.length pre k)
  have hpushlist : edgeList q.length (pre ++ [k]) =
      edgeList q.length pre ++ [k.getD q.length 0] := by
    unfold edgeList
    apply filter_range_push hkbyte
    · intro x
      exact edgeIn_append_any q.length pre k x
    · intro x hx
      obtain ⟨a, ha, hax⟩ := exists_edge_of_edgeIn hx
      have h1 := hedges_le a ha
      have h2 := hnotin a ha
      omega
  have hmapc : (edgeList q.length pre).map (taskOf q.length (pre ++ [k])) =
      (edgeList q.length pre).map (taskOf q.length pre) := by
    apply List.map_congr_left
    intro x hx
    apply taskOf_append_ne
    unfold edgeList at hx
    rw [List.mem_filter] at hx
    obtain ⟨a, ha, hax⟩ := exists_edge_of_edgeIn hx.2
    intro hkx
    exact hnotin a ha (by omega)
  have hctid : (b.tasks ++ [({ keys := [], is_prefix_key := false } : NodeTask)]).length - 1
      = b.tasks.length := by
    rw [List.length_append]
    simp
  by_cases hterm : q.length = k.length - 1
  · obtain ⟨ct, hctget, hy⟩ := buildKeyFinish_term_ok hterm hfin
    have hctget' : (b.tasks ++
        [({ keys := [], is_prefix_key := false } : NodeTask)]).get?
        ((b.tasks ++ [({ keys := [], is_prefix_key := false } : NodeTask)]).length - 1)
        = some ct := hctget
    rw [hctid, List.get?_eq_getElem?, List.getElem?_concat_length] at hctget'
    have hct : ct = { keys := [], is_prefix_key := false } := by
      injection hctget' with h
      exact h.symm
    subst hct
    subst hy
    have htasks2 : (b.tasks ++
        [({ keys := [], is_prefix_key := false } : NodeTask)]).set
        ((b.tasks ++ [({ keys := [], is_prefix_key := false } : NodeTask)]).length - 1)
        { keys := [], is_prefix_key := true } =
        T ++ (edgeList q.length (pre ++ [k])).map (taskOf q.length (pre ++ [k])) := by
      rw [hctid, set_last_append, hpushlist, List.map_append, hmapc]
      simp only [List.map_cons, List.map_nil]
      rw [taskOf_push_term q.length pre k (k.getD q.length 0) rfl (by omega) hnotin]
      rw [hinv.tasksEq, List.append_assoc]
    refine {
      wfL := hLwf'
      wfH := hinv.wfH
      wfP := hinv.wfP
      viewL := hviewL_new
      viewH := view_formula_keep _ _ _ _ hinv.viewH
        (childIn_append_short q.length pre k (by omega))
      viewP := hinv.viewP
      nid := hinv.nid
      tasksEq := htasks2
      lenL := le_trans hinv.lenL hLlen'
      lenH := hinv.lenH
      lenP := hinv.lenP
      capL := by rw [hLcap']; exact hinv.capL
      capH := hinv.capH
      capP := hinv.capP
      hne0 := by intro h; simp at h
      hne1 := ?_ }
    intro _
    refine ⟨rfl, ?_, ?_, ?_⟩
    · show (b.tasks ++ [({ keys := [], is_prefix_key := false } : NodeTask)]).length - 1 = _
      rw [List.length_set]
    · rw [edgeIn_append]
      simp
    · intro k' hk'
      rw [List.mem_append] at hk'
      rcases hk' with h | h
      · exact hedges_le k' h
      · rw [List.mem_singleton] at h
        subst h
        exact le_refl _
  · obtain ⟨hcbm, ct, hset2, hctget, hy⟩ := buildKeyFinish_cont_ok hterm hfin
    have hset2' : b.has_child.set (b.current_node_id * 256 + k.getD q.length 0)
        = .ok hcbm := hset2
    obtain ⟨hHwf', hHcap', hHlen', hHbit', hHview'⟩ := set_ok_spec hinv.wfH hset2'
    have hoffH : b.current_node_id * 256 + k.getD q.length 0 =
        256 * ns.length + k.getD q.length 0 := by
      rw [hinv.nid]
      ring
    have hHview2 : ∀ j, hcbm.viewBit j =
        (b.has_child.viewBit j ||
          decide (j = 256 * ns.length + k.getD q.length 0)) := by
      intro j
      rw [hHview' j, hoffH]
    have hviewH_new := view_formula_push hkbyte _ _ _ _ _ hinv.viewH hHview2
      (childIn_append_long q.length pre k (by omega))
    have hctget' : (b.tasks ++
        [({ keys := [], is_prefix_key := false } : NodeTask)]).get?
        ((b.tasks ++ [({ keys := [], is_prefix_key := false } : NodeTask)]).length - 1)
        = some ct := hctget
    rw [hctid, List.get?_eq_getElem?, List.getElem?_concat_length] at hctget'
    have hct : ct = { keys := [], is_prefix_key := false } := by
      injection hctget' with h
      exact h.symm
    subst hct
    subst hy
    have htasks2 : (b.tasks ++
        [({ keys := [], is_prefix_key := false } : NodeTask)]).set
        ((b.tasks ++ [({ keys := [], is_prefix_key := false } : NodeTask)]).length - 1)
        { keys := ([] : List Key) ++ [k], is_prefix_key := false } =
        T ++ (edgeList q.length (pre ++ [k])).map (taskOf q.length (pre ++ [k])) := by
      rw [hctid, set_last_append, hpushlist, List.map_append, hmapc]
      simp only [List.map_cons, List.map_nil]
      rw [taskOf_push_cont q.length pre k (k.getD q.length 0) rfl (by omega) hnotin]
      rw [hinv.tasksEq, List.append_assoc]
      rfl
    refine {
      wfL := hLwf'
      wfH := hHwf'
      wfP := hinv.wfP
      viewL := hviewL_new
      viewH := hviewH_new
      viewP := hinv.viewP
      nid := hinv.nid
      tasksEq := htasks2
      lenL := le_trans hinv.lenL hLlen'
      lenH := le_trans hinv.lenH hHlen'
      lenP := hinv.lenP
      capL := by rw [hLcap']; exact hinv.capL
      capH := by rw [hHcap']; exact hinv.capH
      capP := hinv.capP
      hne0 := by intro h; simp at h
      hne1 := ?_ }
    intro _
    refine ⟨rfl, ?_, ?_, ?_⟩
    · show (b.tasks ++ [({ keys := [], is_prefix_key := false } : NodeTask)]).length - 1 = _
      rw [List.length_set]
    · rw [edgeIn_append]
      simp
    · intro k' hk'
      rw [List.mem_append] at hk'
      rcases hk' with h | h
      · exact hedges_le k' h
      · rw [List.mem_singleton] at h
        subst h
        exact le_refl _

theorem keyStep_keep (ts : List Key) (q : Key) (ns : List Key) (T : List NodeTask)
    (pre : List Key) (k : Key) (b : Builder) (nhe : Bool) (mre : Nat)
    (y : Builder × Bool × Nat)
    (hinv : KeyInv ts q ns T pre (b, nhe, mre))
    (hklen : q.length < k.length)
    (hkbyte : k.getD q.length 0 < 256)
    (hPne : pre ≠ [])
    (hmeq : mre = k.getD q.length 0)
    (hfin : Builder.buildKeyFinish q.length k (k.getD q.length 0) b nhe mre
      = .ok y) :
    KeyInv ts q ns T (pre ++ [k]) y := by
  obtain ⟨hnhe, hctid, hedgemre, hmax⟩ := hinv.hne1 hPne
  dsimp only at hnhe hctid hedgemre hmax
  have hein : edgeIn q.length pre (k.getD q.length 0) = true := by
    rw [← hmeq]
    exact hedgemre
  have hdecomp : edgeList q.length pre =
      (List.range 256).filter
        (fun x => edgeIn q.length pre x && decide (x < k.getD q.length 0)) ++
      [k.getD q.length 0] := by
    unfold edgeList
    apply filter_range_push hkbyte
    · intro x
      apply bool_eq_of_iff
      constructor
      · intro hx
        by_cases hxe : x = k.getD q.length 0
        · simp [hxe]
        · obtain ⟨a, ha, hax⟩ := exists_edge_of_edgeIn hx
          have h1 := hmax a ha
          rw [hmeq] at h1
          simp only [Bool.or_eq_true, Bool.and_eq_true, decide_eq_true_eq]
          left
          exact ⟨hx, by omega⟩
      · intro hx
        simp only [Bool.or_eq_true, Bool.and_eq_true, decide_eq_true_eq] at hx
        rcases hx with ⟨h1, _⟩ | h2
        · exact h1
        · subst h2
          exact hein
    · intro x hx
      simp only [Bool.and_eq_true, decide_eq_true_eq] at hx
      exact hx.2
  have hsame : edgeList q.length (pre ++ [k]) = edgeList q.length pre := by
    unfold edgeList
    apply List.filter_congr
    intro x _
    exact edgeIn_append_mem q.length pre k hein x
  have hmapcA : ((List.range 256).filter
        (fun x => edgeIn q.length pre x && decide (x < k.getD q.length 0))).map
        (taskOf q.length (pre ++ [k])) =
      ((List.range 256).filter
        (fun x => edgeIn q.length pre x && decide (x < k.getD q.length 0))).map
        (taskOf q.length pre) := by
    apply List.map_congr_left
    intro x hx
    apply taskOf_append_ne
    rw [List.mem_filter] at hx
    have hx2 := hx.2
    simp only [Bool.and_eq_true, decide_eq_true_eq] at hx2
    omega
  have htasksdec : b.tasks =
      (T ++ ((List.range 256).filter
        (fun x => edgeIn q.length pre x && decide (x < k.getD q.length 0))).map
        (taskOf q.length pre)) ++
      [taskOf q.length pre (k.getD q.length 0)] := by
    rw [hinv.tasksEq, hdecomp, List.map_append]
    simp only [List.map_cons, List.map_nil]
    rw [List.append_assoc]
  have hctid2 : b.current_task_id =
      (T ++ ((List.range 256).filter
        (fun x => edgeIn q.length pre x && decide (x < k.getD q.length 0))).map
        (taskOf q.length pre)).length := by
    rw [hctid]
    conv_lhs => rw [htasksdec]
    rw [List.length_append]
    simp
  have hmaxpost : ∀ k' ∈ pre ++ [k], k'.getD q.length 0 ≤ mre := by
    intro k' hk'
    rw [List.mem_append] at hk'
    rcases hk' with h | h
    · exact hmax k' h
    · rw [List.mem_singleton] at h
      subst h
      rw [hmeq]
  have heinpost : edgeIn q.length (pre ++ [k]) mre = true := by
    rw [edgeIn_append_mem q.length pre k hein]
    exact hedgemre
  by_cases hterm : q.length = k.length - 1
  · obtain ⟨ct, hctget, hy⟩ := buildKeyFinish_term_ok hterm hfin
    rw [List.get?_eq_getElem?] at hctget
    conv at hctget => rw [htasksdec, hctid2]
    rw [List.getElem?_concat_length] at hctget
    have hct : ct = taskOf q.length pre (k.getD q.length 0) := by
      injection hctget with h
      exact h.symm
    subst hct
    subst hy
    have htasks2 : b.tasks.set b.current_task_id
        { taskOf q.length pre (k.getD q.length 0) with is_prefix_key := true } =
        T ++ (edgeList q.length (pre ++ [k])).map (taskOf q.length (pre ++ [k])) := by
      conv_lhs => rw [htasksdec, hctid2]
      rw [set_last_append, hsame, hdecomp, List.map_append, hmapcA]
      simp only [List.map_cons, List.map_nil]
      rw [taskOf_keep_term q.length pre k (k.getD q.length 0) rfl (by omega)]
      rw [List.append_assoc]
    refine {
      wfL := hinv.wfL
      wfH := hinv.wfH
      wfP := hinv.wfP
      viewL := view_formula_keep _ _ _ _ hinv.viewL
        (edgeIn_append_mem q.length pre k hein)
      viewH := view_formula_keep _ _ _ _ hinv.viewH
        (childIn_append_short q.length pre k (by omega))
      viewP := hinv.viewP
      nid := hinv.nid
      tasksEq := htasks2
      lenL := hinv.lenL
      lenH := hinv.lenH
      lenP := hinv.lenP
      capL := hinv.capL
      capH := hinv.capH
      capP := hinv.capP
      hne0 := by intro h; simp at h
      hne1 := ?_ }
    intro _
    refine ⟨hnhe, ?_, heinpost, hmaxpost⟩
    show b.current_task_id = (b.tasks.set b.current_task_id _).length - 1
    rw [List.length_set]
    exact hctid
  · obtain ⟨hcbm, ct, hset2, hctget, hy⟩ := buildKeyFinish_cont_ok hterm hfin
    have hset2' : b.has_child.set (b.current_node_id * 256 + k.getD q.length 0)
        = .ok hcbm := hset2
    obtain ⟨hHwf', hHcap', hHlen', hHbit', hHview'⟩ := set_ok_spec hinv.wfH hset2'
    have hoffH : b.current_node_id * 256 + k.getD q.length 0 =
        256 * ns.length + k.getD q.length 0 := by
      rw [hinv.nid]
      ring
    have hHview2 : ∀ j, hcbm.viewBit j =
        (b.has_child.viewBit j ||
          decide (j = 256 * ns.length + k.getD q.length 0)) := by
      intro j
      rw [hHview' j, hoffH]
    have hviewH_new := view_formula_push hkbyte _ _ _ _ _ hinv.viewH hHview2
      (childIn_append_long q.length pre k (by omega))
    rw [List.get?_eq_getElem?] at hctget
    conv at hctget => rw [htasksdec, hctid2]
    rw [List.getElem?_concat_length] at hctget
    have hct : ct = taskOf q.length pre (k.getD q.length 0) := by
      injection hctget with h
      exact h.symm
    subst hct
    subst hy
    have htasks2 : b.tasks.set b.current_task_id
        { taskOf q.length pre (k.getD q.length 0) with
          keys := (taskOf q.length pre (k.getD q.length 0)).keys ++ [k] } =
        T ++ (edgeList q.length (pre ++ [k])).map (taskOf q.length (pre ++ [k])) := by
      conv_lhs => rw [htasksdec, hctid2]
      rw [set_last_append, hsame, hdecomp, List.map_append, hmapcA]
      simp only [List.map_cons, List.map_nil]
      rw [taskOf_keep_cont q.length pre k (k.getD q.length 0) rfl (by omega)]
      rw [List.append_assoc]
    refine {
      wfL := hinv.wfL
      wfH := hHwf'
      wfP := hinv.wfP
      viewL := view_formula_keep _ _ _ _ hinv.viewL
        (edgeIn_append_mem q.length pre k hein)
      viewH := hviewH_new
      viewP := hinv.viewP
      nid := hinv.nid
      tasksEq := htasks2
      lenL := hinv.lenL
      lenH := le_trans hinv.lenH hHlen'
      lenP := hinv.lenP
      capL := hinv.capL
      capH := by rw [hHcap']; exact hinv.capH
      capP := hinv.capP
      hne0 := by intro h; simp at h
      hne1 := ?_ }
    intro _
    refine ⟨hnhe, ?_, heinpost, hmaxpost⟩
    show b.current_task_id = (b.tasks.set b.current_task_id _).length - 1
    rw [List.length_set]
    exact hctid

theorem keyLoop_step (ts : List Key) (q : Key) (ns : List Key) (T : List NodeTask)
    (hbytes : ∀ k ∈ ts, ∀ x ∈ k, x < 256)
    (hsorted : List.Chain' (fun a b => Key.less a b = true) ts) :
    ∀ pre k rest st y,
      (specTask ts q).keys = pre ++ k :: rest →
      KeyInv ts q ns T pre st →
      Builder.buildKeyStep q.length st k = .ok y →
      KeyInv ts q ns T (pre ++ [k]) y := by
  intro pre k rest st y hdec hinv hstep
  obtain ⟨b, nhe, mre⟩ := st
  have hsortK : List.Chain' (fun a b => Key.less a b = true) (specTask ts q).keys := by
    refine List.Chain'.sublist hsorted ?_
    unfold specTask
    exact List.filter_sublist _
  have hkmem : k ∈ (specTask ts q).keys := by
    rw [hdec]
    simp
  have hkfacts : k ∈ ts ∧ q <+: k ∧ q.length < k.length := by
    have hm := hkmem
    unfold specTask at hm
    rw [List.mem_filter] at hm
    simp only [Bool.and_eq_true, decide_eq_true_eq] at hm
    exact ⟨hm.1, List.isPrefixOf_iff_prefix.mp hm.2.1, hm.2.2⟩
  obtain ⟨hkts, hkpre, hklen⟩ := hkfacts
  have hkbyte : k.getD q.length 0 < 256 := by
    rw [getD_eq_getElem_at hklen]
    exact hbytes k hkts _ (List.getElem_mem _)
  have hprefacts : ∀ k' ∈ pre, k' ∈ ts ∧ q <+: k' ∧ q.length < k'.length := by
    intro k' hk'
    have hm : k' ∈ (specTask ts q).keys := by
      rw [hdec]
      exact List.mem_append_left _ hk'
    unfold specTask at hm
    rw [List.mem_filter] at hm
    simp only [Bool.and_eq_true, decide_eq_true_eq] at hm
    exact ⟨hm.1, List.isPrefixOf_iff_prefix.mp hm.2.1, hm.2.2⟩
  have hedges_le : ∀ k' ∈ pre, k'.getD q.length 0 ≤ k.getD q.length 0 := by
    intro k' hk'
    have hpair : Key.less k' k = true := by
      have hpw := (List.chain'_iff_pairwise).mp hsortK
      rw [hdec, List.pairwise_append] at hpw
      exact hpw.2.2 k' hk' k (by simp)
    obtain ⟨_, hpre', hlen'⟩ := hprefacts k' hk'
    apply Key.less_getD_le q.length k' k hpair
    · rw [prefix_take_eq hpre', prefix_take_eq hkpre]
    · exact hlen'
    · exact hklen
  have hget : k.get? q.length = some (k.getD q.length 0) := by
    rw [List.get?_eq_getElem?, List.getElem?_eq_getElem hklen,
      getD_eq_getElem_at hklen]
  simp only [Builder.buildKeyStep] at hstep
  rw [hget] at hstep
  dsimp only at hstep
  by_cases hpush : (¬ nhe = true ∨ ¬ mre = k.getD q.length 0)
  · rw [if_pos hpush] at hstep
    have hnotin : ∀ k' ∈ pre, ¬ k'.getD q.length 0 = k.getD q.length 0 := by
      intro k' hk' heq
      have hPne : pre ≠ [] := by
        intro hP
        rw [hP] at hk'
        simp at hk'
      obtain ⟨hnhe2, _, hedge_mre, hmax⟩ := hinv.hne1 hPne
      dsimp only at hnhe2 hedge_mre hmax
      have hmre_ne : ¬ mre = k.getD q.length 0 := by
        rcases hpush with h | h
        · exact absurd hnhe2 h
        · exact h
      obtain ⟨k2, hk2, hk2e⟩ := exists_edge_of_edgeIn hedge_mre
      have h1 := hedges_le k2 hk2
      have h2 := hmax k' hk'
      omega
    cases hlb : b.labels.set (b.label_offset + k.getD q.length 0) with
    | error e' =>
      rw [hlb] at hstep
      cases hstep
    | ok lbm =>
      rw [hlb] at hstep
      exact keyStep_push ts q ns T pre k b nhe mre lbm y hinv hklen hkbyte
        hnotin hedges_le hlb hstep
  · rw [if_neg hpush] at hstep
    push_neg at hpush
    obtain ⟨hnhe2, hmeq⟩ := hpush
    have hPne : pre ≠ [] := by
      intro hP
      have := hinv.hne0 hP
      dsimp only at this
      rw [this] at hnhe2
      cases hnhe2
    exact keyStep_keep ts q ns T pre k b nhe mre y hinv hklen hkbyte hPne
      hmeq hstep

/-- Complete run of the per-key fold: from an empty-`P` invariant to the
full task key list. -/
theorem keyLoop_run (ts : List Key) (q : Key) (ns : List Key) (T : List NodeTask)
    (hbytes : ∀ k ∈ ts, ∀ x ∈ k, x < 256)
    (hsorted : List.Chain' (fun a b => Key.less a b = true) ts)
    (st0 : Builder × Bool × Nat) (y : Builder × Bool × Nat)
    (h0 : KeyInv ts q ns T [] st0)
    (hrun : (specTask ts q).keys.foldlM (Builder.buildKeyStep q.length) st0
      = .ok y) :
    KeyInv ts q ns T (specTask ts q).keys y := by
  have := foldlM_ok_ind (Builder.buildKeyStep q.length)
    (KeyInv ts q ns T) ((specTask ts q).keys)
    (fun pre a rest b y hL hI hok =>
      keyLoop_step ts q ns T hbytes hsorted pre a rest b y hL hI hok)
    ((specTask ts q).keys) [] st0 y rfl h0 hrun
  simpa using this

theorem blockBitOf_snoc (f : Key → Bool) (ns : List Key) (q : Key) (j : Nat) :
    ((decide (j / 256 < ns.length) && f (ns.getD (j / 256) [] ++ [j % 256])) ||
      (decide (j / 256 = ns.length) && f (q ++ [j % 256]))) =
    (decide (j / 256 < (ns ++ [q]).length) &&
      f ((ns ++ [q]).getD (j / 256) [] ++ [j % 256])) := by
  rw [List.length_append, List.length_singleton]
  by_cases h1 : j / 256 < ns.length
  · have hg : (ns ++ [q]).getD (j / 256) [] = ns.getD (j / 256) [] := by
      rw [List.getD_eq_getElem?_getD, List.getD_eq_getElem?_getD,
        List.getElem?_append_left h1]
    rw [hg, decide_eq_true h1,
      decide_eq_true (show j / 256 < ns.length + 1 by omega),
      decide_eq_false (show ¬ j / 256 = ns.length by omega)]
    simp
  · by_cases h2 : j / 256 = ns.length
    · have hg : (ns ++ [q]).getD (j / 256) [] = q := by
        rw [List.getD_eq_getElem?_getD, h2, List.getElem?_concat_length]
        rfl
      rw [hg, decide_eq_false h1, decide_eq_true h2,
        decide_eq_true (show j / 256 < ns.length + 1 by omega)]
      simp
    · rw [decide_eq_false h1, decide_eq_false h2,
        decide_eq_false (show ¬ j / 256 < ns.length + 1 by omega)]
      simp

theorem labelBitOf_snoc (ts ns : List Key) (q : Key) (j : Nat) :
    (labelBitOf ts ns j ||
      (decide (j / 256 = ns.length) &&
        edgeIn q.length (specTask ts q).keys (j % 256))) =
    labelBitOf ts (ns ++ [q]) j := by
  unfold labelBitOf
  rw [edgeIn_specTask ts q q.length rfl]
  exact blockBitOf_snoc (touches ts) ns q j

theorem childBitOf_snoc (ts ns : List Key) (q : Key) (j : Nat) :
    (childBitOf ts ns j ||
      (decide (j / 256 = ns.length) &&
        childIn q.length (specTask ts q).keys (j % 256))) =
    childBitOf ts (ns ++ [q]) j := by
  unfold childBitOf
  rw [childIn_specTask ts q q.length rfl]
  exact blockBitOf_snoc (hasExt ts) ns q j

theorem prefixBitOf_snoc (ts ns : List Key) (q : Key) (j : Nat) :
    (prefixBitOf ts ns j || (decide (j = ns.length) && decide (q ∈ ts))) =
    prefixBitOf ts (ns ++ [q]) j := by
  unfold prefixBitOf
  rw [List.length_append, List.length_singleton]
  by_cases h1 : j < ns.length
  · have hg : (ns ++ [q]).getD j [] = ns.getD j [] := by
      rw [List.getD_eq_getElem?_getD, List.getD_eq_getElem?_getD,
        List.getElem?_append_left h1]
    rw [hg, decide_eq_true h1,
      decide_eq_true (show j < ns.length + 1 by omega),
      decide_eq_false (show ¬ j = ns.length by omega)]
    simp
  · by_cases h2 : j = ns.length
    · have hg : (ns ++ [q]).getD j [] = q := by
        rw [List.getD_eq_getElem?_getD, h2, List.getElem?_concat_length]
        rfl
      rw [hg, decide_eq_false h1, decide_eq_true h2,
        decide_eq_true (show j < ns.length + 1 by omega)]
      simp
    · rw [decide_eq_false h1, decide_eq_false h2,
        decide_eq_false (show ¬ j < ns.length + 1 by omega)]
      simp

theorem edgeIn_nil (d : Nat) (x : Nat) : edgeIn d [] x = false := rfl

theorem edgeList_nil (d : Nat) : edgeList d [] = [] := by
  unfold edgeList
  rw [List.filter_eq_nil_iff]
  intro a _
  simp [edgeIn_nil]

theorem specTask_keys_empty (ts : List Key) (q : Key)
    (h : (specTask ts q).keys.isEmpty = true) : hasExt ts q = false := by
  rw [List.isEmpty_iff] at h
  unfold specTask at h
  dsimp only at h
  rw [← Bool.not_eq_true]
  unfold hasExt
  rw [List.any_eq_true]
  rintro ⟨a, ha, hc⟩
  have : a ∈ ts.filter (fun k => q.isPrefixOf k && decide (q.length < k.length)) := by
    rw [List.mem_filter]
    exact ⟨ha, hc⟩
  rw [h] at this
  simp at this

theorem specTask_keys_nonempty (ts : List Key) (q : Key)
    (h : ¬ (specTask ts q).keys.isEmpty = true) : hasExt ts q = true := by
  rw [List.isEmpty_iff] at h
  unfold specTask at h
  dsimp only at h
  have hne := List.exists_mem_of_ne_nil _ h
  obtain ⟨a, ha⟩ := hne
  rw [List.mem_filter] at ha
  unfold hasExt
  rw [List.any_eq_true]
  exact ⟨a, ha.1, ha.2⟩

theorem levelPaths_len (ts : List Key) : ∀ d, ∀ q ∈ levelPaths ts d, q.length = d := by
  intro d
  induction d with
  | zero =>
    intro q hq
    unfold levelPaths at hq
    rw [List.mem_singleton] at hq
    subst hq
    rfl
  | succ d ih =>
    intro q hq
    unfold levelPaths at hq
    rw [List.mem_flatMap] at hq
    obtain ⟨q0, hq0, hq1⟩ := hq
    rw [List.mem_map] at hq1
    obtain ⟨e, _, rfl⟩ := hq1
    rw [List.mem_filter] at hq0
    rw [List.length_append, List.length_singleton, ih q0 hq0.1]

/-- The nodes materialised after `t` tasks of level `d` were processed. -/
def midNodes (ts : List Key) (d t : Nat) : List Key :=
  builtNodes ts d ++ ((levelPaths ts d).take t).filter (fun q => hasExt ts q)

/-- Invariant of the per-task fold of level `d` after `t` tasks. -/
structure MidLevel (ts : List Key) (d t : Nat) (b : Builder) : Prop where
  tasksEq : b.tasks = (levelPaths ts d).map (specTask ts) ++
    (((levelPaths ts d).take t).filter (fun q => hasExt ts q)).flatMap
      (childTaskList ts)
  nid : b.current_node_id = (midNodes ts d t).length
  wfL : b.labels.Wf
  wfH : b.has_child.Wf
  wfP : b.is_prefix_key.Wf
  viewL : ∀ j, b.labels.viewBit j = labelBitOf ts (midNodes ts d t) j
  viewH : ∀ j, b.has_child.viewBit j = childBitOf ts (midNodes ts d t) j
  viewP : ∀ j, b.is_prefix_key.viewBit j = prefixBitOf ts (midNodes ts d t) j
  lenL : 256 * (midNodes ts d t).length ≤ b.labels.length
  lenH : 256 * (midNodes ts d t).length ≤ b.has_child.length
  lenP : (midNodes ts d t).length ≤ b.is_prefix_key.length

theorem midNodes_succ (ts : List Key) (q : Key) (t : Nat)
    (hq : (levelPaths ts q.length)[t]? = some q) (hext : hasExt ts q = true) :
    midNodes ts q.length (t + 1) = midNodes ts q.length t ++ [q] := by
  unfold midNodes
  rw [List.take_succ, hq]
  show builtNodes ts q.length ++
    (((levelPaths ts q.length).take t ++ [q]).filter (fun q' => hasExt ts q')) = _
  rw [List.filter_append, List.filter_cons, if_pos hext]
  rw [← List.append_assoc]
  rfl

theorem childTasks_eq (ts : List Key) (q : Key) :
    (edgeList q.length (specTask ts q).keys).map
      (taskOf q.length (specTask ts q).keys) = childTaskList ts q := by
  unfold childTaskList
  rw [edgeList_specTask ts q q.length rfl]
  apply List.map_congr_left
  intro e _
  exact taskOf_specTask ts q q.length rfl e

theorem taskBody_ok (ts : List Key) (q : Key) (t : Nat) (b b' : Builder)
    (hbytes : ∀ k ∈ ts, ∀ x ∈ k, x < 256)
    (hsorted : List.Chain' (fun a b => Key.less a b = true) ts)
    (hq : (levelPaths ts q.length)[t]? = some q)
    (hext : hasExt ts q = true)
    (hmid : MidLevel ts q.length t b)
    (hbody : Builder.buildTaskBody q.length b (specTask ts q) = .ok b') :
    MidLevel ts q.length (t + 1) b' := by
  have hoffL : b.label_offset = 256 * (midNodes ts q.length t).length := by
    show b.current_node_id * 256 = _
    rw [hmid.nid]
    ring
  have hoffP : b.is_prefix_key_offset = (midNodes ts q.length t).length := by
    show b.current_node_id = _
    exact hmid.nid
  unfold Builder.buildTaskBody at hbody
  cases hg1 : b.labels.get (b.label_offset + 255) with
  | error e =>
    rw [hg1] at hbody
    cases hbody
  | ok p1 =>
    obtain ⟨v1, lbm1⟩ := p1
    rw [hg1] at hbody
    dsimp only at hbody
    obtain ⟨_, hwfL1, hcapL1, hlenL1, hbitL1, hcapoldL, hviewL1⟩ :=
      get_ok_spec hmid.wfL hg1
    cases hg2 : b.has_child.get (b.has_child_offset + 255) with
    | error e =>
      rw [hg2] at hbody
      cases hbody
    | ok p2 =>
      obtain ⟨v2, hcm1⟩ := p2
      rw [hg2] at hbody
      dsimp only at hbody
      obtain ⟨_, hwfH1, hcapH1, hlenH1, hbitH1, hcapoldH, hviewH1⟩ :=
        get_ok_spec hmid.wfH hg2
      cases hg3 : b.is_prefix_key.get b.is_prefix_key_offset with
      | error e =>
        rw [hg3] at hbody
        cases hbody
      | ok p3 =>
        obtain ⟨v3, ipk0⟩ := p3
        rw [hg3] at hbody
        dsimp only at hbody
        obtain ⟨_, hwfP1, hcapP1, hlenP1, hbitP1, hcapoldP, hviewP1⟩ :=
          get_ok_spec hmid.wfP hg3
        have hproj : (specTask ts q).is_prefix_key = decide (q ∈ ts) := rfl
        rw [hproj] at hbody
        -- obtain the post-flag bitmap with its uniform view
        have hipk : ∃ ipk1,
            (if decide (q ∈ ts) then ipk0.set b.is_prefix_key_offset
              else (.ok ipk0 : Except BmErr Bitmap)) = .ok ipk1 ∧
            ipk1.Wf ∧ ipk1.capacity = ipk0.capacity ∧
            ipk0.length ≤ ipk1.length ∧
            (∀ j, ipk1.viewBit j = (ipk0.viewBit j ||
              (decide (j = (midNodes ts q.length t).length) &&
                decide (q ∈ ts)))) := by
          by_cases hqin : q ∈ ts
          · rw [if_pos (by simp [hqin])]
            cases hset : ipk0.set b.is_prefix_key_offset with
            | error e =>
              exfalso
              rw [if_pos (by simp [hqin]), hset] at hbody
              cases hbody
            | ok ipk1 =>
              obtain ⟨hwf2, hcap2, hlen2, hbit2, hview2⟩ := set_ok_spec hwfP1 hset
              refine ⟨ipk1, rfl, hwf2, hcap2, hlen2, ?_⟩
              intro j
              rw [hview2 j, hoffP, decide_eq_true hqin, Bool.and_true]
          · rw [if_neg (by simp [hqin])]
            refine ⟨ipk0, rfl, hwfP1, rfl, le_refl _, ?_⟩
            intro j
            rw [decide_eq_false hqin, Bool.and_false, Bool.or_false]
        obtain ⟨ipk1, hipkeq, hwfP2, hcapP2, hlenP2, hviewP2⟩ := hipk
        rw [hipkeq] at hbody
        dsimp only at hbody
        cases hfold : (specTask ts q).keys.foldlM
            (Builder.buildKeyStep q.length)
            (({ b with
                labels := lbm1
                has_child := hcm1
                is_prefix_key := ipk1 } : Builder), false, 0x00) with
        | err e =>
          rw [hfold] at hbody
          cases hbody
        | panicked =>
          rw [hfold] at hbody
          cases hbody
        | fuelOut =>
          rw [hfold] at hbody
          cases hbody
        | ok stf =>
          obtain ⟨bf, nheF, mreF⟩ := stf
          rw [hfold] at hbody
          dsimp only at hbody
          cases hbody
          -- initial key-loop invariant
          have h0 : KeyInv ts q (midNodes ts q.length t) b.tasks []
              (({ b with
                  labels := lbm1
                  has_child := hcm1
                  is_prefix_key := ipk1 } : Builder), false, 0x00) := by
            refine {
              wfL := hwfL1
              wfH := hwfH1
              wfP := hwfP2
              viewL := ?_
              viewH := ?_
              viewP := ?_
              nid := hmid.nid
              tasksEq := by rw [edgeList_nil]; simp
              lenL := by
                dsimp only
                rw [hoffL] at hbitL1
                omega
              lenH := by
                dsimp only
                have hoffH : b.has_child_offset =
                    256 * (midNodes ts q.length t).length := by
                  show b.current_node_id * 256 = _
                  rw [hmid.nid]
                  ring
                rw [hoffH] at hbitH1
                omega
              lenP := by
                dsimp only
                rw [hoffP] at hbitP1
                omega
              capL := by
                dsimp only
                rw [hcapL1]
                rw [hoffL] at hcapoldL
                omega
              capH := by
                dsimp only
                have hoffH : b.has_child_offset =
                    256 * (midNodes ts q.length t).length := by
                  show b.current_node_id * 256 = _
                  rw [hmid.nid]
                  ring
                rw [hcapH1]
                rw [hoffH] at hcapoldH
                omega
              capP := by
                dsimp only
                rw [hcapP2, hcapP1]
                rw [hoffP] at hcapoldP
                omega
              hne0 := fun _ => rfl
              hne1 := fun h => absurd rfl h }
            · intro j
              rw [hviewL1 j, hmid.viewL j, edgeIn_nil]
              simp
            · intro j
              rw [hviewH1 j, hmid.viewH j]
              show _ = (childBitOf ts (midNodes ts q.length t) j ||
                (decide (j / 256 = (midNodes ts q.length t).length) && false))
              simp
            · intro j
              rw [hviewP2 j, hviewP1 j, hmid.viewP j]
          have hKfin := keyLoop_run ts q (midNodes ts q.length t) b.tasks
            hbytes hsorted _ _ h0 hfold
          have hsucc := midNodes_succ ts q t hq hext
          have htake : ((levelPaths ts q.length).take (t + 1)).filter
              (fun q' => hasExt ts q') =
              ((levelPaths ts q.length).take t).filter (fun q' => hasExt ts q')
                ++ [q] := by
            rw [List.take_succ, hq]
            show (((levelPaths ts q.length).take t) ++ [q]).filter _ = _
            rw [List.filter_append, List.filter_cons, if_pos hext]
            rfl
          refine {
            tasksEq := ?_
            nid := ?_
            wfL := hKfin.wfL
            wfH := hKfin.wfH
            wfP := hKfin.wfP
            viewL := ?_
            viewH := ?_
            viewP := ?_
            lenL := ?_
            lenH := ?_
            lenP := ?_ }
          · show bf.tasks = _
            rw [hKfin.tasksEq, childTasks_eq, hmid.tasksEq, htake,
              List.flatMap_append, List.append_assoc]
            show _ = _ ++ (_ ++ (childTaskList ts q ++ []))
            rw [List.append_nil]
          · show bf.current_node_id + 1 = _
            have := hKfin.nid
            dsimp only at this
            rw [this, hsucc, List.length_append, List.length_singleton]
          · intro j
            have := hKfin.viewL j
            dsimp only at this
            rw [this, labelBitOf_snoc, ← hsucc]
          · intro j
            have := hKfin.viewH j
            dsimp only at this
            rw [this, childBitOf_snoc, ← hsucc]
          · intro j
            have := hKfin.viewP j
            dsimp only at this
            rw [this, prefixBitOf_snoc, ← hsucc]
          · have := hKfin.lenL
            dsimp only at this
            rw [hsucc, List.length_append, List.length_singleton]
            exact this
          · have := hKfin.lenH
            dsimp only at this
            rw [hsucc, List.length_append, List.length_singleton]
            exact this
          · have := hKfin.lenP
            dsimp only at this
            rw [hsucc, List.length_append, List.length_singleton]
            exact this

theorem isPrefixOf_eq {q k : Key} : q.isPrefixOf k = true ↔ q <+: k :=
  List.isPrefixOf_iff_prefix

theorem range_decomp {n : Nat} {pre : List Nat} {a : Nat} {rest : List Nat}
    (h : List.range n = pre ++ a :: rest) : a = pre.length ∧ pre.length < n := by
  have hlen : n = pre.length + (a :: rest).length := by
    rw [← List.length_range n, h, List.length_append]
  have hpl : pre.length < n := by
    simp only [List.length_cons] at hlen
    omega
  have hget : (List.range n)[pre.length]? = some a := by
    rw [h, List.getElem?_append_right (le_refl _), Nat.sub_self]
    simp
  rw [List.getElem?_range hpl] at hget
  injection hget with h2
  exact ⟨h2.symm, hpl⟩

theorem taskStep_mid (ts : List Key) (d t : Nat) (b b' : Builder)
    (hbytes : ∀ k ∈ ts, ∀ x ∈ k, x < 256)
    (hsorted : List.Chain' (fun a b => Key.less a b = true) ts)
    (ht : t < (levelPaths ts d).length)
    (hmid : MidLevel ts d t b)
    (hstep : Builder.buildTaskStep d b t = .ok b') :
    MidLevel ts d (t + 1) b' := by
  obtain ⟨qq, hqget⟩ : ∃ qq, (levelPaths ts d)[t]? = some qq :=
    ⟨_, List.getElem?_eq_getElem ht⟩
  have htget : b.tasks.get? t = some (specTask ts qq) := by
    rw [hmid.tasksEq, List.get?_eq_getElem?,
      List.getElem?_append_left (by rw [List.length_map]; exact ht),
      List.getElem?_map, hqget]
    rfl
  unfold Builder.buildTaskStep at hstep
  rw [htget] at hstep
  dsimp only at hstep
  by_cases hemp : (specTask ts qq).keys.isEmpty = true
  · rw [if_pos hemp] at hstep
    cases hstep
    have hnoext := specTask_keys_empty _ _ hemp
    have htake : ((levelPaths ts d).take (t + 1)).filter
        (fun q' => hasExt ts q') =
        ((levelPaths ts d).take t).filter (fun q' => hasExt ts q') := by
      rw [List.take_succ, hqget]
      show (((levelPaths ts d).take t) ++ [qq]).filter _ = _
      rw [List.filter_append, List.filter_cons,
        if_neg (by rw [hnoext]; exact Bool.false_ne_true)]
      simp
    have hmn : midNodes ts d (t + 1) = midNodes ts d t := by
      unfold midNodes
      rw [htake]
    exact {
      tasksEq := by rw [hmid.tasksEq, htake]
      nid := by rw [hmn]; exact hmid.nid
      wfL := hmid.wfL
      wfH := hmid.wfH
      wfP := hmid.wfP
      viewL := by rw [hmn]; exact hmid.viewL
      viewH := by rw [hmn]; exact hmid.viewH
      viewP := by rw [hmn]; exact hmid.viewP
      lenL := by rw [hmn]; exact hmid.lenL
      lenH := by rw [hmn]; exact hmid.lenH
      lenP := by rw [hmn]; exact hmid.lenP }
  · rw [if_neg hemp] at hstep
    have hext := specTask_keys_nonempty _ _ hemp
    have hqlen : qq.length = d := by
      apply levelPaths_len ts d
      obtain ⟨hlt2, hv⟩ := List.getElem?_eq_some_iff.mp hqget
      rw [← hv]
      exact List.getElem_mem _
    subst hqlen
    exact taskBody_ok ts qq t b b' hbytes hsorted hqget hext hmid hstep

theorem levelPaths_succ_map (ts : List Key) (d : Nat) :
    ((levelPaths ts d).filter (fun q => hasExt ts q)).flatMap
      (childTaskList ts) = (levelPaths ts (d + 1)).map (specTask ts) := by
  show _ = (((levelPaths ts d).filter (fun q => hasExt ts q)).flatMap
    (fun q => (childEdges ts q).map (fun e => q ++ [e]))).map (specTask ts)
  rw [List.map_flatMap]
  congr 1
  funext q0
  rw [List.map_map]
  rfl

theorem builtNodes_succ (ts : List Key) (d : Nat) :
    builtNodes ts (d + 1) = builtNodes ts d ++ nodesAtLevel ts d := by
  unfold builtNodes
  rw [List.range_succ, List.flatMap_append]
  simp

theorem midNodes_full (ts : List Key) (d : Nat) :
    midNodes ts d (levelPaths ts d).length = builtNodes ts (d + 1) := by
  unfold midNodes
  rw [List.take_length, builtNodes_succ]
  rfl

theorem midNodes_zero (ts : List Key) (d : Nat) :
    midNodes ts d 0 = builtNodes ts d := by
  unfold midNodes
  simp

theorem level_ok (ts : List Key) (d : Nat) (b b' : Builder)
    (hbytes : ∀ k ∈ ts, ∀ x ∈ k, x < 256)
    (hsorted : List.Chain' (fun a b => Key.less a b = true) ts)
    (hmid0 : MidLevel ts d 0 b)
    (hlvl : Builder.buildLevel b d = .ok b') :
    MidLevel ts (d + 1) 0 b' := by
  have hn : b.tasks.length = (levelPaths ts d).length := by
    rw [hmid0.tasksEq, List.length_append, List.length_map]
    simp
  simp only [Builder.buildLevel] at hlvl
  cases hfold : (List.range b.tasks.length).foldlM (Builder.buildTaskStep d) b with
  | err e =>
    rw [hfold] at hlvl
    cases hlvl
  | panicked =>
    rw [hfold] at hlvl
    cases hlvl
  | fuelOut =>
    rw [hfold] at hlvl
    cases hlvl
  | ok bf =>
    rw [hfold] at hlvl
    dsimp only at hlvl
    cases hlvl
    have hmidn : MidLevel ts d (levelPaths ts d).length bf := by
      have hres := foldlM_ok_ind (Builder.buildTaskStep d)
        (fun pre bb => MidLevel ts d pre.length bb)
        (List.range b.tasks.length)
        (fun pre a rest bb y hL hI hok => by
          obtain ⟨ha, hlt⟩ := range_decomp hL
          subst ha
          have ht2 : pre.length < (levelPaths ts d).length := by
            rw [← hn]
            exact hlt
          have := taskStep_mid ts d pre.length bb y hbytes hsorted ht2 hI hok
          simpa using this)
        (List.range b.tasks.length) [] b bf rfl (by simpa using hmid0) hfold
      simp only [List.nil_append, List.length_range] at hres
      rwa [hn] at hres
    have hdrop : bf.tasks.drop b.tasks.length =
        (levelPaths ts (d + 1)).map (specTask ts) := by
      rw [hmidn.tasksEq, hn, List.take_length]
      rw [show (levelPaths ts d).length =
        ((levelPaths ts d).map (specTask ts)).length by rw [List.length_map]]
      rw [List.drop_left]
      exact levelPaths_succ_map ts d
    refine {
      tasksEq := ?_
      nid := ?_
      wfL := hmidn.wfL
      wfH := hmidn.wfH
      wfP := hmidn.wfP
      viewL := ?_
      viewH := ?_
      viewP := ?_
      lenL := ?_
      lenH := ?_
      lenP := ?_ }
    · show bf.tasks.drop b.tasks.length = _
      rw [hdrop]
      simp
    · show bf.current_node_id = _
      rw [hmidn.nid, midNodes_full, midNodes_zero]
    · intro j
      have := hmidn.viewL j
      rw [midNodes_full] at this
      rw [midNodes_zero]
      exact this
    · intro j
      have := hmidn.viewH j
      rw [midNodes_full] at this
      rw [midNodes_zero]
      exact this
    · intro j
      have := hmidn.viewP j
      rw [midNodes_full] at this
      rw [midNodes_zero]
      exact this
    · have := hmidn.lenL
      rw [midNodes_full] at this
      rw [midNodes_zero]
      exact this
    · have := hmidn.lenH
      rw [midNodes_full] at this
      rw [midNodes_zero]
      exact this
    · have := hmidn.lenP
      rw [midNodes_full] at this
      rw [midNodes_zero]
      exact this

theorem specTask_nil (ts : List Key) (hne : ∀ k ∈ ts, k ≠ []) :
    specTask ts [] = { keys := ts, is_prefix_key := false } := by
  unfold specTask
  simp only [NodeTask.mk.injEq]
  constructor
  · rw [List.filter_eq_self]
    intro a ha
    simp only [Bool.and_eq_true, decide_eq_true_eq]
    constructor
    · exact isPrefixOf_eq.mpr ⟨a, rfl⟩
    · have := hne a ha
      simp only [List.length_nil]
      exact List.length_pos.mpr this
  · apply decide_eq_false
    intro hmem
    exact hne [] hmem rfl

/-- Full characterisation of a successful `Builder::build`: the final
builder state describes exactly the abstract trie of `ts`. -/
theorem build_characterization (ts : List Key) (L : Nat) (bfinal : Builder)
    (hbytes : ∀ k ∈ ts, ∀ x ∈ k, x < 256)
    (hsorted : List.Chain' (fun a b => Key.less a b = true) ts)
    (hne : ∀ k ∈ ts, k ≠ [])
    (hbuild : (Builder.new L).build ts = .ok bfinal) :
    MidLevel ts (max_key_length ts) 0 bfinal := by
  have hb0 : (Builder.new L).build ts =
      (List.range (max_key_length ts)).foldlM Builder.buildLevel
        { labels := Bitmap.new 256 (256 * (L / 513))
          has_child := Bitmap.new 256 (256 * (L / 513))
          is_prefix_key := Bitmap.new 1 (L / 513)
          tasks := [{ keys := ts, is_prefix_key := false }]
          current_task_id := 0
          current_node_id := 0 } := rfl
  rw [hb0] at hbuild
  have h00 : MidLevel ts 0 0
      { labels := Bitmap.new 256 (256 * (L / 513))
        has_child := Bitmap.new 256 (256 * (L / 513))
        is_prefix_key := Bitmap.new 1 (L / 513)
        tasks := [{ keys := ts, is_prefix_key := false }]
        current_task_id := 0
        current_node_id := 0 } := by
    refine {
      tasksEq := ?_
      nid := ?_
      wfL := new_wf _ _
      wfH := new_wf _ _
      wfP := new_wf _ _
      viewL := ?_
      viewH := ?_
      viewP := ?_
      lenL := ?_
      lenH := ?_
      lenP := ?_ }
    · show [({ keys := ts, is_prefix_key := false } : NodeTask)] = _
      rw [show levelPaths ts 0 = [[]] from rfl]
      simp only [List.map_cons, List.map_nil]
      rw [specTask_nil ts hne]
      simp
    · show 0 = _
      simp [midNodes, builtNodes]
    · intro j
      rw [viewBit_new]
      unfold labelBitOf
      rw [show midNodes ts 0 0 = [] by simp [midNodes, builtNodes]]
      simp
    · intro j
      rw [viewBit_new]
      unfold childBitOf
      rw [show midNodes ts 0 0 = [] by simp [midNodes, builtNodes]]
      simp
    · intro j
      rw [viewBit_new]
      unfold prefixBitOf
      rw [show midNodes ts 0 0 = [] by simp [midNodes, builtNodes]]
      simp
    · rw [show midNodes ts 0 0 = [] by simp [midNodes, builtNodes]]
      simp
    · rw [show midNodes ts 0 0 = [] by simp [midNodes, builtNodes]]
      simp
    · rw [show midNodes ts 0 0 = [] by simp [midNodes, builtNodes]]
      simp
  have hres := foldlM_ok_ind Builder.buildLevel
    (fun pre bb => MidLevel ts pre.length 0 bb)
    (List.range (max_key_length ts))
    (fun pre a rest bb y hL hI hok => by
      obtain ⟨ha, _⟩ := range_decomp hL
      subst ha
      have := level_ok ts pre.length bb y hbytes hsorted hI hok
      simpa using this)
    (List.range (max_key_length ts)) [] _ bfinal rfl (by simpa using h00) hbuild
  simpa using hres

/-! ## Child-id arithmetic: rank over HasChild locates the child node -/

/-- The children of path `q`, in increasing edge order. -/
def childKeys (ts : List Key) (q : Key) : List Key :=
  ((List.range 256).filter (fun e => hasExt ts (q ++ [e]))).map (fun e => q ++ [e])

theorem touches_of_hasExt {ts : List Key} {q : Key} (h : hasExt ts q = true) :
    touches ts q = true := by
  unfold hasExt at h
  unfold touches
  rw [List.any_eq_true] at h ⊢
  obtain ⟨k, hk, hc⟩ := h
  rw [Bool.and_eq_true] at hc
  exact ⟨k, hk, hc.1⟩

theorem nodesAtLevel_succ (ts : List Key) (d : Nat) :
    nodesAtLevel ts (d + 1) = (nodesAtLevel ts d).flatMap (childKeys ts) := by
  show (levelPaths ts (d + 1)).filter (fun q => hasExt ts q) = _
  show (((levelPaths ts d).filter (fun q => hasExt ts q)).flatMap
    (fun q => (childEdges ts q).map (fun e => q ++ [e]))).filter
      (fun q => hasExt ts q) = _
  rw [List.filter_flatMap]
  congr 1
  funext q
  rw [List.filter_map]
  unfold childKeys childEdges
  congr 1
  rw [List.filter_filter]
  apply List.filter_congr
  intro e _
  show (hasExt ts (q ++ [e]) && touches ts (q ++ [e])) = hasExt ts (q ++ [e])
  cases hh : hasExt ts (q ++ [e])
  · rfl
  · rw [touches_of_hasExt hh]
    rfl

/-- Total number of children of the listed nodes. -/
def countChildren (ts : List Key) (l : List Key) : Nat :=
  (l.map (fun q => (childKeys ts q).length)).sum

theorem length_flatMap_eq {α β : Type} (f : α → List β) (l : List α) :
    (l.flatMap f).length = (l.map (fun a => (f a).length)).sum := by
  show (List.flatten (l.map f)).length = _
  rw [List.length_flatten, List.map_map]
  rfl

theorem countChildren_append (ts : List Key) (l₁ l₂ : List Key) :
    countChildren ts (l₁ ++ l₂) = countChildren ts l₁ + countChildren ts l₂ := by
  unfold countChildren
  rw [List.map_append, List.sum_append]

theorem countChildren_level (ts : List Key) (d : Nat) :
    countChildren ts (nodesAtLevel ts d) = (nodesAtLevel ts (d + 1)).length := by
  rw [nodesAtLevel_succ, length_flatMap_eq]
  rfl

theorem builtNodes_split (ts : List Key) {a M : Nat} (h : a ≤ M) :
    builtNodes ts M = builtNodes ts a ++
      (List.range' a (M - a)).flatMap (nodesAtLevel ts) := by
  unfold builtNodes
  rw [range_split h, List.flatMap_append]

theorem countChildren_builtNodes (ts : List Key)
    (hroot : nodesAtLevel ts 0 = [[]]) (d : Nat) :
    countChildren ts (builtNodes ts d) + 1 = (builtNodes ts (d + 1)).length := by
  induction d with
  | zero =>
    show countChildren ts [] + 1 = _
    rw [builtNodes_succ]
    show 0 + 1 = (([] : List Key) ++ nodesAtLevel ts 0).length
    rw [List.nil_append, hroot]
    rfl
  | succ d ih =>
    rw [builtNodes_succ, countChildren_append, countChildren_level]
    rw [builtNodes_succ ts (d + 1), List.length_append]
    omega

theorem flatMap_index {α β : Type} (f : α → List β) :
    ∀ (L : List α) (n : Nat), n < (L.flatMap f).length →
    ∃ i t, ∃ hi : i < L.length, t < (f L[i]).length ∧
      n = ((L.take i).flatMap f).length + t ∧
      (L.flatMap f)[n]? = (f L[i])[t]? := by
  intro L
  induction L with
  | nil =>
    intro n h
    simp at h
  | cons a L ih =>
    intro n h
    by_cases hn : n < (f a).length
    · refine ⟨0, n, by simp, hn, by simp, ?_⟩
      rw [List.flatMap_cons, List.getElem?_append_left hn]
      rfl
    · have h2 : n - (f a).length < (L.flatMap f).length := by
        rw [List.flatMap_cons, List.length_append] at h
        omega
      obtain ⟨i, t, hi, ht, hn2, hget⟩ := ih (n - (f a).length) h2
      refine ⟨i + 1, t, by simpa using hi, ht, ?_, ?_⟩
      · rw [List.take_succ_cons, List.flatMap_cons, List.length_append]
        omega
      · rw [List.flatMap_cons, List.getElem?_append_right (by omega)]
        exact hget

theorem filter_range_idx {N e : Nat} (he : e < N) (P : Nat → Bool)
    (hPe : P e = true) :
    ((List.range N).filter P)[((List.range e).filter P).length]? = some e := by
  have hsplit : List.range N =
      (List.range e ++ [e]) ++ List.range' (e + 1) (N - (e + 1)) := by
    rw [← List.range_succ]
    exact range_split (by omega)
  rw [hsplit, List.filter_append, List.filter_append, List.filter_cons,
    if_pos hPe]
  rw [List.getElem?_append_left (by
    rw [List.length_append]
    simp)]
  rw [List.getElem?_append_right (le_refl _), Nat.sub_self]
  rfl

theorem bitVal_true_eq (bm : Bitmap) (j : Nat) :
    bitVal true bm j = bm.viewBit j := rfl

theorem countP_range_mulB_succ (B : Nat) (P : Nat → Bool) (k : Nat) :
    (List.range (B * (k + 1))).countP P =
      (List.range (B * k)).countP P + (List.range' (B * k) B).countP P := by
  rw [range_split (show B * k ≤ B * (k + 1) by
    apply Nat.mul_le_mul_left
    omega), List.countP_append]
  have h : B * (k + 1) - B * k = B := by
    rw [Nat.mul_succ]
    omega
  rw [h]

theorem child_block_count (ts NS : List Key) (bm : Bitmap)
    (hview : ∀ j, bm.viewBit j = childBitOf ts NS j)
    (i : Nat) (hi : i < NS.length) :
    (List.range' (256 * i) 256).countP (bitVal true bm) =
      (childKeys ts (NS.getD i [])).length := by
  rw [countP_range'_shift]
  have hcongr : ∀ r ∈ List.range 256,
      bitVal true bm (256 * i + r) =
        hasExt ts (NS.getD i [] ++ [r]) := by
    intro r hr
    rw [List.mem_range] at hr
    rw [bitVal_true_eq, hview, ]
    unfold childBitOf
    have hdiv : (256 * i + r) / 256 = i := by omega
    have hmod : (256 * i + r) % 256 = r := by omega
    rw [hdiv, hmod, decide_eq_true hi, Bool.true_and]
  rw [countP_congrB hcongr]
  unfold childKeys
  rw [List.length_map, ← List.countP_eq_length_filter]

theorem child_blocks_count (ts NS : List Key) (bm : Bitmap)
    (hview : ∀ j, bm.viewBit j = childBitOf ts NS j) :
    ∀ n, n ≤ NS.length →
      (List.range (256 * n)).countP (bitVal true bm) =
        countChildren ts (NS.take n) := by
  intro n
  induction n with
  | zero =>
    intro _
    simp [countChildren]
  | succ n ih =>
    intro hn
    rw [countP_range_mulB_succ, ih (by omega),
      child_block_count ts NS bm hview n (by omega)]
    unfold countChildren
    rw [List.take_succ, List.getElem?_eq_getElem (by omega : n < NS.length)]
    rw [List.map_append, List.sum_append]
    have : NS.getD n [] = NS[n] := by
      rw [List.getD_eq_getElem?_getD, List.getElem?_eq_getElem (by omega)]
      rfl
    rw [this]
    rfl

theorem child_tail_count (ts NS : List Key) (bm : Bitmap)
    (hview : ∀ j, bm.viewBit j = childBitOf ts NS j)
    (n e : Nat) (hn : n < NS.length) (he : e < 256) :
    (List.range' (256 * n) (e + 1)).countP (bitVal true bm) =
      ((List.range (e + 1)).filter
        (fun x => hasExt ts (NS.getD n [] ++ [x]))).length := by
  rw [countP_range'_shift]
  have hcongr : ∀ r ∈ List.range (e + 1),
      bitVal true bm (256 * n + r) =
        hasExt ts (NS.getD n [] ++ [r]) := by
    intro r hr
    rw [List.mem_range] at hr
    rw [bitVal_true_eq, hview]
    unfold childBitOf
    have hdiv : (256 * n + r) / 256 = n := by omega
    have hmod : (256 * n + r) % 256 = r := by omega
    rw [hdiv, hmod, decide_eq_true hn, Bool.true_and]
  rw [countP_congrB hcongr, ← List.countP_eq_length_filter]

theorem le_max_key_length {ts : List Key} {k : Key} (h : k ∈ ts) :
    k.length ≤ max_key_length ts := by
  unfold max_key_length
  induction ts with
  | nil => simp at h
  | cons a l ih =>
    rw [List.mem_cons] at h
    rw [List.map_cons, List.foldr_cons]
    rcases h with h | h
    · subst h
      exact Nat.le_max_left _ _
    · exact le_trans (ih h) (Nat.le_max_right _ _)

/-- `rank₁(HasChild, 256·n + e)` is exactly the level-order id of the
child node reached from node `n` through edge `e`. -/
theorem child_node_index (ts : List Key)
    (hroot : nodesAtLevel ts 0 = [[]])
    (n e : Nat)
    (hn : n < (builtNodes ts (max_key_length ts)).length)
    (he : e < 256)
    (hext : hasExt ts
      ((builtNodes ts (max_key_length ts)).getD n [] ++ [e]) = true) :
    ∃ r, r < (builtNodes ts (max_key_length ts)).length ∧
      (builtNodes ts (max_key_length ts)).getD r [] =
        (builtNodes ts (max_key_length ts)).getD n [] ++ [e] ∧
      ∀ bm : Bitmap,
        (∀ j, bm.viewBit j =
          childBitOf ts (builtNodes ts (max_key_length ts)) j) →
        rankCount true bm (256 * n + e) = r := by
  obtain ⟨d, t, hd, ht, hneq, hget⟩ := flatMap_index (nodesAtLevel ts)
    (List.range (max_key_length ts)) n hn
  rw [List.getElem_range] at ht hget
  have hd2 : d < max_key_length ts := by simpa using hd
  have hne2 : n = (builtNodes ts d).length + t := by
    rw [List.take_range, Nat.min_eq_left (le_of_lt hd2)] at hneq
    exact hneq
  obtain ⟨q, hq_def⟩ : ∃ q0, (nodesAtLevel ts d)[t]? = some q0 :=
    ⟨_, List.getElem?_eq_getElem ht⟩
  obtain ⟨ht', hv⟩ := List.getElem?_eq_some_iff.mp hq_def
  have hQ : (builtNodes ts (max_key_length ts))[n]? = some q := by
    show ((List.range (max_key_length ts)).flatMap (nodesAtLevel ts))[n]? = _
    rw [hget]
    exact hq_def
  have hQD : (builtNodes ts (max_key_length ts)).getD n [] = q := by
    rw [List.getD_eq_getElem?_getD, hQ]
    rfl
  rw [hQD] at hext
  have hqmem : q ∈ nodesAtLevel ts d := by
    rw [← hv]
    exact List.getElem_mem _
  have hq_len : q.length = d := by
    apply levelPaths_len ts d
    exact (List.mem_filter.mp hqmem).1
  have hdM : d + 2 ≤ max_key_length ts := by
    have hext2 := hext
    unfold hasExt at hext2
    rw [List.any_eq_true] at hext2
    obtain ⟨k, hk, hc⟩ := hext2
    rw [Bool.and_eq_true, decide_eq_true_eq] at hc
    have hlen := hc.2
    rw [List.length_append, List.length_singleton, hq_len] at hlen
    have := le_max_key_length hk
    omega
  have hposC := filter_range_idx he (fun x => hasExt ts (q ++ [x])) hext
  have hCK : (childKeys ts q)[((List.range e).filter
      (fun x => hasExt ts (q ++ [x]))).length]? = some (q ++ [e]) := by
    unfold childKeys
    rw [List.getElem?_map, hposC]
    rfl
  obtain ⟨hposC_lt, _⟩ := List.getElem?_eq_some_iff.mp hCK
  have hlenft : (((nodesAtLevel ts d).take t).flatMap (childKeys ts)).length =
      countChildren ts ((nodesAtLevel ts d).take t) := by
    rw [length_flatMap_eq]
    rfl
  have hdecq : nodesAtLevel ts d =
      (nodesAtLevel ts d).take t ++ q :: (nodesAtLevel ts d).drop (t + 1) := by
    conv_lhs => rw [← List.take_append_drop t (nodesAtLevel ts d)]
    rw [List.drop_eq_getElem_cons ht, hv]
  have hflatdec : (nodesAtLevel ts d).flatMap (childKeys ts) =
      ((nodesAtLevel ts d).take t).flatMap (childKeys ts) ++
        (childKeys ts q ++
          ((nodesAtLevel ts d).drop (t + 1)).flatMap (childKeys ts)) := by
    conv_lhs => rw [hdecq]
    rw [List.flatMap_append, List.flatMap_cons]
  have hlvlidx : (nodesAtLevel ts (d + 1))[countChildren ts
      ((nodesAtLevel ts d).take t) + ((List.range e).filter
      (fun x => hasExt ts (q ++ [x]))).length]? = some (q ++ [e]) := by
    rw [nodesAtLevel_succ, hflatdec]
    rw [List.getElem?_append_right (by rw [hlenft]; omega)]
    rw [hlenft, Nat.add_sub_cancel_left]
    rw [List.getElem?_append_left hposC_lt]
    exact hCK
  obtain ⟨hlt2, _⟩ := List.getElem?_eq_some_iff.mp hlvlidx
  have hNSr : (builtNodes ts (max_key_length ts))[(builtNodes ts (d + 1)).length +
      (countChildren ts ((nodesAtLevel ts d).take t) + ((List.range e).filter
      (fun x => hasExt ts (q ++ [x]))).length)]? = some (q ++ [e]) := by
    rw [builtNodes_split ts (show d + 1 ≤ max_key_length ts by omega)]
    rw [show max_key_length ts - (d + 1) = (max_key_length ts - (d + 2)) + 1
      by omega, List.range'_succ, List.flatMap_cons]
    rw [List.getElem?_append_right (Nat.le_add_right _ _)]
    rw [Nat.add_sub_cancel_left]
    rw [List.getElem?_append_left hlt2]
    exact hlvlidx
  obtain ⟨hrlt, _⟩ := List.getElem?_eq_some_iff.mp hNSr
  refine ⟨_, hrlt, ?_, ?_⟩
  · rw [List.getD_eq_getElem?_getD, hNSr, hQD]
    rfl
  · intro bm hview
    unfold rankCount
    rw [range_split (show 256 * n ≤ 256 * n + e + 1 by omega),
      List.countP_append]
    rw [child_blocks_count ts _ bm hview n (by omega)]
    rw [show 256 * n + e + 1 - 256 * n = e + 1 by omega]
    rw [child_tail_count ts _ bm hview n e hn he]
    rw [hQD]
    have htail : ((List.range (e + 1)).filter
        (fun x => hasExt ts (q ++ [x]))).length =
        ((List.range e).filter
          (fun x => hasExt ts (q ++ [x]))).length + 1 := by
      rw [List.range_succ, List.filter_append, List.filter_cons, if_pos hext]
      rw [List.length_append]
      simp
    rw [htail]
    have htaken : (builtNodes ts (max_key_length ts)).take n =
        builtNodes ts d ++ (nodesAtLevel ts d).take t := by
      rw [builtNodes_split ts (show d ≤ max_key_length ts by omega)]
      rw [hne2, List.take_append]
      congr 1
      rw [show max_key_length ts - d = (max_key_length ts - (d + 1)) + 1
        by omega, List.range'_succ, List.flatMap_cons]
      rw [List.take_append_of_le_length (le_of_lt ht)]
    rw [htaken, countChildren_append]
    have hcb := countChildren_builtNodes ts hroot d
    omega

theorem root_level (ts : List Key) (hts : ts ≠ []) (hne : ∀ k ∈ ts, k ≠ []) :
    nodesAtLevel ts 0 = [[]] := by
  show ([[]] : List Key).filter (fun q => hasExt ts q) = [[]]
  rw [List.filter_cons]
  rw [if_pos ?hcond]
  case hcond =>
    obtain ⟨k, hk⟩ := List.exists_mem_of_ne_nil ts hts
    unfold hasExt
    rw [List.any_eq_true]
    refine ⟨k, hk, ?_⟩
    rw [Bool.and_eq_true, decide_eq_true_eq]
    constructor
    · exact isPrefixOf_eq.mpr ⟨k, rfl⟩
    · show 0 < k.length
      exact List.length_pos.mpr (hne k hk)
  rfl

theorem labelBit_extract {ts NS : List Key} {n e : Nat} (he : e < 256)
    (h : labelBitOf ts NS (256 * n + e) = true) :
    n < NS.length ∧ touches ts (NS.getD n [] ++ [e]) = true := by
  unfold labelBitOf at h
  have hdiv : (256 * n + e) / 256 = n := by omega
  have hmod : (256 * n + e) % 256 = e := by omega
  rw [hdiv, hmod, Bool.and_eq_true, decide_eq_true_eq] at h
  exact h

theorem childBit_at {ts NS : List Key} {n e : Nat} (he : e < 256)
    (hn : n < NS.length) :
    childBitOf ts NS (256 * n + e) = hasExt ts (NS.getD n [] ++ [e]) := by
  unfold childBitOf
  have hdiv : (256 * n + e) / 256 = n := by omega
  have hmod : (256 * n + e) % 256 = e := by omega
  rw [hdiv, hmod, decide_eq_true hn, Bool.true_and]

/-- C4: after `build` over a sorted truncated key list, every set Labels
bit at offset `256·n + b` either has its HasChild bit set and
`rank₁(HasChild, 256·n + b)` is the level-order id of the child node
reached through that edge (its path extends node `n`'s path by byte `b`),
or has HasChild clear and the path of node `n` extended by `b` is an
input key terminating there.  The two cases exclude each other. -/
theorem builder_child_id_invariant (ts : List Key) (L : Nat) (b : Builder)
    (hsorted : List.Chain' (fun a b => Key.less a b = true) ts)
    (hne : ∀ k ∈ ts, k ≠ []) (hts : ts ≠ [])
    (hbytes : ∀ k ∈ ts, ∀ x ∈ k, x < 256)
    (hbuild : (Builder.new L).build ts = .ok b)
    (n e : Nat) (he : e < 256)
    (hlab : b.labels.viewBit (256 * n + e) = true) :
    ((b.has_child.viewBit (256 * n + e) = true ∧
      ∃ r, b.has_child.rank 1 (256 * n + e) = .ok r ∧
        r < (builtNodes ts (max_key_length ts)).length ∧
        (builtNodes ts (max_key_length ts)).getD r [] =
          (builtNodes ts (max_key_length ts)).getD n [] ++ [e]) ∨
    (b.has_child.viewBit (256 * n + e) = false ∧
      ((builtNodes ts (max_key_length ts)).getD n [] ++ [e]) ∈ ts)) ∧
    ¬ (b.has_child.viewBit (256 * n + e) = true ∧
        b.has_child.viewBit (256 * n + e) = false) := by
  have hchar := build_characterization ts L b hbytes hsorted hne hbuild
  have hroot := root_level ts hts hne
  have hviewL : ∀ j, b.labels.viewBit j =
      labelBitOf ts (builtNodes ts (max_key_length ts)) j := by
    intro j
    have := hchar.viewL j
    rwa [midNodes_zero] at this
  have hviewH : ∀ j, b.has_child.viewBit j =
      childBitOf ts (builtNodes ts (max_key_length ts)) j := by
    intro j
    have := hchar.viewH j
    rwa [midNodes_zero] at this
  rw [hviewL] at hlab
  obtain ⟨hn, htouch⟩ := labelBit_extract he hlab
  constructor
  · cases hhc : b.has_child.viewBit (256 * n + e) with
    | false =>
      right
      refine ⟨rfl, ?_⟩
      have hext : hasExt ts
          ((builtNodes ts (max_key_length ts)).getD n [] ++ [e]) = false := by
        rw [hviewH, childBit_at he hn] at hhc
        exact hhc
      unfold touches at htouch
      rw [List.any_eq_true] at htouch
      obtain ⟨k, hk, hpre⟩ := htouch
      rw [isPrefixOf_eq] at hpre
      have hklen : k.length ≤
          ((builtNodes ts (max_key_length ts)).getD n [] ++ [e]).length := by
        by_contra hgt
        have : hasExt ts
            ((builtNodes ts (max_key_length ts)).getD n [] ++ [e]) = true := by
          unfold hasExt
          rw [List.any_eq_true]
          exact ⟨k, hk, by
            rw [Bool.and_eq_true, decide_eq_true_eq]
            exact ⟨isPrefixOf_eq.mpr hpre, by omega⟩⟩
        rw [this] at hext
        cases hext
      have := hpre.eq_of_length (le_antisymm hpre.length_le hklen)
      rwa [this]
    | true =>
      left
      refine ⟨rfl, ?_⟩
      have hext : hasExt ts
          ((builtNodes ts (max_key_length ts)).getD n [] ++ [e]) = true := by
        rw [hviewH, childBit_at he hn] at hhc
        exact hhc
      obtain ⟨r, hrlt, hrpath, hcount⟩ := child_node_index ts hroot n e hn he hext
      refine ⟨r, ?_, hrlt, hrpath⟩
      have hlen : 256 * n + e < b.has_child.length := by
        have := hchar.lenH
        rw [midNodes_zero] at this
        omega
      rw [rank_one_spec b.has_child (256 * n + e) hlen]
      rw [hcount b.has_child hviewH]
  · rintro ⟨h1, h2⟩
    rw [h1] at h2
    cases h2

set_option maxRecDepth 4000 in
/-- Witness for `builder_child_id_invariant`: building over
`{"a", "ab"}`, the label bit for edge `0x61` at the root has its
HasChild bit set and `rank₁` names the child node `"a"`. -/
theorem builder_child_id_invariant_witness :
    ∃ b, (Builder.new 256000000).build [[97], [97, 98]] = .ok b ∧
      (((b.has_child.viewBit (256 * 0 + 97) = true ∧
        ∃ r, b.has_child.rank 1 (256 * 0 + 97) = .ok r ∧
          r < (builtNodes [[97], [97, 98]]
            (max_key_length [[97], [97, 98]])).length ∧
          (builtNodes [[97], [97, 98]]
            (max_key_length [[97], [97, 98]])).getD r [] =
            (builtNodes [[97], [97, 98]]
              (max_key_length [[97], [97, 98]])).getD 0 [] ++ [97]) ∨
      (b.has_child.viewBit (256 * 0 + 97) = false ∧
        ((builtNodes [[97], [97, 98]]
          (max_key_length [[97], [97, 98]])).getD 0 [] ++ [97]) ∈
          [[97], [97, 98]])) ∧
      ¬ (b.has_child.viewBit (256 * 0 + 97) = true ∧
          b.has_child.viewBit (256 * 0 + 97) = false)) := by
  refine ⟨_, rfl, ?_⟩
  exact builder_child_id_invariant [[97], [97, 98]] 256000000 _
    (by rw [List.chain'_cons]; exact ⟨by decide, List.chain'_singleton _⟩)
    (by decide) (by decide) (by decide) rfl 0 97 (by decide) (by decide)

/-! ## C1: round-trip — every inserted key is found.
First, order lemmas connecting `keyLe` (the sort order) with the strict
order `Key.less`. -/

theorem Key.less_trichotomy (a b : Key) :
    Key.less a b = true ∨ a = b ∨ Key.less b a = true := by
  induction a generalizing b with
  | nil =>
    cases b with
    | nil => exact Or.inr (Or.inl rfl)
    | cons y ys => exact Or.inl (by simp [Key.less])
  | cons x xs ih =>
    cases b with
    | nil => exact Or.inr (Or.inr (by simp [Key.less]))
    | cons y ys =>
      rcases Nat.lt_trichotomy x y with h | h | h
      · left
        rw [Key.less, if_pos h]
      · subst h
        rcases ih ys with h2 | h2 | h2
        · left
          rw [Key.less, if_neg (lt_irrefl x), if_neg (lt_irrefl x)]
          exact h2
        · right
          left
          rw [h2]
        · right
          right
          rw [Key.less, if_neg (lt_irrefl x), if_neg (lt_irrefl x)]
          exact h2
      · right
        right
        rw [Key.less, if_pos h]

theorem keyLe_eq (a b : Key) :
    keyLe a b = (Key.less a b || decide (a = b)) := by
  induction a generalizing b with
  | nil =>
    cases b with
    | nil => simp [keyLe, Key.less]
    | cons y ys => simp [keyLe, Key.less]
  | cons x xs ih =>
    cases b with
    | nil => simp [keyLe, Key.less]
    | cons y ys =>
      rw [keyLe, Key.less]
      rcases Nat.lt_trichotomy x y with h | h | h
      · rw [if_pos h, if_pos h]
        simp
      · subst h
        rw [if_neg (lt_irrefl x), if_neg (lt_irrefl x), if_neg (lt_irrefl x),
          if_neg (lt_irrefl x), ih ys]
        simp
      · have hnl : ¬ x < y := by omega
        rw [if_neg hnl, if_neg hnl, if_pos h, if_pos h]
        have hne : ¬ ((x :: xs : Key) = y :: ys) := by
          intro hx
          rw [List.cons.injEq] at hx
          omega
        simp [hne]

theorem keyLe_trans' (a b c : Key) (hab : keyLe a b = true)
    (hbc : keyLe b c = true) : keyLe a c = true := by
  rw [keyLe_eq] at hab hbc ⊢
  simp only [Bool.or_eq_true, decide_eq_true_eq] at hab hbc ⊢
  rcases hab with hab | rfl
  · rcases hbc with hbc | rfl
    · exact Or.inl (Key.less_trans hab hbc)
    · exact Or.inl hab
  · exact hbc

theorem keyLe_total' (a b : Key) : (keyLe a b || keyLe b a) = true := by
  rw [keyLe_eq, keyLe_eq]
  rcases Key.less_trichotomy a b with h | h | h
  · simp [h]
  · subst h
    simp
  · simp [h]

theorem keyLe_ne_less {a b : Key} (h : keyLe a b = true) (hne : a ≠ b) :
    Key.less a b = true := by
  rw [keyLe_eq] at h
  simp only [Bool.or_eq_true, decide_eq_true_eq] at h
  rcases h with h | rfl
  · exact h
  · exact absurd rfl hne

/-- Sorting a duplicate-free key list yields a strictly increasing list. -/
theorem mergeSort_less_chain (l : List Key) (hnodup : l.Nodup) :
    List.Chain' (fun a b => Key.less a b = true) (l.mergeSort keyLe) := by
  have hp : List.Pairwise (fun a b => keyLe a b = true) (l.mergeSort keyLe) :=
    List.sorted_mergeSort keyLe_trans' keyLe_total' l
  have hnd : List.Pairwise (fun a b : Key => a ≠ b) (l.mergeSort keyLe) :=
    (List.Perm.nodup_iff (l.mergeSort_perm keyLe)).mpr hnodup
  apply List.Pairwise.chain'
  have hcomb : List.Pairwise (fun a b : Key => keyLe a b = true ∧ a ≠ b)
      (l.mergeSort keyLe) := List.pairwise_and_iff.mpr ⟨hp, hnd⟩
  exact hcomb.imp (fun h => keyLe_ne_less h.1 h.2)

/-! First-difference symmetry and byte comparison at the difference. -/

theorem fdiff_comm (a b : Key) : fdiff a b = fdiff b a := by
  induction a generalizing b with
  | nil => cases b <;> simp [fdiff]
  | cons x xs ih =>
    cases b with
    | nil => simp [fdiff]
    | cons y ys =>
      rw [fdiff, fdiff]
      by_cases hxy : x = y
      · subst hxy
        simp [ih]
      · have hyx : y ≠ x := fun h => hxy h.symm
        simp [hxy, hyx]

theorem less_at_fdiff {a b : Key} {f : Nat} (h : fdiff a b = some f)
    (hless : Key.less a b = true) (hfa : f < a.length) (hfb : f < b.length) :
    a.getD f 0 < b.getD f 0 := by
  have hle := Key.less_getD_le f a b hless (fdiff_take a b h) hfa hfb
  have hne : a.getD f 0 ≠ b.getD f 0 := by
    rcases fdiff_cases a b h with ⟨h1, h2, h3⟩ | ⟨h1, h2⟩
    · rw [getD_eq_getElem_at hfa, getD_eq_getElem_at hfb]
      exact h3
    · omega
  omega

theorem less_of_take_lt {f : Nat} : ∀ {u v : Key}, u.take f = v.take f →
    f < u.length → f < v.length → u.getD f 0 < v.getD f 0 →
    Key.less u v = true := by
  induction f with
  | zero =>
    intro u v ht hfu hfv hlt
    cases u with
    | nil => simp at hfu
    | cons x xs =>
      cases v with
      | nil => simp at hfv
      | cons y ys =>
        simp only [List.getD_cons_zero] at hlt
        rw [Key.less, if_pos hlt]
  | succ f ih =>
    intro u v ht hfu hfv hlt
    cases u with
    | nil => simp at hfu
    | cons x xs =>
      cases v with
      | nil => simp at hfv
      | cons y ys =>
        rw [List.take_succ_cons, List.take_succ_cons, List.cons.injEq] at ht
        obtain ⟨rfl, ht'⟩ := ht
        rw [Key.less, if_neg (lt_irrefl x), if_neg (lt_irrefl x)]
        simp only [List.getD_cons_succ] at hlt
        exact ih ht' (by simp only [List.length_cons] at hfu; omega)
          (by simp only [List.length_cons] at hfv; omega) hlt

/-- Adjacent entries of a strictly sorted list, through `getD`. -/
theorem chain_adj (ks : List Key)
    (hchain : List.Chain' (fun a b => Key.less a b = true) ks)
    (j : Nat) (hj : j + 1 < ks.length) :
    Key.less (ks.getD j []) (ks.getD (j + 1) []) = true := by
  have h := List.chain'_iff_get.mp hchain j (by omega)
  rw [List.getD_eq_getElem _ _ (by omega : j < ks.length),
      List.getD_eq_getElem _ _ (by omega : j + 1 < ks.length)]
  simpa [List.get_eq_getElem] using h

/-- Entries of `ks` are nonempty, through `getD`. -/
theorem getD_ne_nil (ks : List Key) (hne : ∀ k ∈ ks, k ≠ [])
    (j : Nat) (hj : j < ks.length) : ks.getD j [] ≠ [] := by
  apply hne
  rw [List.getD_eq_getElem _ _ hj]
  exact List.getElem_mem _

/-- The predecessor-side first difference for `truncateAt` exists and
lies strictly inside the key. -/
theorem truncate_db_side (ks : List Key) (i : Nat)
    (hchain : List.Chain' (fun a b => Key.less a b = true) ks)
    (hi : i < ks.length) :
    (0 < i ∧ ∃ db, fdiff (ks.getD i []) (ks.getD (i - 1) []) = some db ∧
      db < (ks.getD i []).length) ∨ i = 0 := by
  rcases Nat.eq_zero_or_pos i with h0 | h0
  · exact Or.inr h0
  · left
    refine ⟨h0, ?_⟩
    have hlt : Key.less (ks.getD (i - 1) []) (ks.getD i []) = true := by
      have := chain_adj ks hchain (i - 1) (by omega)
      have heq : i - 1 + 1 = i := by omega
      rwa [heq] at this
    cases hfd : fdiff (ks.getD i []) (ks.getD (i - 1) []) with
    | none => exact absurd ((fdiff_none_iff _ _).mp hfd).symm (Key.less_ne hlt)
    | some db => exact ⟨db, rfl, fdiff_lt_length_left hfd hlt⟩

/-- In the main (non-strict-prefix) case, `truncateAt` keeps `n` bytes
for some `n` with `f + 1 ≤ n ≤ |key|`, where `f` is the neighbour
difference on the side of interest. -/
theorem truncate_adj_less (ks : List Key) (i : Nat)
    (hchain : List.Chain' (fun a b => Key.less a b = true) ks)
    (hne : ∀ k ∈ ks, k ≠ []) (hi1 : i + 1 < ks.length) :
    Key.less (truncateAt ks i) (truncateAt ks (i + 1)) = true := by
  have hlt : Key.less (ks.getD i []) (ks.getD (i + 1) []) = true :=
    chain_adj ks hchain i hi1
  obtain ⟨f, hf⟩ : ∃ f, fdiff (ks.getD i []) (ks.getD (i + 1) []) = some f := by
    cases hfd : fdiff (ks.getD i []) (ks.getD (i + 1) []) with
    | none => exact absurd ((fdiff_none_iff _ _).mp hfd) (Key.less_ne hlt)
    | some f => exact ⟨f, rfl⟩
  have hfc : fdiff (ks.getD (i + 1) []) (ks.getD i []) = some f := by
    rw [fdiff_comm]
    exact hf
  have hki : ks.getD i [] ≠ [] := getD_ne_nil ks hne i (by omega)
  have hki1 : ks.getD (i + 1) [] ≠ [] := getD_ne_nil ks hne (i + 1) hi1
  have hlen_i : 0 < (ks.getD i []).length := List.length_pos.mpr hki
  have hlen_i1 : 0 < (ks.getD (i + 1) []).length := List.length_pos.mpr hki1
  have hdbx := truncate_db_side ks i hchain (by omega)
  -- successor side of index i+1
  have hdax : (i + 1 + 1 < ks.length ∧ ∃ da,
      fdiff (ks.getD (i + 1) []) (ks.getD (i + 1 + 1) []) = some da) ∨
      i + 1 + 1 = ks.length := by
    rcases Nat.lt_or_ge (i + 1 + 1) ks.length with hlen | hlen
    · left
      refine ⟨hlen, ?_⟩
      have hlt2 : Key.less (ks.getD (i + 1) []) (ks.getD (i + 1 + 1) []) = true :=
        chain_adj ks hchain (i + 1) hlen
      cases hfd : fdiff (ks.getD (i + 1) []) (ks.getD (i + 1 + 1) []) with
      | none => exact absurd ((fdiff_none_iff _ _).mp hfd) (Key.less_ne hlt2)
      | some da => exact ⟨da, rfl⟩
    · exact Or.inr (by omega)
  -- representation of truncateAt ks (i+1) given db-side = f with f < |key'|
  have hrepB : ∀ hflt' : f < (ks.getD (i + 1) []).length,
      ∃ n, truncateAt ks (i + 1) = (ks.getD (i + 1) []).take n ∧ f + 1 ≤ n := by
    intro hflt'
    have hdb1 : (0 < i + 1 ∧
        fdiff (ks.getD (i + 1) []) (ks.getD (i + 1 - 1) []) = some f) ∨
        (i + 1 = 0 ∧ f = 0) := by
      left
      exact ⟨by omega, hfc⟩
    rcases hdax with ⟨hlen2, da2, hfda2⟩ | hN2
    · rw [truncateAt_eq ks (i + 1) f da2 hdb1 (Or.inl ⟨hlen2, hfda2⟩)]
      refine ⟨_, rfl, ?_⟩
      split
      · omega
      · omega
    · rw [truncateAt_eq ks (i + 1) f 0 hdb1 (Or.inr ⟨hN2, rfl⟩)]
      refine ⟨_, rfl, ?_⟩
      split
      · omega
      · omega
  rcases fdiff_right_cases hf hlt with hflt | ⟨hsp, hfeq⟩
  · -- genuine byte difference inside both keys
    have hflt' : f < (ks.getD (i + 1) []).length := fdiff_lt_length_left hfc hlt
    have hrepA : ∃ n, truncateAt ks i = (ks.getD i []).take n ∧
        f + 1 ≤ n ∧ n ≤ (ks.getD i []).length := by
      rcases hdbx with ⟨hip, db, hfdb, hdb⟩ | hi0
      · rw [truncateAt_eq ks i db f (Or.inl ⟨hip, hfdb⟩) (Or.inl ⟨hi1, hf⟩),
          if_pos (by omega)]
        exact ⟨max db f + 1, rfl, by omega, by omega⟩
      · rw [truncateAt_eq ks i 0 f (Or.inr ⟨hi0, rfl⟩) (Or.inl ⟨hi1, hf⟩),
          if_pos (by omega)]
        exact ⟨max 0 f + 1, rfl, by omega, by omega⟩
    obtain ⟨ni, hti, hni1, hni2⟩ := hrepA
    obtain ⟨n1, hti1, hn1⟩ := hrepB hflt'
    rw [hti, hti1]
    apply @less_of_take_lt f
    · rw [List.take_take, List.take_take, Nat.min_eq_left (by omega),
        Nat.min_eq_left (by omega)]
      exact fdiff_take _ _ hf
    · rw [List.length_take]
      omega
    · rw [List.length_take]
      omega
    · have hl1 : f < ((ks.getD i []).take ni).length := by
        rw [List.length_take]
        omega
      have hl2 : f < ((ks.getD (i + 1) []).take n1).length := by
        rw [List.length_take]
        omega
      rw [getD_eq_getElem_at hl1, getD_eq_getElem_at hl2,
        List.getElem_take, List.getElem_take,
        ← getD_eq_getElem_at (show f < (ks.getD i []).length by omega),
        ← getD_eq_getElem_at (show f < (ks.getD (i + 1) []).length by omega)]
      exact less_at_fdiff hf hlt hflt hflt'
  · -- key i is a strict prefix of key i+1
    have hflt' : f < (ks.getD (i + 1) []).length := by
      have := hsp.2
      omega
    have htiA : truncateAt ks i = ks.getD i [] := by
      rcases hdbx with ⟨hip, db, hfdb, hdb⟩ | hi0
      · rw [truncateAt_eq ks i db f (Or.inl ⟨hip, hfdb⟩) (Or.inl ⟨hi1, hf⟩),
          if_neg (by omega)]
        have hmx : max db f = (ks.getD i []).length := by omega
        rw [hmx, List.take_length]
      · rw [truncateAt_eq ks i 0 f (Or.inr ⟨hi0, rfl⟩) (Or.inl ⟨hi1, hf⟩),
          if_neg (by omega)]
        have hmx : max 0 f = (ks.getD i []).length := by omega
        rw [hmx, List.take_length]
    obtain ⟨n1, hti1, hn1⟩ := hrepB hflt'
    have hn1' : (ks.getD i []).length + 1 ≤ n1 := by omega
    rw [htiA, hti1]
    have hpre : ks.getD i [] <+: (ks.getD (i + 1) []).take n1 := by
      rw [List.prefix_iff_eq_take, List.take_take,
        Nat.min_eq_left (by omega)]
      exact (prefix_take_eq hsp.1).symm
    apply Key.less_of_prefix_lt hpre
    rw [List.length_take]
    have := hsp.2
    omega

/-- The truncated key list of a strictly sorted list of nonempty keys is
itself strictly sorted. -/
theorem truncate_chain (ks : List Key)
    (hchain : List.Chain' (fun a b => Key.less a b = true) ks)
    (hne : ∀ k ∈ ks, k ≠ []) :
    List.Chain' (fun a b => Key.less a b = true) (truncate ks) := by
  have hlen : (truncate ks).length = ks.length := by simp [truncate]
  apply List.chain'_iff_get.mpr
  intro j hj
  rw [hlen] at hj
  have h1 : (truncate ks).get ⟨j, by omega⟩ = truncateAt ks j := by
    rw [List.get_eq_getElem, ← List.getD_eq_getElem _ [] _]
    exact truncate_getD ks j (by omega)
  have h2 : (truncate ks).get ⟨j + 1, by omega⟩ = truncateAt ks (j + 1) := by
    rw [List.get_eq_getElem, ← List.getD_eq_getElem _ [] _]
    exact truncate_getD ks (j + 1) (by omega)
  rw [h1, h2]
  exact truncate_adj_less ks j hchain hne (by omega)

theorem pairwise_less_getD (ks : List Key)
    (hchain : List.Chain' (fun a b => Key.less a b = true) ks)
    (a b : Nat) (hab : a < b) (hb : b < ks.length) :
    Key.less (ks.getD a []) (ks.getD b []) = true := by
  have hpw : List.Pairwise (fun x y => Key.less x y = true) ks :=
    List.chain'_iff_pairwise.mp hchain
  rw [List.getD_eq_getElem _ _ (by omega : a < ks.length),
    List.getD_eq_getElem _ _ hb]
  exact List.pairwise_iff_getElem.mp hpw a b (by omega) hb hab

theorem keyLeP_getD (ks : List Key)
    (hchain : List.Chain' (fun a b => Key.less a b = true) ks)
    (a b : Nat) (hab : a ≤ b) (hb : b < ks.length) :
    keyLeP (ks.getD a []) (ks.getD b []) := by
  rcases Nat.lt_or_eq_of_le hab with h | h
  · exact Or.inl (pairwise_less_getD ks hchain a b h hb)
  · subst h
    exact Or.inr rfl

theorem truncateAt_pref (ks : List Key) (j : Nat) :
    truncateAt ks j <+: ks.getD j [] := by
  unfold truncateAt
  exact List.take_prefix _ _

/-- When `truncate` shortens the `i`-th key, no truncated key strictly
extends the `i`-th output: the node it names is a leaf of the trie. -/
theorem truncate_no_strict_ext (ks : List Key) (i : Nat)
    (hchain : List.Chain' (fun a b => Key.less a b = true) ks)
    (hne : ∀ k ∈ ks, k ≠ []) (hi : i < ks.length)
    (hshort : (truncateAt ks i).length < (ks.getD i []).length) :
    hasExt (truncate ks) (truncateAt ks i) = false := by
  have hkne : ks.getD i [] ≠ [] := getD_ne_nil ks hne i hi
  have hklen : 0 < (ks.getD i []).length := List.length_pos.mpr hkne
  have hdbx := truncate_db_side ks i hchain hi
  have hdax : (i + 1 < ks.length ∧ ∃ da,
      fdiff (ks.getD i []) (ks.getD (i + 1) []) = some da ∧
      da < (ks.getD i []).length) ∨ i + 1 = ks.length := by
    rcases Nat.lt_or_ge (i + 1) ks.length with hlen | hlen
    · left
      refine ⟨hlen, ?_⟩
      have hlt := chain_adj ks hchain i hlen
      cases hfd : fdiff (ks.getD i []) (ks.getD (i + 1) []) with
      | none => exact absurd ((fdiff_none_iff _ _).mp hfd) (Key.less_ne hlt)
      | some da =>
        refine ⟨da, rfl, ?_⟩
        rcases fdiff_right_cases hfd hlt with h | ⟨hsp, hdeq⟩
        · exact h
        · exfalso
          rcases hdbx with ⟨hip, db, hfdb, hdb⟩ | hi0
          · rw [truncateAt_eq ks i db da (Or.inl ⟨hip, hfdb⟩)
              (Or.inl ⟨hlen, hfd⟩), if_neg (by omega)] at hshort
            have hmx : max db da = (ks.getD i []).length := by omega
            rw [hmx, List.take_length] at hshort
            omega
          · rw [truncateAt_eq ks i 0 da (Or.inr ⟨hi0, rfl⟩)
              (Or.inl ⟨hlen, hfd⟩), if_neg (by omega)] at hshort
            have hmx : max 0 da = (ks.getD i []).length := by omega
            rw [hmx, List.take_length] at hshort
            omega
    · exact Or.inr (by omega)
  obtain ⟨db, da, hdbP, hdaP, hdb_lt, hda_lt, hteq⟩ :
      ∃ db da,
        ((0 < i ∧ fdiff (ks.getD i []) (ks.getD (i - 1) []) = some db) ∨
          (i = 0 ∧ db = 0)) ∧
        ((i + 1 < ks.length ∧
            fdiff (ks.getD i []) (ks.getD (i + 1) []) = some da) ∨
          (i + 1 = ks.length ∧ da = 0)) ∧
        db < (ks.getD i []).length ∧ da < (ks.getD i []).length ∧
        truncateAt ks i = (ks.getD i []).take (max db da + 1) := by
    rcases hdbx with ⟨hip, db, hfdb, hdb⟩ | hi0 <;>
      rcases hdax with ⟨hilen, da, hfda, hda⟩ | hlast
    · refine ⟨db, da, Or.inl ⟨hip, hfdb⟩, Or.inl ⟨hilen, hfda⟩, hdb, hda, ?_⟩
      rw [truncateAt_eq ks i db da (Or.inl ⟨hip, hfdb⟩) (Or.inl ⟨hilen, hfda⟩),
        if_pos (by omega)]
    · refine ⟨db, 0, Or.inl ⟨hip, hfdb⟩, Or.inr ⟨hlast, rfl⟩, hdb, by omega, ?_⟩
      rw [truncateAt_eq ks i db 0 (Or.inl ⟨hip, hfdb⟩) (Or.inr ⟨hlast, rfl⟩),
        if_pos (by omega)]
    · refine ⟨0, da, Or.inr ⟨hi0, rfl⟩, Or.inl ⟨hilen, hfda⟩, by omega, hda, ?_⟩
      rw [truncateAt_eq ks i 0 da (Or.inr ⟨hi0, rfl⟩) (Or.inl ⟨hilen, hfda⟩),
        if_pos (by omega)]
    · refine ⟨0, 0, Or.inr ⟨hi0, rfl⟩, Or.inr ⟨hlast, rfl⟩, by omega, by omega, ?_⟩
      rw [truncateAt_eq ks i 0 0 (Or.inr ⟨hi0, rfl⟩) (Or.inr ⟨hlast, rfl⟩),
        if_pos (by omega)]
  apply Bool.eq_false_iff.mpr
  intro hext
  unfold hasExt at hext
  rw [List.any_eq_true] at hext
  obtain ⟨tj, htjmem, hcond⟩ := hext
  rw [Bool.and_eq_true, decide_eq_true_eq] at hcond
  have hpre0 : truncateAt ks i <+: tj := isPrefixOf_eq.mp hcond.1
  have hlen0 : (truncateAt ks i).length < tj.length := hcond.2
  unfold truncate at htjmem
  rw [List.mem_map] at htjmem
  obtain ⟨j, hjmem, rfl⟩ := htjmem
  rw [List.mem_range] at hjmem
  have htj_kj : truncateAt ks i <+: ks.getD j [] :=
    hpre0.trans (truncateAt_pref ks j)
  have ht_ki : truncateAt ks i <+: ks.getD i [] := truncateAt_pref ks i
  rcases Nat.lt_trichotomy j i with hji | hji | hji
  · rcases hdbP with ⟨hip, hfdb⟩ | ⟨hi0, _⟩
    · have hxy : keyLeP (ks.getD j []) (ks.getD (i - 1) []) :=
        keyLeP_getD ks hchain j (i - 1) (by omega) (by omega)
      have hyz : keyLeP (ks.getD (i - 1) []) (ks.getD i []) := by
        left
        have := chain_adj ks hchain (i - 1) (by omega)
        have heq : i - 1 + 1 = i := by omega
        rwa [heq] at this
      have hmid : truncateAt ks i <+: ks.getD (i - 1) [] :=
        prefix_of_between htj_kj ht_ki hxy hyz
      have hsub : (ks.getD i []).take (db + 1) <+: truncateAt ks i := by
        rw [hteq]
        exact List.take_prefix_take_left _ (by omega)
      exact take_succ_fdiff_not_pref hfdb hdb_lt (hsub.trans hmid)
    · omega
  · subst hji
    omega
  · rcases hdaP with ⟨hilen, hfda⟩ | ⟨hlast, _⟩
    · have hxy : keyLeP (ks.getD i []) (ks.getD (i + 1) []) :=
        Or.inl (chain_adj ks hchain i hilen)
      have hyz : keyLeP (ks.getD (i + 1) []) (ks.getD j []) :=
        keyLeP_getD ks hchain (i + 1) j (by omega) (by omega)
      have hmid : truncateAt ks i <+: ks.getD (i + 1) [] :=
        prefix_of_between ht_ki htj_kj hxy hyz
      have hsub : (ks.getD i []).take (da + 1) <+: truncateAt ks i := by
        rw [hteq]
        exact List.take_prefix_take_left _ (by omega)
      exact take_succ_fdiff_not_pref hfda hda_lt (hsub.trans hmid)
    · omega

/-! Capacity bookkeeping: a successful `build` pre-touches every node's
bitmap extents, so the final node count is bounded by the capacities. -/

theorem set_capacity {bm bm' : Bitmap} {bit : Nat}
    (h : bm.set bit = .ok bm') : bm'.capacity = bm.capacity := by
  unfold Bitmap.set at h
  split at h
  · cases h
  · simp only [Except.ok.injEq] at h
    rw [← h]
    split
    · show (bm.resize (bit + 1)).capacity = bm.capacity
      exact Bitmap.resize_capacity bm (bit + 1)
    · rfl

/-- The bitmap capacities cover all nodes built so far. -/
def CapInv (b : Builder) : Prop :=
  256 * b.current_node_id ≤ b.labels.capacity ∧
  256 * b.current_node_id ≤ b.has_child.capacity ∧
  b.current_node_id ≤ b.is_prefix_key.capacity

theorem foldlM_ok_pres {E α β : Type} (f : β → α → LoopRes E β)
    (P : β → β → Prop)
    (hrefl : ∀ b, P b b) (htrans : ∀ a b c, P a b → P b c → P a c)
    (hstep : ∀ b a b', f b a = .ok b' → P b b') :
    ∀ (l : List α) (b y : β), l.foldlM f b = .ok y → P b y := by
  intro l
  induction l with
  | nil =>
    intro b y h
    have h2 : LoopRes.ok b = LoopRes.ok y := h
    simp only [LoopRes.ok.injEq] at h2
    rw [← h2]
    exact hrefl b
  | cons a l ih =>
    intro b y h
    rw [List.foldlM_cons] at h
    cases hfa : f b a with
    | ok b1 =>
      rw [hfa, LoopRes.ok_bind] at h
      exact htrans b b1 y (hstep b a b1 hfa) (ih b1 y h)
    | err e =>
      rw [hfa, LoopRes.err_bind] at h
      cases h
    | panicked =>
      rw [hfa, LoopRes.panicked_bind] at h
      cases h
    | fuelOut =>
      rw [hfa, LoopRes.fuelOut_bind] at h
      cases h

theorem buildKeyFinish_cap {d : Nat} {key : Key} {edge : Nat} {b : Builder}
    {nhe : Bool} {mre : Nat} {st' : Builder × Bool × Nat}
    (h : Builder.buildKeyFinish d key edge b nhe mre = .ok st') :
    st'.1.labels.capacity = b.labels.capacity ∧
    st'.1.has_child.capacity = b.has_child.capacity ∧
    st'.1.is_prefix_key.capacity = b.is_prefix_key.capacity ∧
    st'.1.current_node_id = b.current_node_id := by
  unfold Builder.buildKeyFinish at h
  split at h
  · cases hget : b.tasks.get? b.current_task_id with
    | none =>
      rw [hget] at h
      cases h
    | some ct =>
      rw [hget] at h
      simp only [LoopRes.ok.injEq] at h
      rw [← h]
      exact ⟨rfl, rfl, rfl, rfl⟩
  · cases hset : b.has_child.set (b.has_child_offset + edge) with
    | error e =>
      rw [hset] at h
      cases h
    | ok hc =>
      rw [hset] at h
      cases hget : b.tasks.get? b.current_task_id with
      | none =>
        rw [hget] at h
        cases h
      | some ct =>
        rw [hget] at h
        simp only [LoopRes.ok.injEq] at h
        rw [← h]
        exact ⟨rfl, set_capacity hset, rfl, rfl⟩

theorem buildKeyStep_cap {d : Nat} {st : Builder × Bool × Nat} {key : Key}
    {st' : Builder × Bool × Nat}
    (h : Builder.buildKeyStep d st key = .ok st') :
    st'.1.labels.capacity = st.1.labels.capacity ∧
    st'.1.has_child.capacity = st.1.has_child.capacity ∧
    st'.1.is_prefix_key.capacity = st.1.is_prefix_key.capacity ∧
    st'.1.current_node_id = st.1.current_node_id := by
  obtain ⟨b, nhe, mre⟩ := st
  unfold Builder.buildKeyStep at h
  cases hk : key.get? d with
  | none =>
    rw [hk] at h
    cases h
  | some edge =>
    rw [hk] at h
    dsimp only at h
    split at h
    · cases hlb : b.labels.set (b.label_offset + edge) with
      | error e =>
        rw [hlb] at h
        cases h
      | ok lb =>
        rw [hlb] at h
        have hfin := buildKeyFinish_cap h
        dsimp only at hfin ⊢
        rw [hfin.1, hfin.2.1, hfin.2.2.1, hfin.2.2.2]
        exact ⟨set_capacity hlb, rfl, rfl, rfl⟩
    · exact buildKeyFinish_cap h

theorem buildTaskBody_cap {d : Nat} {b : Builder} {task : NodeTask}
    {b' : Builder} (h : Builder.buildTaskBody d b task = .ok b')
    (hinv : CapInv b) : CapInv b' := by
  unfold Builder.buildTaskBody at h
  cases hg1 : b.labels.get (b.label_offset + 255) with
  | error e =>
    rw [hg1] at h
    cases h
  | ok p1 =>
    obtain ⟨v1, lb⟩ := p1
    rw [hg1] at h
    dsimp only at h
    cases hg2 : b.has_child.get (b.has_child_offset + 255) with
    | error e =>
      rw [hg2] at h
      cases h
    | ok p2 =>
      obtain ⟨v2, hcb⟩ := p2
      rw [hg2] at h
      dsimp only at h
      cases hg3 : b.is_prefix_key.get b.is_prefix_key_offset with
      | error e =>
        rw [hg3] at h
        cases h
      | ok p3 =>
        obtain ⟨v3, ipk0⟩ := p3
        rw [hg3] at h
        dsimp only at h
        cases hip : (if task.is_prefix_key then ipk0.set b.is_prefix_key_offset
            else .ok ipk0 : Except BmErr Bitmap) with
        | error e =>
          rw [hip] at h
          cases h
        | ok ipk =>
          rw [hip] at h
          dsimp only at h
          cases hkf : task.keys.foldlM (Builder.buildKeyStep d)
              ({ b with
                 labels := lb,
                 has_child := hcb,
                 is_prefix_key := ipk }, false, 0x00) with
          | err e =>
            rw [hkf] at h
            cases h
          | panicked =>
            rw [hkf] at h
            cases h
          | fuelOut =>
            rw [hkf] at h
            cases h
          | ok stf =>
            rw [hkf] at h
            obtain ⟨bf, xf, yf⟩ := stf
            simp only [LoopRes.ok.injEq] at h
            rw [← h]
            have hpres := foldlM_ok_pres (Builder.buildKeyStep d)
              (fun x y =>
                y.1.labels.capacity = x.1.labels.capacity ∧
                y.1.has_child.capacity = x.1.has_child.capacity ∧
                y.1.is_prefix_key.capacity = x.1.is_prefix_key.capacity ∧
                y.1.current_node_id = x.1.current_node_id)
              (fun x => ⟨rfl, rfl, rfl, rfl⟩)
              (fun x y z hxy hyz => ⟨hyz.1.trans hxy.1,
                hyz.2.1.trans hxy.2.1, hyz.2.2.1.trans hxy.2.2.1,
                hyz.2.2.2.trans hxy.2.2.2⟩)
              (fun x a y hy => buildKeyStep_cap hy)
              task.keys _ _ hkf
            dsimp only at hpres
            have hc1 : b.label_offset + 255 < b.labels.capacity :=
              Bitmap.get_lt_capacity hg1
            have hc2 : b.has_child_offset + 255 < b.has_child.capacity :=
              Bitmap.get_lt_capacity hg2
            have hc3 : b.is_prefix_key_offset < b.is_prefix_key.capacity :=
              Bitmap.get_lt_capacity hg3
            have hlc : lb.capacity = b.labels.capacity := Bitmap.get_capacity hg1
            have hhc : hcb.capacity = b.has_child.capacity := Bitmap.get_capacity hg2
            have hpc : ipk.capacity = b.is_prefix_key.capacity := by
              have h0 : ipk0.capacity = b.is_prefix_key.capacity :=
                Bitmap.get_capacity hg3
              by_cases hb2 : task.is_prefix_key
              · rw [if_pos hb2] at hip
                rw [set_capacity hip]
                exact h0
              · rw [if_neg hb2] at hip
                simp only [Except.ok.injEq] at hip
                rw [← hip]
                exact h0
            unfold Builder.label_offset at hc1
            unfold Builder.has_child_offset at hc2
            unfold Builder.is_prefix_key_offset at hc3
            refine ⟨?_, ?_, ?_⟩
            · show 256 * (bf.current_node_id + 1) ≤ bf.labels.capacity
              rw [hpres.1, hpres.2.2.2, hlc]
              omega
            · show 256 * (bf.current_node_id + 1) ≤ bf.has_child.capacity
              rw [hpres.2.1, hpres.2.2.2, hhc]
              omega
            · show bf.current_node_id + 1 ≤ bf.is_prefix_key.capacity
              rw [hpres.2.2.1, hpres.2.2.2, hpc]
              omega

theorem buildTaskStep_cap {d : Nat} {b : Builder} {i : Nat} {b' : Builder}
    (h : Builder.buildTaskStep d b i = .ok b') (hinv : CapInv b) : CapInv b' := by
  unfold Builder.buildTaskStep at h
  cases hg : b.tasks.get? i with
  | none =>
    rw [hg] at h
    cases h
  | some task =>
    rw [hg] at h
    dsimp only at h
    split at h
    · simp only [LoopRes.ok.injEq] at h
      rw [← h]
      exact hinv
    · exact buildTaskBody_cap h hinv

theorem buildLevel_cap {b : Builder} {d : Nat} {b' : Builder}
    (h : Builder.buildLevel b d = .ok b') (hinv : CapInv b) : CapInv b' := by
  unfold Builder.buildLevel at h
  dsimp only at h
  cases hfold : (List.range b.tasks.length).foldlM (Builder.buildTaskStep d) b with
  | ok b1 =>
    rw [hfold] at h
    simp only [LoopRes.ok.injEq] at h
    rw [← h]
    have h1 : CapInv b1 := foldlM_ok_pres (Builder.buildTaskStep d)
      (fun x y => CapInv x → CapInv y) (fun x hx => hx)
      (fun x y z hxy hyz hx => hyz (hxy hx))
      (fun x a y hy hx => buildTaskStep_cap hy hx)
      (List.range b.tasks.length) b b1 hfold hinv
    exact h1
  | err e =>
    rw [hfold] at h
    cases h
  | panicked =>
    rw [hfold] at h
    cases h
  | fuelOut =>
    rw [hfold] at h
    cases h

theorem build_cap {L : Nat} {ts : List Key} {b : Builder}
    (h : (Builder.new L).build ts = .ok b) : CapInv b := by
  have hb0 : (Builder.new L).build ts =
      (List.range (max_key_length ts)).foldlM Builder.buildLevel
        { labels := Bitmap.new 256 (256 * (L / 513))
          has_child := Bitmap.new 256 (256 * (L / 513))
          is_prefix_key := Bitmap.new 1 (L / 513)
          tasks := [{ keys := ts, is_prefix_key := false }]
          current_task_id := 0
          current_node_id := 0 } := rfl
  rw [hb0] at h
  exact foldlM_ok_pres Builder.buildLevel
    (fun x y => CapInv x → CapInv y) (fun x hx => hx)
    (fun x y z hxy hyz hx => hyz (hxy hx))
    (fun x a y hy hx => buildLevel_cap hy hx)
    (List.range (max_key_length ts)) _ b h
    ⟨Nat.zero_le _, Nat.zero_le _, Nat.zero_le _⟩

/-! Descent steps of `go_to_child` under exact bitmap gets. -/

theorem go_to_child_ok_eq (bL bH bP : Bitmap) (r e r' : Nat)
    (ns es kp : List Nat) (ne0 : Nat)
    (hgetL : bL.get (256 * r + e) = .ok (1, bL))
    (hgetH : bH.get (256 * r + e) = .ok (1, bH))
    (hrank : bH.rank 1 (256 * r + e) = .ok r') :
    Iterator.go_to_child ⟨bL, bH, bP, r, ns, ne0, es, kp⟩ e =
      (.ok (), ⟨bL, bH, bP, r', ns ++ [r], 0, es ++ [e], kp ++ [e % 256]⟩) := by
  unfold Iterator.go_to_child
  dsimp only
  rw [hgetL]
  dsimp only
  rw [if_neg (show ¬ (1 : Nat) ≠ 1 from fun h => h rfl)]
  rw [hgetH]
  dsimp only
  rw [if_neg (show ¬ (1 : Nat) ≠ 1 from fun h => h rfl)]
  rw [hrank]

theorem go_to_child_leaf_eq (bL bH bP : Bitmap) (r e : Nat)
    (ns es kp : List Nat) (ne0 : Nat)
    (hgetL : bL.get (256 * r + e) = .ok (1, bL))
    (hgetH : bH.get (256 * r + e) = .ok (0, bH)) :
    Iterator.go_to_child ⟨bL, bH, bP, r, ns, ne0, es, kp⟩ e =
      (.error .isLeaf, ⟨bL, bH, bP, r, ns, e, es, kp⟩) := by
  unfold Iterator.go_to_child
  dsimp only
  rw [hgetL]
  dsimp only
  rw [if_neg (show ¬ (1 : Nat) ≠ 1 from fun h => h rfl)]
  rw [hgetH]
  dsimp only
  rw [if_pos (show (0 : Nat) ≠ 1 from fun h => Nat.noConfusion h)]

/-- Descent of an inserted key through the built trie: starting at the
node whose path is `k.take c`, the byte-by-byte descent either ends in
`IsLeaf` (a hit) or, when the key survived truncation whole, traverses
all bytes and stops at the node whose path is `k`. -/
theorem descent_reaches (ts : List Key) (bL bH : Bitmap)
    (hroot : nodesAtLevel ts 0 = [[]])
    (hviewL : ∀ j, bL.viewBit j = labelBitOf ts (builtNodes ts (max_key_length ts)) j)
    (hviewH : ∀ j, bH.viewBit j = childBitOf ts (builtNodes ts (max_key_length ts)) j)
    (hlenL : 256 * (builtNodes ts (max_key_length ts)).length ≤ bL.length)
    (hlenH : 256 * (builtNodes ts (max_key_length ts)).length ≤ bH.length)
    (hcapL : 256 * (builtNodes ts (max_key_length ts)).length ≤ bL.capacity)
    (hcapH : 256 * (builtNodes ts (max_key_length ts)).length ≤ bH.capacity)
    (k t : Key) (htmem : t ∈ ts) (htpre : t <+: k) (htne : t ≠ [])
    (hkbytes : ∀ x ∈ k, x < 256)
    (hnoext : t.length < k.length → hasExt ts t = false) :
    ∀ fuel c r (it : Iterator), t.length - c ≤ fuel → c < t.length →
      it.labels = bL → it.has_child = bH → it.node_index = r →
      r < (builtNodes ts (max_key_length ts)).length →
      (builtNodes ts (max_key_length ts)).getD r [] = k.take c →
      (∃ i it', descentOutcome it c (k.drop c) = .leaf i it') ∨
      (t = k ∧ ∃ r' it', descentOutcome it c (k.drop c) = .complete it' ∧
        it'.node_index = r' ∧ r' < (builtNodes ts (max_key_length ts)).length ∧
        (builtNodes ts (max_key_length ts)).getD r' [] = k) := by
  intro fuel
  induction fuel with
  | zero =>
    intro c r it hfuel hc _ _ _ _ _
    omega
  | succ fuel ih =>
    intro c r it hfuel hc hitL hitH hitN hr hrget
    obtain ⟨itL, itH, itP, itN, itNs, itNe, itEs, itKp⟩ := it
    dsimp only at hitL hitH hitN
    rw [hitL, hitH, hitN]
    have hck : c < k.length := lt_of_lt_of_le hc htpre.length_le
    have hdropc : k.drop c = k.getD c 0 :: k.drop (c + 1) := by
      rw [List.drop_eq_getElem_cons hck, getD_eq_getElem_at hck]
    have he256 : k.getD c 0 < 256 := by
      apply hkbytes
      rw [getD_eq_getElem_at hck]
      exact List.getElem_mem _
    have hsnoc : k.take c ++ [k.getD c 0] = k.take (c + 1) := by
      apply take_snoc_eq c
      · rw [List.length_take]
        omega
      · exact List.take_prefix _ _
      · exact hck
    have htake_t : k.take (c + 1) <+: t := by
      have h1 : t.take (c + 1) = k.take (c + 1) := by
        conv_lhs => rw [← prefix_take_eq htpre]
        rw [List.take_take, Nat.min_eq_left (by omega)]
      rw [← h1]
      exact List.take_prefix _ _
    have hofflt : 256 * r + k.getD c 0 <
        256 * (builtNodes ts (max_key_length ts)).length := by omega
    have hlabel : bL.viewBit (256 * r + k.getD c 0) = true := by
      rw [hviewL]
      unfold labelBitOf
      have hdiv : (256 * r + k.getD c 0) / 256 = r := by omega
      have hmod : (256 * r + k.getD c 0) % 256 = k.getD c 0 := by omega
      rw [hdiv, hmod, hrget, hsnoc, decide_eq_true hr, Bool.true_and]
      unfold touches
      rw [List.any_eq_true]
      refine ⟨t, htmem, ?_⟩
      exact isPrefixOf_eq.mpr htake_t
    have hgetL : bL.get (256 * r + k.getD c 0) = .ok (1, bL) := by
      have h0 := get_noresize (256 * r + k.getD c 0)
        (by omega : 256 * r + k.getD c 0 < bL.length)
        (by omega : 256 * r + k.getD c 0 < bL.capacity)
      rw [hlabel] at h0
      simpa using h0
    have hchildbit : bH.viewBit (256 * r + k.getD c 0) =
        hasExt ts (k.take (c + 1)) := by
      rw [hviewH, childBit_at he256 hr, hrget, hsnoc]
    rcases Nat.lt_or_ge (c + 1) t.length with hc1 | hc1
    · -- interior byte of the truncated key: the edge has a child
      have hext : hasExt ts (k.take (c + 1)) = true := by
        unfold hasExt
        rw [List.any_eq_true]
        refine ⟨t, htmem, ?_⟩
        rw [Bool.and_eq_true, decide_eq_true_eq]
        refine ⟨isPrefixOf_eq.mpr htake_t, ?_⟩
        rw [List.length_take]
        omega
      have hgetH : bH.get (256 * r + k.getD c 0) = .ok (1, bH) := by
        have h0 := get_noresize (256 * r + k.getD c 0)
          (by omega : 256 * r + k.getD c 0 < bH.length)
          (by omega : 256 * r + k.getD c 0 < bH.capacity)
        rw [hchildbit, hext] at h0
        simpa using h0
      obtain ⟨r', hr', hgetr', hrank'⟩ := child_node_index ts hroot r
        (k.getD c 0) hr he256 (by rw [hrget, hsnoc]; exact hext)
      have hrank : bH.rank 1 (256 * r + k.getD c 0) = .ok r' := by
        rw [rank_one_spec bH _ (by omega), hrank' bH hviewH]
      have hstep := go_to_child_ok_eq bL bH itP r (k.getD c 0) r'
        itNs itEs itKp itNe hgetL hgetH hrank
      rw [hdropc]
      simp only [descentOutcome]
      rw [hstep]
      exact ih (c + 1) r' _ (by omega) hc1 rfl rfl rfl hr'
        (by rw [hgetr', hrget, hsnoc])
    · -- last byte of the truncated key
      have hc1' : c + 1 = t.length := by omega
      have httake : k.take (c + 1) = t := by
        rw [hc1']
        exact prefix_take_eq htpre
      by_cases hx : hasExt ts t = true
      · -- the key survived truncation whole, and its node has children
        have hkt : t = k := by
          rcases Nat.lt_or_ge t.length k.length with hlt | hge
          · rw [hnoext hlt] at hx
            exact Bool.noConfusion hx
          · exact htpre.eq_of_length (le_antisymm htpre.length_le hge)
        have hck1 : c + 1 = k.length := by
          rw [hkt] at hc1'
          exact hc1'
        have hdrop1 : k.drop (c + 1) = [] := by
          rw [hck1, List.drop_length]
        have hgetH : bH.get (256 * r + k.getD c 0) = .ok (1, bH) := by
          have h0 := get_noresize (256 * r + k.getD c 0)
            (by omega : 256 * r + k.getD c 0 < bH.length)
            (by omega : 256 * r + k.getD c 0 < bH.capacity)
          rw [hchildbit, httake, hx] at h0
          simpa using h0
        obtain ⟨r', hr', hgetr', hrank'⟩ := child_node_index ts hroot r
          (k.getD c 0) hr he256
          (by rw [hrget, hsnoc, httake]; exact hx)
        have hrank : bH.rank 1 (256 * r + k.getD c 0) = .ok r' := by
          rw [rank_one_spec bH _ (by omega), hrank' bH hviewH]
        have hstep := go_to_child_ok_eq bL bH itP r (k.getD c 0) r'
          itNs itEs itKp itNe hgetL hgetH hrank
        rw [hdropc]
        simp only [descentOutcome]
        rw [hstep]
        rw [hdrop1]
        right
        refine ⟨hkt, r', _, rfl, rfl, hr', ?_⟩
        rw [hgetr', hrget, hsnoc, httake, hkt]
      · -- the truncated key ends here: IsLeaf
        have hxf : hasExt ts (k.take (c + 1)) = false := by
          rw [httake]
          exact Bool.eq_false_iff.mpr hx
        have hgetH0 : bH.get (256 * r + k.getD c 0) = .ok (0, bH) := by
          have h0 := get_noresize (256 * r + k.getD c 0)
            (by omega : 256 * r + k.getD c 0 < bH.length)
            (by omega : 256 * r + k.getD c 0 < bH.capacity)
          rw [hchildbit, hxf] at h0
          simpa using h0
        have hstep := go_to_child_leaf_eq bL bH itP r (k.getD c 0)
          itNs itEs itKp itNe hgetL hgetH0
        rw [hdropc]
        simp only [descentOutcome]
        rw [hstep]
        exact Or.inl ⟨c, _, rfl⟩

/-- C1: for every finite list of distinct nonempty byte-string keys,
building an index over it (`Surf::new`: sort, truncate, dense builder)
and then running `point_lookup` on each original key returns found
(`exists = true`, with no soft error): a false negative never occurs for
an inserted key. -/
theorem surf_roundtrip_found (raw_keys : List Key) (options : Options)
    (s : Surf)
    (hnodup : raw_keys.Nodup)
    (hne : ∀ k ∈ raw_keys, k ≠ [])
    (hbytes : ∀ k ∈ raw_keys, ∀ x ∈ k, x < 256)
    (hnew : Surf.new raw_keys options = .ok s)
    (k : Key) (hk : k ∈ raw_keys) :
    ∃ m it, (s.lookup k).1 = .ok (true, m, it, none) := by
  -- the sorted key list and its truncation
  have hperm := raw_keys.mergeSort_perm keyLe
  have hchain : List.Chain' (fun a b => Key.less a b = true)
      (raw_keys.mergeSort keyLe) := mergeSort_less_chain raw_keys hnodup
  have hne_ks : ∀ x ∈ raw_keys.mergeSort keyLe, x ≠ [] :=
    fun x hx => hne x (hperm.mem_iff.mp hx)
  have hbytes_ks : ∀ x ∈ raw_keys.mergeSort keyLe, ∀ y ∈ x, y < 256 :=
    fun x hx => hbytes x (hperm.mem_iff.mp hx)
  have hchain_ts : List.Chain' (fun a b => Key.less a b = true)
      (truncate (raw_keys.mergeSort keyLe)) :=
    truncate_chain _ hchain hne_ks
  have hne_ts : ∀ x ∈ truncate (raw_keys.mergeSort keyLe), x ≠ [] :=
    truncate_ne_nil _ hne_ks
  have hbytes_ts : ∀ x ∈ truncate (raw_keys.mergeSort keyLe), ∀ y ∈ x, y < 256 := by
    intro x hx y hy
    unfold truncate at hx
    rw [List.mem_map] at hx
    obtain ⟨j, hjmem, rfl⟩ := hx
    rw [List.mem_range] at hjmem
    have hsub : truncateAt (raw_keys.mergeSort keyLe) j
        <+: (raw_keys.mergeSort keyLe).getD j [] := truncateAt_pref _ j
    apply hbytes_ks ((raw_keys.mergeSort keyLe).getD j []) ?hmem y
      (hsub.sublist.subset hy)
    case hmem =>
      rw [List.getD_eq_getElem _ _ hjmem]
      exact List.getElem_mem _
  -- the inserted key and its truncated representative
  have hkks : k ∈ raw_keys.mergeSort keyLe := hperm.mem_iff.mpr hk
  obtain ⟨i, hi, hki⟩ := List.mem_iff_getElem.mp hkks
  have hgetD : (raw_keys.mergeSort keyLe).getD i [] = k := by
    rw [List.getD_eq_getElem _ _ hi]
    exact hki
  have hts_ne : truncate (raw_keys.mergeSort keyLe) ≠ [] := by
    intro h0
    have := congrArg List.length h0
    simp only [List.length_nil] at this
    unfold truncate at this
    rw [List.length_map, List.length_range] at this
    omega
  have htmem : truncateAt (raw_keys.mergeSort keyLe) i ∈
      truncate (raw_keys.mergeSort keyLe) := by
    unfold truncate
    rw [List.mem_map]
    exact ⟨i, List.mem_range.mpr hi, rfl⟩
  have htpre : truncateAt (raw_keys.mergeSort keyLe) i <+: k := by
    have := truncateAt_pref (raw_keys.mergeSort keyLe) i
    rwa [hgetD] at this
  have htne : truncateAt (raw_keys.mergeSort keyLe) i ≠ [] := by
    apply truncateAt_ne_nil
    rw [hgetD]
    exact hne k hk
  have hnoext : (truncateAt (raw_keys.mergeSort keyLe) i).length < k.length →
      hasExt (truncate (raw_keys.mergeSort keyLe))
        (truncateAt (raw_keys.mergeSort keyLe) i) = false := by
    intro hlt
    apply truncate_no_strict_ext _ i hchain hne_ks hi
    rw [hgetD]
    exact hlt
  -- dissect Surf.new
  simp only [Surf.new] at hnew
  cases hb : (Builder.new options.memory_limit).build
      (truncate (raw_keys.mergeSort keyLe)) with
  | err e =>
    rw [hb] at hnew
    cases hnew
  | panicked =>
    rw [hb] at hnew
    cases hnew
  | fuelOut =>
    rw [hb] at hnew
    cases hnew
  | ok b =>
    rw [hb] at hnew
    simp only [LoopRes.ok.injEq] at hnew
    subst hnew
    -- builder characterization and capacity facts
    have hchar := build_characterization _ options.memory_limit b
      hbytes_ts hchain_ts hne_ts hb
    have hMdef := midNodes_zero (truncate (raw_keys.mergeSort keyLe))
      (max_key_length (truncate (raw_keys.mergeSort keyLe)))
    have hviewL : ∀ j, b.labels.viewBit j =
        labelBitOf (truncate (raw_keys.mergeSort keyLe))
          (builtNodes (truncate (raw_keys.mergeSort keyLe))
            (max_key_length (truncate (raw_keys.mergeSort keyLe)))) j := by
      intro j
      have := hchar.viewL j
      rwa [hMdef] at this
    have hviewH : ∀ j, b.has_child.viewBit j =
        childBitOf (truncate (raw_keys.mergeSort keyLe))
          (builtNodes (truncate (raw_keys.mergeSort keyLe))
            (max_key_length (truncate (raw_keys.mergeSort keyLe)))) j := by
      intro j
      have := hchar.viewH j
      rwa [hMdef] at this
    have hviewP : ∀ j, b.is_prefix_key.viewBit j =
        prefixBitOf (truncate (raw_keys.mergeSort keyLe))
          (builtNodes (truncate (raw_keys.mergeSort keyLe))
            (max_key_length (truncate (raw_keys.mergeSort keyLe)))) j := by
      intro j
      have := hchar.viewP j
      rwa [hMdef] at this
    have hlenL := hchar.lenL
    have hlenH := hchar.lenH
    have hlenP := hchar.lenP
    rw [hMdef] at hlenL hlenH hlenP
    have hnid := hchar.nid
    rw [hMdef] at hnid
    have hcap := build_cap hb
    obtain ⟨hcapL, hcapH, hcapP⟩ := hcap
    rw [hnid] at hcapL hcapH hcapP
    -- the root node
    have hroot := root_level _ hts_ne hne_ts
    have hM1 : 1 ≤ max_key_length (truncate (raw_keys.mergeSort keyLe)) := by
      have h1 := le_max_key_length htmem
      have h2 : 0 < (truncateAt (raw_keys.mergeSort keyLe) i).length :=
        List.length_pos.mpr htne
      omega
    have h1 : builtNodes (truncate (raw_keys.mergeSort keyLe)) 1 = [[]] := by
      show (List.range 1).flatMap
        (nodesAtLevel (truncate (raw_keys.mergeSort keyLe))) = [[]]
      rw [show List.range 1 = [0] by rfl]
      rw [List.flatMap_cons, List.flatMap_nil, hroot]
      rfl
    have hsplit := builtNodes_split (truncate (raw_keys.mergeSort keyLe)) hM1
    have hNS0len : 0 < (builtNodes (truncate (raw_keys.mergeSort keyLe))
        (max_key_length (truncate (raw_keys.mergeSort keyLe)))).length := by
      rw [hsplit, h1]
      simp
    have hNS0 : (builtNodes (truncate (raw_keys.mergeSort keyLe))
        (max_key_length (truncate (raw_keys.mergeSort keyLe)))).getD 0 [] = [] := by
      rw [hsplit, h1]
      rfl
    -- run the descent
    have hres := descent_reaches (truncate (raw_keys.mergeSort keyLe))
      b.labels b.has_child hroot hviewL hviewH hlenL hlenH hcapL hcapH
      k (truncateAt (raw_keys.mergeSort keyLe) i) htmem htpre htne
      (hbytes k hk) hnoext
      (truncateAt (raw_keys.mergeSort keyLe) i).length 0 0
      (Surf.initIterator ⟨b.labels, b.has_child, b.is_prefix_key⟩)
      (by omega) (List.length_pos.mpr htne) rfl rfl rfl hNS0len
      (by rw [List.take_zero]; exact hNS0)
    rw [List.drop_zero] at hres
    rcases hres with ⟨i', it', hout⟩ | ⟨hkt, r', it', hout, hnode, hr', hgetr'⟩
    · -- IsLeaf hit
      refine ⟨k.take (i' + 1), it', ?_⟩
      simp only [Surf.lookup]
      rw [lookupDescend_eq_descentOutcome k k
        (Surf.initIterator ⟨b.labels, b.has_child, b.is_prefix_key⟩) 0, hout]
    · -- full traversal; the IsPrefixKey bit is set
      have hvP : b.is_prefix_key.viewBit r' = true := by
        rw [hviewP r']
        unfold prefixBitOf
        rw [decide_eq_true hr', Bool.true_and, hgetr']
        exact decide_eq_true (hkt ▸ htmem)
      have hgetP : b.is_prefix_key.get it'.node_index =
          .ok (1, b.is_prefix_key) := by
        rw [hnode]
        have h0 := get_noresize r' (lt_of_lt_of_le hr' hlenP)
          (lt_of_lt_of_le hr' hcapP)
        rw [hvP] at h0
        simpa using h0
      refine ⟨k, it', ?_⟩
      simp only [Surf.lookup]
      rw [lookupDescend_eq_descentOutcome k k
        (Surf.initIterator ⟨b.labels, b.has_child, b.is_prefix_key⟩) 0, hout]
      dsimp only
      rw [hgetP]
      simp

set_option maxRecDepth 4000 in
/-- Witness for C1: building over the distinct nonempty keys
`{"a", "ab"}` and looking up `"ab"` reports found. -/
theorem surf_roundtrip_found_witness :
    ∃ s, Surf.new [[97], [97, 98]] Options.new = .ok s ∧
      ∃ m it, (s.lookup [97, 98]).1 = .ok (true, m, it, none) := by
  refine ⟨_, rfl, ?_⟩
  exact surf_roundtrip_found [[97], [97, 98]] Options.new _
    (by decide) (by decide) (by decide) rfl [97, 98] (by decide)

end Rsurf
